import Mathlib

/-!
# Result aggregation and check execution in powerpipe

A shallow embedding of `internal/controlexecute/result_group.go`, of the
exit-code logic and the argument validation of `internal/cmd/check.go`, of
`DetectionRun.Execute` (`internal/dashboardexecute/detection_run.go`), of
`collectInputs` (`internal/cmd/dashboard.go`) and of
`DashboardCategoryFold.Equals` (`internal/resources`), with the properties of
the specification stated over it.

Two views of a `ResultGroup` are used, as in the Go code, where a group is a
struct reached through pointers:

* the *heap view* (`ResultGroup`, `Heap`): groups are cells of an arena and a
  pointer is an index into it.  This is the view of everything that walks
  upwards through `Parent` (`updateSummary`, `updateSeverityCounts`,
  `addDimensionKeys`, `onChildDone`) and of what `execute` writes to the groups.
* the *ownership view* (`GroupTree`): a group owns its child groups and its
  control runs.  This is the view of everything that walks downwards through
  `Groups` and `ControlRuns` (`NewResultGroup`, `ControlRunCount`, `execute`,
  `GetChildGroupByName`, `AllTagKeys`).

Code that calls out to collaborators (`execute`, `executeRun`,
`DetectionRun.Execute`) is embedded as the sequence of calls it makes, the
results of the collaborators being parameters.
-/

set_option autoImplicit false

namespace Powerpipe

/-! ## Go `int` arithmetic -/

/-- Two's complement wrap of an integer into the range of Go's 64-bit `int`. -/
def wrapInt (x : Int) : Int :=
  (x + 9223372036854775808) % 18446744073709551616 - 9223372036854775808

/-- Go's `a + b` on `int`: addition that wraps on overflow. -/
def intAdd (a b : Int) : Int := wrapInt (a + b)

/-! ## controlstatus.StatusSummary -/

/-- The counter vector `controlstatus.StatusSummary`. -/
structure StatusSummary where
  Alarm : Int
  Ok : Int
  Info : Int
  Skip : Int
  Error : Int
deriving DecidableEq, Repr

/-- The zero value `controlstatus.StatusSummary{}`. -/
def StatusSummary.zero : StatusSummary := ⟨0, 0, 0, 0, 0⟩

/-- The five `+=` statements of `updateSummary` and `updateSeverityCounts`:
every counter of `summary` is added to the same counter of `val`. -/
def StatusSummary.add (val summary : StatusSummary) : StatusSummary :=
  { Alarm := intAdd val.Alarm summary.Alarm
    Ok := intAdd val.Ok summary.Ok
    Info := intAdd val.Info summary.Info
    Skip := intAdd val.Skip summary.Skip
    Error := intAdd val.Error summary.Error }

/-- The pointwise sum of a list of summaries, in Go `int` arithmetic, starting
from the zero summary. -/
def StatusSummary.sum (l : List StatusSummary) : StatusSummary :=
  l.foldl StatusSummary.add StatusSummary.zero

/-- The pointwise sum of a list of summaries over the integers, without
wrapping. -/
def StatusSummary.exactSum (l : List StatusSummary) : StatusSummary :=
  { Alarm := (l.map StatusSummary.Alarm).sum
    Ok := (l.map StatusSummary.Ok).sum
    Info := (l.map StatusSummary.Info).sum
    Skip := (l.map StatusSummary.Skip).sum
    Error := (l.map StatusSummary.Error).sum }

/-- No counter is negative. -/
def StatusSummary.nonneg (s : StatusSummary) : Prop :=
  0 ≤ s.Alarm ∧ 0 ≤ s.Ok ∧ 0 ≤ s.Info ∧ 0 ≤ s.Skip ∧ 0 ≤ s.Error

/-- Every counter is below 2^63, the first value that a Go `int` cannot hold. -/
def StatusSummary.small (s : StatusSummary) : Prop :=
  s.Alarm < 9223372036854775808 ∧ s.Ok < 9223372036854775808 ∧
    s.Info < 9223372036854775808 ∧ s.Skip < 9223372036854775808 ∧
    s.Error < 9223372036854775808

/-- The summaries are counters (none is negative) whose sums fit a Go `int`. -/
def StatusSummary.fits (l : List StatusSummary) : Prop :=
  (∀ s ∈ l, s.nonneg) ∧ (StatusSummary.exactSum l).small

/-- A Go `map[string]controlstatus.StatusSummary`: a missing key reads as
"does not exist". -/
abbrev SeverityMap := String → Option StatusSummary

/-- The empty map returned by `make`. -/
def SeverityMap.empty : SeverityMap := fun _ => none

/-- The map assignment `m[key] = val`. -/
def SeverityMap.set (m : SeverityMap) (key : String) (val : StatusSummary) : SeverityMap :=
  fun k => if k = key then some val else m k

/-! ## Heap view of result groups -/

/-- The struct `GroupSummary`. -/
structure GroupSummary where
  Status : StatusSummary
  Severity : SeverityMap

/-- The result of `NewGroupSummary`. -/
def NewGroupSummary : GroupSummary :=
  { Status := StatusSummary.zero, Severity := SeverityMap.empty }

/-- A `ResultGroup` cell of the heap.  Pointers to groups are heap indices;
`ControlRuns` holds the names of the group's control runs; a time is a number
of ticks of the clock. -/
structure ResultGroup where
  GroupId : String
  Summary : GroupSummary
  Groups : List Nat
  ControlRuns : List String
  Severity : SeverityMap
  Parent : Option Nat
  DimensionKeys : List String
  childrenComplete : Nat
  executionStartTime : Nat

/-- The arena of result groups: the group at address `i` is `h[i]`. -/
abbrev Heap := List ResultGroup

/-- The assignments of `updateSummary` to `r.Summary.Status`. -/
def ResultGroup.addStatus (g : ResultGroup) (summary : StatusSummary) : ResultGroup :=
  { g with Summary := { g.Summary with Status := g.Summary.Status.add summary } }

/-- The group with `r.Summary.Status` replaced by `st`. -/
def ResultGroup.withStatus (g : ResultGroup) (st : StatusSummary) : ResultGroup :=
  { g with Summary := { g.Summary with Status := st } }

/-- The recursion of `ResultGroup.updateSummary` on the group at address `r`:
add `summary` to the group's status, then do the same on `Parent` when it is
not nil.  `fuel` bounds the number of groups visited. -/
def updateSummaryFuel : Nat → Heap → Nat → StatusSummary → Heap
  | 0, h, _, _ => h
  | fuel + 1, h, r, summary =>
    match h[r]? with
    | none => h
    | some g =>
      let h1 := h.set r (g.addStatus summary)
      match g.Parent with
      | none => h1
      | some p => updateSummaryFuel fuel h1 p summary

/-- The method `ResultGroup.updateSummary`, called on the group at address `r`.
A parent chain never visits more groups than the heap holds. -/
def updateSummary (h : Heap) (r : Nat) (summary : StatusSummary) : Heap :=
  updateSummaryFuel h.length h r summary

/-- The parent links of a heap form a tree (a forest): every `Parent` was
allocated before its child, so its address is smaller. -/
def Heap.isTree (h : Heap) : Bool :=
  (List.range h.length).all fun i =>
    match h[i]? with
    | some g =>
      match g.Parent with
      | some p => decide (p < i)
      | none => true
    | none => true

/-- The groups met when walking from `r` upwards through `Parent`, `r` first. -/
def chainFuel : Nat → Heap → Nat → List Nat
  | 0, _, _ => []
  | fuel + 1, h, r =>
    match h[r]? with
    | none => []
    | some g =>
      r :: (match g.Parent with
            | none => []
            | some p => chainFuel fuel h p)

/-- The group `r` and all its ancestors. -/
def ancestorsOrSelf (h : Heap) (r : Nat) : List Nat := chainFuel h.length h r

/-- A leaf (control run) as the aggregation sees it: the address of its parent
group and the summary it reports. -/
structure Leaf where
  group : Nat
  summary : StatusSummary
deriving DecidableEq

/-- One leaf reporting to its parent group: `Group.updateSummary(&Summary)`. -/
def reportSummary (h : Heap) (l : Leaf) : Heap := updateSummary h l.group l.summary

/-- The leaves of the subtree of group `g`: those whose parent is `g` or a
descendant of `g`. -/
def leavesBelow (h : Heap) (g : Nat) (leaves : List Leaf) : List Leaf :=
  leaves.filter fun l => decide (g ∈ ancestorsOrSelf h l.group)


/-- A heap cell with zero summary, empty maps and no children recorded. -/
def ResultGroup.fresh (id : String) (parent : Option Nat) : ResultGroup :=
  { GroupId := id, Summary := NewGroupSummary, Groups := [], ControlRuns := [],
    Severity := SeverityMap.empty, Parent := parent, DimensionKeys := [],
    childrenComplete := 0, executionStartTime := 0 }

/-- A small tree: the root (address 0) with two child groups (1 and 2). -/
def sampleHeap : Heap :=
  [ResultGroup.fresh "root_result_group" none, ResultGroup.fresh "b1" (some 0),
   ResultGroup.fresh "b2" (some 0)]

/-- Three leaves: one under each group of `sampleHeap`. -/
def sampleLeaves : List Leaf :=
  [⟨1, ⟨1, 0, 0, 0, 0⟩⟩, ⟨2, ⟨0, 0, 0, 0, 1⟩⟩, ⟨0, ⟨0, 1, 0, 0, 0⟩⟩]

/-- The leaves of `sampleLeaves` in another completion order. -/
def sampleOrder : List Leaf :=
  [⟨0, ⟨0, 1, 0, 0, 0⟩⟩, ⟨2, ⟨0, 0, 0, 0, 1⟩⟩, ⟨1, ⟨1, 0, 0, 0, 0⟩⟩]

/-- The value that `updateSeverityCounts` stores under `severity`: the entry
read from `r.Severity` (the zero summary when it does not exist) plus
`summary`. -/
def severityVal (g : ResultGroup) (severity : String) (summary : StatusSummary) :
    StatusSummary :=
  let val := match g.Severity severity with
    | some v => v
    | none => StatusSummary.zero
  val.add summary

/-- The recursion of `ResultGroup.updateSeverityCounts` on the group at address
`r`: the entry is read from `r.Severity`, `summary` is added to it, the result
is stored in `r.Summary.Severity`, and the call is repeated on `Parent` when it
is not nil. -/
def updateSeverityCountsFuel : Nat → Heap → Nat → String → StatusSummary → Heap
  | 0, h, _, _, _ => h
  | fuel + 1, h, r, severity, summary =>
    match h[r]? with
    | none => h
    | some g =>
      let val := severityVal g severity summary
      let h1 := h.set r
        { g with Summary := { g.Summary with Severity := g.Summary.Severity.set severity val } }
      match g.Parent with
      | none => h1
      | some p => updateSeverityCountsFuel fuel h1 p severity summary

/-- The method `ResultGroup.updateSeverityCounts`, called on the group at
address `r`. -/
def updateSeverityCounts (h : Heap) (r : Nat) (severity : String) (summary : StatusSummary) :
    Heap :=
  updateSeverityCountsFuel h.length h r severity summary

/-- The entry `Summary.Severity[severity]` of the group at address `r`. -/
def summarySeverityAt (h : Heap) (r : Nat) (severity : String) : Option StatusSummary :=
  (h[r]?).bind fun g => g.Summary.Severity severity

/-! ## Exit code of a check run (`internal/cmd/check.go`) -/

/-- The constant `constants.ExitCodeSuccessful` of pipe-fittings, with the value
documented above `runCheckCmd`: "exitCode=0 no runtime errors, no control alarms
or errors". -/
def ExitCodeSuccessful : Int := 0

/-- The constant `constants.ExitCodeControlsAlarm` of pipe-fittings, with the
value documented above `runCheckCmd`: "exitCode=1 no runtime errors, 1 or more
control alarms, no control errors". -/
def ExitCodeControlsAlarm : Int := 1

/-- The constant `constants.ExitCodeControlsError` of pipe-fittings, with the
value documented above `runCheckCmd`: "exitCode=2 no runtime errors, 1 or more
control errors". -/
def ExitCodeControlsError : Int := 2

/-- The function `getExitCode`: the exit code for a successful check run. -/
def getExitCode (alarms errors : Int) : Int :=
  if errors > 0 then ExitCodeControlsError
  else if alarms > 0 then ExitCodeControlsAlarm
  else ExitCodeSuccessful

/-- What happens to one named tree in the loop of `runCheckCmd`: whether
`executeTree`, `publishSnapshot` and `exportExecutionTree` return an error, and
the alarm and error counters of `tree.Root.Summary.Status` after execution. -/
structure TreeRun where
  executeErr : Bool
  Alarm : Int
  Error : Int
  publishErr : Bool
  exportErr : Bool
deriving DecidableEq

/-- The loop `for _, namedTree := range trees` of `runCheckCmd`, as a function
of the running `totalAlarms` and `totalErrors`; the result is their value when
the function returns. -/
def checkLoop : List TreeRun → Int → Int → Int × Int
  | [], totalAlarms, totalErrors => (totalAlarms, totalErrors)
  | t :: rest, totalAlarms, totalErrors =>
    if t.executeErr then (totalAlarms, intAdd totalErrors 1)
    else
      let totalAlarms1 := t.Alarm
      let totalErrors1 := t.Error
      if t.publishErr then (totalAlarms1, intAdd totalErrors1 1)
      else if t.exportErr then checkLoop rest totalAlarms1 (intAdd totalErrors1 1)
      else checkLoop rest totalAlarms1 totalErrors1

/-- The exit code that the deferred function of `runCheckCmd` sets once the
loop over the trees has returned. -/
def runCheckExitCode (trees : List TreeRun) : Int :=
  getExitCode (checkLoop trees 0 0).1 (checkLoop trees 0 0).2

/-- Two trees that execute, publish and export without error: the first ends
with one alarm and one error, the second is clean. -/
def sampleTreeRuns : List TreeRun :=
  [⟨false, 1, 1, false, false⟩, ⟨false, 0, 0, false, false⟩]

/-! ## Ownership view: construction of the result tree -/

/-- The constant `RootResultGroupName`. -/
def RootResultGroupName : String := "root_result_group"

/-- The constant `schema.BlockTypeBenchmark` of pipe-fittings; the comment on
the field `NodeType` gives its value. -/
def BlockTypeBenchmark : String := "benchmark"

/-- A `resources.Control`, with the properties that the result tree reads. -/
structure Control where
  name : String
  title : String
  description : String
  tags : List (String × String)
  documentation : String
  display : String
  controlType : String
deriving DecidableEq

/-- A `ControlRun`, the leaf of the result tree, with the control it runs. -/
structure ControlRun where
  Control : Control
deriving DecidableEq

/-- A `modconfig.ModTreeItem`: a control, a benchmark, or an item of another
type (a mod, for instance). -/
inductive ModTreeItem where
  | control (c : Control)
  | benchmark (name title description : String) (tags : List (String × String))
      (documentation display benchmarkType : String) (children : List ModTreeItem)
  | other (name title description : String) (tags : List (String × String))
      (children : List ModTreeItem)

/-- The method `Name` of a tree item. -/
def ModTreeItem.Name : ModTreeItem → String
  | .control c => c.name
  | .benchmark name _ _ _ _ _ _ _ => name
  | .other name _ _ _ _ => name

/-- The method `GetTitle` of a tree item. -/
def ModTreeItem.GetTitle : ModTreeItem → String
  | .control c => c.title
  | .benchmark _ title _ _ _ _ _ _ => title
  | .other _ title _ _ _ => title

/-- The method `GetDescription` of a tree item. -/
def ModTreeItem.GetDescription : ModTreeItem → String
  | .control c => c.description
  | .benchmark _ _ description _ _ _ _ _ => description
  | .other _ _ description _ _ => description

/-- The method `GetTags` of a tree item. -/
def ModTreeItem.GetTags : ModTreeItem → List (String × String)
  | .control c => c.tags
  | .benchmark _ _ _ tags _ _ _ _ => tags
  | .other _ _ _ tags _ => tags

/-- The method `GetChildren` of a tree item; a control has no children. -/
def ModTreeItem.GetChildren : ModTreeItem → List ModTreeItem
  | .control _ => []
  | .benchmark _ _ _ _ _ _ _ children => children
  | .other _ _ _ _ children => children

/-- The type assertion `c.(*resources.Benchmark)` succeeds. -/
def ModTreeItem.isBenchmark : ModTreeItem → Bool
  | .benchmark _ _ _ _ _ _ _ _ => true
  | _ => false

/-- The type assertion `c.(*resources.Control)`: the control when it succeeds. -/
def ModTreeItem.asControl : ModTreeItem → Option Control
  | .control c => some c
  | _ => none

/-- An entry of `ResultGroup.Children`: a pointer to a child group or to a
control run (named by its control). -/
inductive ChildRef where
  | group (addr : Nat)
  | controlRun (name : String)
deriving DecidableEq

/-- A `ResultGroup` together with the groups and control runs it owns.  `addr`
is the address of the struct, `Parent` the address held in its `Parent` field
(`none` for nil). -/
inductive GroupTree where
  | mk (GroupId Title Description : String) (Tags : List (String × String))
      (Documentation Display GroupType NodeType : String) (addr : Nat) (Parent : Option Nat)
      (Groups : List GroupTree) (ControlRuns : List ControlRun) (Children : List ChildRef)

/-- The field `GroupId`. -/
def GroupTree.GroupId : GroupTree → String
  | .mk id _ _ _ _ _ _ _ _ _ _ _ _ => id

/-- The field `Tags`. -/
def GroupTree.Tags : GroupTree → List (String × String)
  | .mk _ _ _ tags _ _ _ _ _ _ _ _ _ => tags

/-- The address of the group. -/
def GroupTree.addr : GroupTree → Nat
  | .mk _ _ _ _ _ _ _ _ addr _ _ _ _ => addr

/-- The field `Parent`. -/
def GroupTree.Parent : GroupTree → Option Nat
  | .mk _ _ _ _ _ _ _ _ _ parent _ _ _ => parent

/-- The field `Groups`. -/
def GroupTree.Groups : GroupTree → List GroupTree
  | .mk _ _ _ _ _ _ _ _ _ _ groups _ _ => groups

/-- The field `ControlRuns`. -/
def GroupTree.ControlRuns : GroupTree → List ControlRun
  | .mk _ _ _ _ _ _ _ _ _ _ _ runs _ => runs

/-- The field `Children`. -/
def GroupTree.Children : GroupTree → List ChildRef
  | .mk _ _ _ _ _ _ _ _ _ _ _ _ children => children

/-- The method `addResultGroup`: append to `Groups` and to `Children`. -/
def GroupTree.addResultGroup : GroupTree → GroupTree → GroupTree
  | .mk id title descr tags doc disp ty node addr parent groups runs children, group =>
    .mk id title descr tags doc disp ty node addr parent (groups ++ [group]) runs
      (children ++ [ChildRef.group group.addr])

/-- The method `addControl`: append to `ControlRuns` and to `Children`. -/
def GroupTree.addControl : GroupTree → ControlRun → GroupTree
  | .mk id title descr tags doc disp ty node addr parent groups runs children, controlRun =>
    .mk id title descr tags doc disp ty node addr parent groups (runs ++ [controlRun])
      (children ++ [ChildRef.controlRun controlRun.Control.name])

mutual
/-- The method `ControlRunCount`: the control runs of the group plus those of
its child groups, recursively. -/
def GroupTree.ControlRunCount : GroupTree → Nat
  | .mk _ _ _ _ _ _ _ _ _ _ groups runs _ => runs.length + ControlRunCountList groups
/-- The loop `for _, g := range r.Groups` of `ControlRunCount`. -/
def ControlRunCountList : List GroupTree → Nat
  | [] => 0
  | g :: gs => g.ControlRunCount + ControlRunCountList gs
end

/-- The part of an `ExecutionTree` that construction touches: the index from
control name to the addresses of the groups that include the control, and
the names of the controls for which no run can be created. -/
structure ExecutionTree where
  ControlRuns : List (String × List Nat)
  failing : List String

/-- Record `group` as one more parent of the run of control `name`. -/
def addParent : List (String × List Nat) → String → Nat → List (String × List Nat)
  | [], name, group => [(name, [group])]
  | (n, ps) :: rest, name, group =>
    if n = name then (n, ps ++ [group]) :: rest else (n, ps) :: addParent rest name group

/-- Modelled from the spec: the method `ExecutionTree.AddControl`
(execution_tree.go is not among the sources).  "Individual checks become
LeafRuns attached to the nearest enclosing group", and "a leaf included by
multiple parents is represented once and referenced from multiple parent
groups": the run of the control is recorded in the index under the control
name with `group` as a parent, and it is added to `group` through `addControl`;
the call returns an error when the run cannot be created. -/
def AddControl (e : ExecutionTree) (control : Control) (group : GroupTree) :
    Except String (ExecutionTree × GroupTree) :=
  if control.name ∈ e.failing then
    Except.error ("could not create control run for " ++ control.name)
  else
    Except.ok ({ e with ControlRuns := addParent e.ControlRuns control.name group.addr },
      group.addControl ⟨control⟩)

/-- The state threaded through construction: the execution tree and the next
free address for a new `ResultGroup`. -/
structure BuildState where
  executionTree : ExecutionTree
  nextAddr : Nat

/-- The struct literal at the start of `NewResultGroup`, with the properties
that the type switch adds for benchmarks and controls. -/
def newGroupLiteral (addr : Nat) (treeItem : ModTreeItem) (parent : Option Nat) : GroupTree :=
  match treeItem with
  | .benchmark name title description tags documentation display benchmarkType _ =>
    .mk name title description tags documentation display benchmarkType BlockTypeBenchmark
      addr parent [] [] []
  | .control c =>
    .mk c.name c.title c.description c.tags c.documentation c.display c.controlType
      BlockTypeBenchmark addr parent [] [] []
  | .other name title description tags _ =>
    .mk name title description tags "" "" "" BlockTypeBenchmark addr parent [] [] []

mutual
/-- The function `NewResultGroup`: create the group for `treeItem` and add its
children. -/
def NewResultGroup (st : BuildState) (treeItem : ModTreeItem) (parent : Option Nat) :
    Except String (BuildState × GroupTree) :=
  match treeItem with
  | .control c =>
    Except.ok ({ st with nextAddr := st.nextAddr + 1 },
      newGroupLiteral st.nextAddr (.control c) parent)
  | .benchmark name title description tags documentation display benchmarkType children =>
    addChildren { st with nextAddr := st.nextAddr + 1 }
      (newGroupLiteral st.nextAddr
        (.benchmark name title description tags documentation display benchmarkType children)
        parent)
      children
  | .other name title description tags children =>
    addChildren { st with nextAddr := st.nextAddr + 1 }
      (newGroupLiteral st.nextAddr (.other name title description tags children) parent)
      children
/-- The loop `for _, c := range treeItem.GetChildren()` of `NewResultGroup`:
a child benchmark becomes a group, attached only when it has control runs; a
child control is handed to `AddControl`; children of other types are left
out. -/
def addChildren (st : BuildState) (group : GroupTree) :
    List ModTreeItem → Except String (BuildState × GroupTree)
  | [] => Except.ok (st, group)
  | c :: cs =>
    if c.isBenchmark then
      match NewResultGroup st c (some group.addr) with
      | Except.error err => Except.error err
      | Except.ok (st1, benchmarkGroup) =>
        if benchmarkGroup.ControlRunCount > 0 then
          addChildren st1 (group.addResultGroup benchmarkGroup) cs
        else
          addChildren st1 group cs
    else
      match c.asControl with
      | some control =>
        match AddControl st.executionTree control group with
        | Except.error err => Except.error err
        | Except.ok (e, group1) => addChildren { st with executionTree := e } group1 cs
      | none => addChildren st group cs
end

/-- The function `NewRootResultGroup`: the root group of an execution tree. -/
def NewRootResultGroup (st : BuildState) (rootItem : ModTreeItem) :
    Except String (BuildState × GroupTree) :=
  let root := GroupTree.mk RootResultGroupName rootItem.GetTitle "" [] "" "" ""
    BlockTypeBenchmark st.nextAddr none [] [] []
  let st1 : BuildState := { st with nextAddr := st.nextAddr + 1 }
  match rootItem.asControl with
  | some control =>
    match AddControl st1.executionTree control root with
    | Except.error err => Except.error err
    | Except.ok (e, root1) => Except.ok ({ st1 with executionTree := e }, root1)
  | none =>
    match NewResultGroup st1 rootItem (some root.addr) with
    | Except.error err => Except.error err
    | Except.ok (st2, itemGroup) => Except.ok (st2, root.addResultGroup itemGroup)

mutual
/-- Every group attached below this group has at least one control run in its
subtree. -/
def GroupTree.attachedNonEmpty : GroupTree → Bool
  | .mk _ _ _ _ _ _ _ _ _ _ groups _ _ => attachedNonEmptyList groups
/-- Every group of the list, and every group attached below it, has at least
one control run in its subtree. -/
def attachedNonEmptyList : List GroupTree → Bool
  | [] => true
  | g :: gs => decide (g.ControlRunCount > 0) && g.attachedNonEmpty && attachedNonEmptyList gs
end

/-- The state in which construction starts: an empty index, no failing
control, address 0 free. -/
def emptyBuild : BuildState := { executionTree := ⟨[], []⟩, nextAddr := 0 }

/-- A control named `name` with no other property set. -/
def plainControl (name : String) : Control := ⟨name, "", "", [], "", "", ""⟩

/-- A benchmark named `name` with the given children and no other property. -/
def plainBenchmark (name : String) (children : List ModTreeItem) : ModTreeItem :=
  .benchmark name "" "" [] "" "" "" children

/-! ## Ownership view: dispatch of the control runs -/

/-- What `ResultGroup.execute` reads from its surroundings when it reaches the
`k`-th control run of the dispatch (counted over the whole call, child groups
included): the result of `error_helpers.IsContextCanceled(ctx)`, the value of
`ctx.Err()`, and the error returned by `parallelismLock.Acquire(ctx, 1)`
(`none` for nil); `dryRun` is `viper.GetBool(constants.ArgDryRun)`. -/
structure ExecEnv where
  isCanceled : Nat → Bool
  ctxErr : Nat → Option String
  dryRun : Bool
  acquire : Nat → Option String

/-- The calls that `ResultGroup.execute` makes on control runs and on the
parallelism limiter. -/
inductive ExecEvent where
  | setError (run : ControlRun) (err : Option String)
  | skip (run : ControlRun)
  | acquire (err : Option String)
  | goExecuteRun (run : ControlRun)
deriving DecidableEq

/-- The loop `for _, controlRun := range r.ControlRuns` of `execute`, started
at dispatch position `k`: the calls made, and the position reached. -/
def executeRuns (env : ExecEnv) : Nat → List ControlRun → List ExecEvent × Nat
  | k, [] => ([], k)
  | k, controlRun :: rest =>
    let calls :=
      if env.isCanceled k then [ExecEvent.setError controlRun (env.ctxErr k)]
      else if env.dryRun then [ExecEvent.skip controlRun]
      else
        match env.acquire k with
        | some err => [ExecEvent.acquire (some err), ExecEvent.setError controlRun (some err)]
        | none => [ExecEvent.acquire none, ExecEvent.goExecuteRun controlRun]
    let res := executeRuns env (k + 1) rest
    (calls ++ res.1, res.2)

mutual
/-- The method `ResultGroup.execute`: dispatch the control runs of the group,
then call `execute` on every child group, in order. -/
def GroupTree.execute (env : ExecEnv) (k : Nat) : GroupTree → List ExecEvent × Nat
  | .mk _ _ _ _ _ _ _ _ _ _ groups runs _ =>
    let r1 := executeRuns env k runs
    let r2 := executeGroups env r1.2 groups
    (r1.1 ++ r2.1, r2.2)
/-- The loop `for _, child := range r.Groups` of `execute`. -/
def executeGroups (env : ExecEnv) (k : Nat) : List GroupTree → List ExecEvent × Nat
  | [] => ([], k)
  | child :: rest =>
    let r1 := child.execute env k
    let r2 := executeGroups env r1.2 rest
    (r1.1 ++ r2.1, r2.2)
end

mutual
/-- The control runs of the group and of all its descendant groups, in the
order in which `execute` reaches them. -/
def GroupTree.allRuns : GroupTree → List ControlRun
  | .mk _ _ _ _ _ _ _ _ _ _ groups runs _ => runs ++ allRunsList groups
/-- The control runs of a list of groups and of their descendants. -/
def allRunsList : List GroupTree → List ControlRun
  | [] => []
  | g :: gs => g.allRuns ++ allRunsList gs
end

/-- A group named `id` at address `addr` with the given child groups and
control runs. -/
def plainGroup (id : String) (addr : Nat) (parent : Option Nat) (groups : List GroupTree)
    (runs : List ControlRun) : GroupTree :=
  .mk id "" "" [] "" "" "" BlockTypeBenchmark addr parent groups runs
    (groups.map (fun g => ChildRef.group g.addr) ++
      runs.map (fun r => ChildRef.controlRun r.Control.name))

/-- A root with one control run of its own and a child group with two. -/
def sampleTree : GroupTree :=
  plainGroup RootResultGroupName 0 none
    [plainGroup "b" 1 (some 0) [] [⟨plainControl "c2"⟩, ⟨plainControl "c3"⟩]]
    [⟨plainControl "c1"⟩]

/-- Surroundings in which the context always or never reads as canceled, with
`ctx.Err()` fixed, dry-run as given and a limiter that always succeeds. -/
def constEnv (canceled : Bool) (err : Option String) (dryRun : Bool) : ExecEnv :=
  { isCanceled := fun _ => canceled, ctxErr := fun _ => err, dryRun := dryRun,
    acquire := fun _ => none }

/-! ## Heap view: completion of children -/

/-- What is observed of `onChildDone`: `called g` is a call of the method on the
group at address `g`; `allDone g` is the block "all children are done" of that
group being run, in which the duration is recorded and `Parent.onChildDone()` is
called when `Parent` is not nil. -/
inductive DoneEvent where
  | called (g : Nat)
  | allDone (g : Nat)
deriving DecidableEq

/-- The recursion of `ResultGroup.onChildDone` on the group at address `r`: the
new heap and the events, in order.  The counter is a `uint32`, and so is the
total child count it is compared with. -/
def onChildDoneFuel : Nat → Heap → Nat → Heap × List DoneEvent
  | 0, h, _ => (h, [])
  | fuel + 1, h, r =>
    match h[r]? with
    | none => (h, [])
    | some g =>
      let newCount := (g.childrenComplete + 1) % 4294967296
      let totalCount := (g.ControlRuns.length + g.Groups.length) % 4294967296
      let h1 := h.set r { g with childrenComplete := newCount }
      if newCount < totalCount then (h1, [DoneEvent.called r])
      else
        match g.Parent with
        | none => (h1, [DoneEvent.called r, DoneEvent.allDone r])
        | some p =>
          let res := onChildDoneFuel fuel h1 p
          (res.1, DoneEvent.called r :: DoneEvent.allDone r :: res.2)

/-- The method `ResultGroup.onChildDone`, called on the group at address `r`. -/
def onChildDone (h : Heap) (r : Nat) : Heap × List DoneEvent :=
  onChildDoneFuel h.length h r

/-- A leaf whose parent group is at address `r` calls `onChildDone` on it; the
events are appended to those seen so far. -/
def leafDone (st : Heap × List DoneEvent) (r : Nat) : Heap × List DoneEvent :=
  (( onChildDone st.1 r).1, st.2 ++ (onChildDone st.1 r).2)

/-- The leaves call `onChildDone` on their parent groups one after the other;
`order` lists the parent group of each calling leaf. -/
def leavesDone (h : Heap) (order : List Nat) : Heap × List DoneEvent :=
  order.foldl leafDone (h, [])

/-- The field `Parent` of the group at address `i`. -/
def parentAt (h : Heap) (i : Nat) : Option Nat := (h[i]?).bind ResultGroup.Parent

/-- The total child count `len(r.ControlRuns) + len(r.Groups)` of the group at
address `i`. -/
def childCount (h : Heap) (i : Nat) : Nat :=
  match h[i]? with
  | some g => g.ControlRuns.length + g.Groups.length
  | none => 0

/-- The number of control runs `len(r.ControlRuns)` of the group at address `i`. -/
def controlRunCountAt (h : Heap) (i : Nat) : Nat :=
  match h[i]? with
  | some g => g.ControlRuns.length
  | none => 0

/-- The counter `childrenComplete` of the group at address `i`. -/
def childrenCompleteAt (h : Heap) (i : Nat) : Nat :=
  match h[i]? with
  | some g => g.childrenComplete
  | none => 0

/-- The addresses of the groups whose `Parent` is the group at address `g`. -/
def childGroups (h : Heap) (g : Nat) : List Nat :=
  (List.range h.length).filter fun c => decide (parentAt h c = some g)

/-- The `Groups` of every group are exactly the groups whose `Parent` it is. -/
def Heap.linked (h : Heap) : Bool :=
  (List.range h.length).all fun g =>
    match h[g]? with
    | some cell => decide (cell.Groups.Perm (childGroups h g))
    | none => true

/-- The invariant of a run of `onChildDone` calls on a tree that started as
`h0`, when `lc i` leaves of group `i` have called so far: the shape of the tree
is unchanged, every counter counts the leaves that have called and the child
groups that are done, and the events record each call and each completion.
`debt` names a group for which a call is due but not made yet. -/
structure DoneInv (h0 : Heap) (lc : Nat → Nat) (debt : Option Nat) (h : Heap)
    (tr : List DoneEvent) : Prop where
  length : h.length = h0.length
  parent : ∀ i, parentAt h i = parentAt h0 i
  total : ∀ i, childCount h i = childCount h0 i
  counts : ∀ i, i < h0.length →
    childrenCompleteAt h i + (if debt = some i then 1 else 0) =
      lc i + (childGroups h0 i).countP (fun c => decide (DoneEvent.allDone c ∈ tr))
  calls : ∀ i, i < h0.length → tr.count (DoneEvent.called i) = childrenCompleteAt h i
  done : ∀ i, i < h0.length →
    tr.count (DoneEvent.allDone i) = if childrenCompleteAt h i = childCount h0 i then 1 else 0
  before : ∀ k i, tr[k]? = some (DoneEvent.allDone i) →
    (tr.take k).count (DoneEvent.called i) = childCount h0 i
  notify : ∀ k i p, tr[k]? = some (DoneEvent.allDone i) → parentAt h0 i = some p →
    if k + 1 < tr.length then tr[k + 1]? = some (DoneEvent.called p) else debt = some p

/-- A cell with `n` control runs and the given parent and child groups. -/
def cellWith (id : String) (parent : Option Nat) (groups : List Nat) (n : Nat) :
    ResultGroup :=
  { ResultGroup.fresh id parent with Groups := groups, ControlRuns := List.replicate n "run" }

/-- The root (one control run, child groups 1 and 2), group 1 (two control
runs) and group 2 (one control run). -/
def sampleDoneHeap : Heap :=
  [cellWith "root_result_group" none [1, 2] 1, cellWith "b1" (some 0) [] 2,
   cellWith "b2" (some 0) [] 1]

/-! ## Ownership view: the goroutine of a launched control run -/

/-- What the call `run.execute(ctx, client)` does to its caller: it returns, or
it panics with a value (a value that `recover()` reports as not nil). -/
inductive RunOutcome where
  | returns
  | panics (v : String)
deriving DecidableEq

/-- The calls that `executeRun` makes on the control run and on the parallelism
limiter. -/
inductive RunEvent where
  | execute (run : ControlRun)
  | setError (run : ControlRun) (err : String)
  | release
deriving DecidableEq

/-- The function `executeRun`: the calls made, and the panic that leaves the
function (`none` when it returns normally).  The body is the call
`run.execute(ctx, client)`; the deferred function then calls `recover()`, which
stops a panic, records a recovered value through `run.setError` as the error
`helpers.ToError(r)`, and releases one unit of the limiter.  `toError` is
`helpers.ToError` of go-kit. -/
def executeRun (toError : String → String) (outcome : RunOutcome) (run : ControlRun) :
    List RunEvent × Option String :=
  let body : List RunEvent := [RunEvent.execute run]
  match outcome with
  | RunOutcome.panics r => (body ++ [RunEvent.setError run (toError r), RunEvent.release], none)
  | RunOutcome.returns => (body ++ [RunEvent.release], none)

/-- The control runs for which a dispatch started `go executeRun`, in order. -/
def launchedRuns : List ExecEvent → List ControlRun
  | [] => []
  | ExecEvent.goExecuteRun run :: rest => run :: launchedRuns rest
  | _ :: rest => launchedRuns rest

/-- The number of limiter units that a dispatch acquired: the calls of
`Acquire` that returned nil. -/
def unitsAcquired (calls : List ExecEvent) : Nat :=
  calls.count (ExecEvent.acquire none)

/-- The calls made by the goroutines of the launched runs, goroutine after
goroutine; `outcome i` is what `run.execute` does in the `i`-th goroutine
launched. -/
def goroutineCalls (toError : String → String) (outcome : Nat → RunOutcome) :
    Nat → List ControlRun → List RunEvent
  | _, [] => []
  | i, run :: rest =>
    (executeRun toError (outcome i) run).1 ++ goroutineCalls toError outcome (i + 1) rest

/-- The number of limiter units released. -/
def unitsReleased (calls : List RunEvent) : Nat := calls.count RunEvent.release

/-! ## DetectionRun (`internal/dashboardexecute/detection_run.go`) -/

/-- Modelled from the spec: the run status of `dashboardtypes` (not among the
sources), with the states of the specification, "NotStarted → Blocked →
Running → {Complete, Error}". -/
inductive RunStatus where
  | initialized
  | blocked
  | running
  | complete
  | error
deriving DecidableEq

/-- Modelled from the spec: `RunStatus.IsFinished` (not among the sources); the
terminal states are `Complete` and `Error`. -/
def RunStatus.IsFinished : RunStatus → Bool
  | RunStatus.complete => true
  | RunStatus.error => true
  | _ => false

/-- The payload `dashboardtypes.LeafData`: the rows of a query result. -/
abbrev LeafData := List String

/-- The state of a `DetectionRun` that `Execute` reads and writes: the status
and the error of the embedded `DashboardTreeRunImpl`, the resolved SQL, the
data, and whether `onComplete` is not nil. -/
structure DetectionRun where
  Status : RunStatus
  executeSQL : String
  Data : Option LeafData
  err : Option String
  hasOnComplete : Bool
deriving DecidableEq

/-- What `Execute` gets from its collaborators: the result of
`evaluateRuntimeDependencies` (an error, or the value of `executeSQL` once the
dependencies are resolved); inside `executeQuery` the value of `ctx.Err()`, the
error of `getClient`, the result of `client.ExecuteSync`, the elapsed seconds
as printed in the timeout message, and the result of
`dashboardtypes.NewLeafData`; and the value received from `doneChan`.  Errors are
given by their message. -/
structure DetectionEnv where
  evaluateRuntimeDependencies : Except String String
  ctxErr : Option String
  getClientErr : Option String
  executeSync : Except String (List String)
  elapsed : String
  newLeafData : List String → Except String LeafData
  doneChan : Option String

/-- The calls that `Execute` and `executeQuery` make. -/
inductive DetectionEvent where
  | executeChildrenAsync
  | waitForChildrenAsync
  | evaluateRuntimeDependencies
  | SetError (err : String)
  | setRunning
  | executeQuery
  | getClient
  | ExecuteSync
  | SetComplete
  | onComplete
deriving DecidableEq

/-- The text of `context.DeadlineExceeded.Error()`. -/
def deadlineExceededMessage : String := "context deadline exceeded"

/-- Modelled from the spec: `DashboardTreeRunImpl.SetError`, reached through
`DetectionRun.SetError` (dashboard_tree_run_impl.go is not among the sources):
"transition to Error with that error", where the result payload of a run is
"typed rows/columns from the query service, or an error value; never both": the
run holds the error and no rows. -/
def DetectionRun.SetError (r : DetectionRun) (err : String) : DetectionRun :=
  { r with err := some err, Status := RunStatus.error, Data := none }

/-- Modelled from the spec: `DashboardTreeRunImpl.SetComplete`, reached through
`DetectionRun.SetComplete` (not among the sources): "transition to
Complete". -/
def DetectionRun.SetComplete (r : DetectionRun) : DetectionRun :=
  { r with Status := RunStatus.complete }

/-- Modelled from the spec: `setRunning` (not among the sources): "Transition
to Running". -/
def DetectionRun.setRunning (r : DetectionRun) : DetectionRun :=
  { r with Status := RunStatus.running }

/-- The method `DetectionRun.executeQuery`: the run afterwards, the calls made,
and the error returned (`none` for nil). -/
def DetectionRun.executeQuery (env : DetectionEnv) (r : DetectionRun) :
    DetectionRun × List DetectionEvent × Option String :=
  match env.ctxErr with
  | some err =>
    if err = deadlineExceededMessage then
      (r, [], some "dashboard execution timed out before execution of this node started")
    else (r, [], some err)
  | none =>
    match env.getClientErr with
    | some err => (r, [DetectionEvent.getClient], some err)
    | none =>
      match env.executeSync with
      | Except.error err =>
        if err = deadlineExceededMessage then
          (r, [DetectionEvent.getClient, DetectionEvent.ExecuteSync],
            some ("query execution timed out after running for " ++ env.elapsed ++ "s"))
        else (r, [DetectionEvent.getClient, DetectionEvent.ExecuteSync], some err)
      | Except.ok queryResult =>
        match env.newLeafData queryResult with
        | Except.error err =>
          ({ r with Data := none }, [DetectionEvent.getClient, DetectionEvent.ExecuteSync],
            some err)
        | Except.ok data =>
          ({ r with Data := some data }, [DetectionEvent.getClient, DetectionEvent.ExecuteSync],
            none)

/-- The deferred function of `Execute`: call `onComplete` if there is one. -/
def DetectionRun.deferred (r : DetectionRun) : List DetectionEvent :=
  if r.hasOnComplete then [DetectionEvent.onComplete] else []

/-- The method `DetectionRun.Execute`: the run afterwards and the calls made,
in order. -/
def DetectionRun.Execute (env : DetectionEnv) (r : DetectionRun) :
    DetectionRun × List DetectionEvent :=
  if r.Status.IsFinished then (r, r.deferred)
  else
    let started := [DetectionEvent.executeChildrenAsync, DetectionEvent.waitForChildrenAsync,
      DetectionEvent.evaluateRuntimeDependencies]
    match env.evaluateRuntimeDependencies with
    | Except.error err => (r.SetError err, started ++ [DetectionEvent.SetError err] ++ r.deferred)
    | Except.ok sql =>
      let r1 := ({ r with executeSQL := sql } : DetectionRun).setRunning
      let q : DetectionRun × List DetectionEvent × Option String :=
        if r1.executeSQL ≠ "" then
          ((r1.executeQuery env).1,
            DetectionEvent.executeQuery :: (r1.executeQuery env).2.1, (r1.executeQuery env).2.2)
        else (r1, [], none)
      match q.2.2 with
      | some err =>
        (q.1.SetError err,
          started ++ [DetectionEvent.setRunning] ++ q.2.1 ++ [DetectionEvent.SetError err] ++
            r.deferred)
      | none =>
        match env.doneChan with
        | none =>
          (q.1.SetComplete,
            started ++ [DetectionEvent.setRunning] ++ q.2.1 ++ [DetectionEvent.SetComplete] ++
              r.deferred)
        | some err =>
          (q.1.SetError err,
            started ++ [DetectionEvent.setRunning] ++ q.2.1 ++ [DetectionEvent.SetError err] ++
              r.deferred)

/-- A run that has not started, with SQL to execute, no data, no error and a
completion callback. -/
def sampleRun : DetectionRun :=
  { Status := RunStatus.initialized, executeSQL := "select 1", Data := none, err := none,
    hasOnComplete := true }

/-- Collaborators with which the dependencies resolve and the query returns one
row, while the children report the error `children`. -/
def sampleDetectionEnv (children : Option String) : DetectionEnv :=
  { evaluateRuntimeDependencies := Except.ok "select 1", ctxErr := none, getClientErr := none,
    executeSync := Except.ok ["row"], elapsed := "0.00",
    newLeafData := fun rows => Except.ok rows, doneChan := children }

/-- Collaborators with which the evaluation of the runtime dependencies fails
with the error `err`. -/
def failingDependencyEnv (err : String) : DetectionEnv :=
  { sampleDetectionEnv none with evaluateRuntimeDependencies := Except.error err }

/-! ## Heap view: dimension keys -/

/-- The loop of `helpers.StringSliceDistinct` (go-kit): an item is appended to
the result unless it has occurred before. -/
def StringSliceDistinctLoop (res : List String) : List String → List String
  | [] => res
  | item :: rest =>
    if item ∈ res then StringSliceDistinctLoop res rest
    else StringSliceDistinctLoop (res ++ [item]) rest

/-- The function `helpers.StringSliceDistinct` of go-kit: the distinct items of
the slice, here in the order of their first occurrence (`addDimensionKeys` sorts
the result, so the order chosen does not show). -/
def StringSliceDistinct (slice : List String) : List String :=
  StringSliceDistinctLoop [] slice

/-- The function `sort.Strings`: the strings in increasing order, compared
character by character (for valid UTF-8 the same as byte by byte). -/
def sortStrings (l : List String) : List String :=
  l.insertionSort (fun a b => a.data ≤ b.data)

/-- The recursion of `ResultGroup.addDimensionKeys` on the group at address
`r`: the keys are appended to `DimensionKeys`, the call is repeated on `Parent`
when it is not nil, and then `DimensionKeys` is made distinct and sorted. -/
def addDimensionKeysFuel : Nat → Heap → Nat → List String → Heap
  | 0, h, _, _ => h
  | fuel + 1, h, r, keys =>
    match h[r]? with
    | none => h
    | some g =>
      let h1 := h.set r { g with DimensionKeys := g.DimensionKeys ++ keys }
      let h2 :=
        match g.Parent with
        | none => h1
        | some p => addDimensionKeysFuel fuel h1 p keys
      match h2[r]? with
      | none => h2
      | some g2 =>
        h2.set r { g2 with DimensionKeys := sortStrings (StringSliceDistinct g2.DimensionKeys) }

/-- The group after `keys` have been added to its dimension keys: the former
keys and `keys`, distinct and sorted. -/
def ResultGroup.withKeys (g : ResultGroup) (keys : List String) : ResultGroup :=
  { g with DimensionKeys := sortStrings (StringSliceDistinct (g.DimensionKeys ++ keys)) }

/-- The method `ResultGroup.addDimensionKeys`, called on the group at address
`r`. -/
def addDimensionKeys (h : Heap) (r : Nat) (keys : List String) : Heap :=
  addDimensionKeysFuel h.length h r keys

/-! ## Ownership view: the children of a group -/

/-- A call that adds a child to a group: `addResultGroup(group)` or
`addControl(controlRun)`. -/
inductive AddCall where
  | addResultGroup (group : GroupTree)
  | addControl (controlRun : ControlRun)

/-- The group after one call. -/
def GroupTree.call (r : GroupTree) : AddCall → GroupTree
  | AddCall.addResultGroup group => r.addResultGroup group
  | AddCall.addControl controlRun => r.addControl controlRun

/-- The group after a sequence of calls, made in order. -/
def GroupTree.calls (r : GroupTree) (cs : List AddCall) : GroupTree :=
  cs.foldl GroupTree.call r

/-- The tree node that a call adds. -/
def AddCall.node : AddCall → ChildRef
  | AddCall.addResultGroup group => ChildRef.group group.addr
  | AddCall.addControl controlRun => ChildRef.controlRun controlRun.Control.name

/-- The group that a call adds, if it adds a group. -/
def AddCall.addedGroup : AddCall → Option GroupTree
  | AddCall.addResultGroup group => some group
  | AddCall.addControl _ => none

/-- The control run that a call adds, if it adds a control run. -/
def AddCall.addedRun : AddCall → Option ControlRun
  | AddCall.addResultGroup _ => none
  | AddCall.addControl controlRun => some controlRun

/-- The address of the group that a tree node points to, if it is a group. -/
def ChildRef.groupAddr : ChildRef → Option Nat
  | ChildRef.group addr => some addr
  | ChildRef.controlRun _ => none

/-- The name of the control run that a tree node points to, if it is a control
run. -/
def ChildRef.runName : ChildRef → Option String
  | ChildRef.group _ => none
  | ChildRef.controlRun name => some name

/-! ## Ownership view: parent links -/

mutual
/-- Every group held in `Groups`, here and below, has as `Parent` the address of
the group that holds it. -/
def GroupTree.parentsLinked : GroupTree → Bool
  | .mk _ _ _ _ _ _ _ _ addr _ groups _ _ => parentsLinkedList addr groups
/-- Every group of the list has the `Parent` address `p`, and the parent links
below it are right. -/
def parentsLinkedList (p : Nat) : List GroupTree → Bool
  | [] => true
  | g :: gs => decide (g.Parent = some p) && g.parentsLinked && parentsLinkedList p gs
end

mutual
/-- The addresses of the group and of all groups below it. -/
def GroupTree.addrs : GroupTree → List Nat
  | .mk _ _ _ _ _ _ _ _ addr _ groups _ _ => addr :: addrsList groups
/-- The addresses of the groups of a list and of all groups below them. -/
def addrsList : List GroupTree → List Nat
  | [] => []
  | g :: gs => g.addrs ++ addrsList gs
end

/-- A group under construction is well formed between the addresses `lo` and
`hi`: it sits at `lo`, its parent links are right, and the addresses of its
groups are pairwise distinct and lie in `[lo, hi)`. -/
def GroupTree.builtBetween (g : GroupTree) (lo hi : Nat) : Prop :=
  g.addr = lo ∧ g.parentsLinked = true ∧ g.addrs.Nodup ∧ ∀ a ∈ g.addrs, lo ≤ a ∧ a < hi

/-! ## Dashboard inputs (`internal/cmd/dashboard.go`) -/

/-- The map `map[string]interface{}` of `collectInputs`; the values stored are
strings. -/
abbrev InputMap := String → Option String

/-- The empty map returned by `make`. -/
def InputMap.empty : InputMap := fun _ => none

/-- The map assignment `res[key] = val`. -/
def InputMap.set (res : InputMap) (key val : String) : InputMap :=
  fun k => if k = key then some val else res k

/-- The call `strings.Index(raw, "=")`: the position of the first `=`, `none`
for -1. -/
def stringsIndexEq : List Char → Option Nat
  | [] => none
  | c :: cs => if c = '=' then some 0 else (stringsIndexEq cs).map (fun i => i + 1)

/-- The constant `schema.BlockTypeInput` of pipe-fittings. -/
def BlockTypeInput : String := "input"

/-- The function `modconfig.BuildModResourceName` of pipe-fittings: the block
type and the name, joined by a dot. -/
def BuildModResourceName (blockType name : String) : String :=
  blockType ++ "." ++ name

/-- The loop of `collectInputs` over the `--dashboard-input` arguments, with the
map built so far. -/
def collectInputsLoop (res : InputMap) : List String → Except String InputMap
  | [] => Except.ok res
  | variableArg :: rest =>
    let raw := variableArg
    match stringsIndexEq raw.data with
    | none =>
      Except.error ("the --dashboard-input argument '" ++ raw ++
        "' is not correctly specified. It must be an input name and value separated an " ++
        "equals sign: --dashboard-input key=value")
    | some eq =>
      let name := String.mk (raw.data.take eq)
      let rawVal := String.mk (raw.data.drop (eq + 1))
      if (res name).isSome then
        Except.error ("the dashboard-input option '" ++ name ++ "' is provided more than once")
      else
        collectInputsLoop (res.set (BuildModResourceName BlockTypeInput name) rawVal) rest

/-- The function `collectInputs`, with the value of
`viper.GetStringSlice(constants.ArgDashboardInput)` as argument. -/
def collectInputs (inputArgs : List String) : Except String InputMap :=
  collectInputsLoop InputMap.empty inputArgs

/-! ## Validation of the check arguments (`internal/cmd/check.go`) -/

/-- What `validateCheckArgs` reads: the error of
`localcmdconfig.ValidateSnapshotArgs` (`none` for nil), whether `--search-path`
and `--search-path-prefix` are set, the value of `--separator`, the values of
`--share` and `--snapshot`, whether `--where` and `--tag` are set, and the
error of `localcmdconfig.ValidateDatabaseArg`. -/
structure CheckArgs where
  snapshotArgsErr : Option String
  searchPathSet : Bool
  searchPathPrefixSet : Bool
  separator : String
  share : Bool
  snapshot : Bool
  whereSet : Bool
  tagSet : Bool
  databaseArgErr : Option String

/-- The constant `constants.ArgSeparator` of pipe-fittings: the name of the flag
`--separator`. -/
def ArgSeparator : String := "separator"

/-- The constant `constants.ArgShare` of pipe-fittings. -/
def ArgShare : String := "share"

/-- The constant `constants.ArgSnapshot` of pipe-fittings. -/
def ArgSnapshot : String := "snapshot"

/-- The constant `constants.ArgWhere` of pipe-fittings. -/
def ArgWhere : String := "where"

/-- The constant `constants.ArgTag` of pipe-fittings. -/
def ArgTag : String := "tag"

/-- The error that `validateCheckArgs` returns for the separator. -/
def separatorError : String := "'--" ++ ArgSeparator ++ "' can be 1 character long at most"

/-- The function `validateCheckArgs`: the error returned, `none` for nil.  Go's
`len` of a string is its number of bytes. -/
def validateCheckArgs (a : CheckArgs) : Option String :=
  match a.snapshotArgsErr with
  | some err => some err
  | none =>
    if a.searchPathSet && a.searchPathPrefixSet then
      some "only one of --search-path or --search-path-prefix may be set"
    else if a.separator.utf8ByteSize > 1 then
      some separatorError
    else if a.share && a.snapshot then
      some ("only 1 of '--" ++ ArgShare ++ "' and '--" ++ ArgSnapshot ++ "' may be set")
    else if a.whereSet && a.tagSet then
      some ("only 1 of '--" ++ ArgWhere ++ "' and '--" ++ ArgTag ++ "' may be set")
    else a.databaseArgErr

/-- Arguments that pass every check other than the one on the separator. -/
def passingArgs (separator : String) : CheckArgs :=
  { snapshotArgsErr := none, searchPathSet := false, searchPathPrefixSet := false,
    separator := separator, share := false, snapshot := false, whereSet := false,
    tagSet := false, databaseArgErr := none }

/-! ## Ownership view: lookup by name -/

mutual
/-- The method `GetChildGroupByName`: the first group below `r` with the name. -/
def GroupTree.GetChildGroupByName : GroupTree → String → Option GroupTree
  | .mk _ _ _ _ _ _ _ _ _ _ groups _ _, name => GetChildGroupByNameList groups name
/-- The loop `for _, group := range r.Groups` of `GetChildGroupByName`: return
the group when its `GroupId` is the name, else what the group finds below it
when that is not nil, else go on with the next group. -/
def GetChildGroupByNameList : List GroupTree → String → Option GroupTree
  | [], _ => none
  | group :: rest, name =>
    if group.GroupId = name then some group
    else
      match group.GetChildGroupByName name with
      | some child => some child
      | none => GetChildGroupByNameList rest name
end

mutual
/-- The proper descendants of a group, in depth-first pre-order over `Groups`. -/
def GroupTree.descendants : GroupTree → List GroupTree
  | .mk _ _ _ _ _ _ _ _ _ _ groups _ _ => descendantsList groups
/-- The groups of a list, each followed by its descendants. -/
def descendantsList : List GroupTree → List GroupTree
  | [] => []
  | g :: gs => (g :: g.descendants) ++ descendantsList gs
end

/-- A root with one child group, group 1, which has `n` control runs. -/
def heapWithRuns (n : Nat) : Heap :=
  [cellWith "root_result_group" none [1] 0, cellWith "b1" (some 0) [] n]

/-- A root with one child group, group 1, which has 2^32 control runs: every
group has a child and all counters are zero, but the total child count of
group 1 does not fit the `uint32` it is converted to. -/
def wrapHeap : Heap := heapWithRuns 4294967296

/-- A state in which the counter of group 1 (one control run, parent 0) already
equals its total child count; the root has group 1 as its only child. -/
def overDoneHeap : Heap :=
  [cellWith "root_result_group" none [1] 0,
   { cellWith "b1" (some 0) [] 1 with childrenComplete := 1 }]

/-! ## Heap view: dispatch of the control runs -/

/-- Modelled from the spec: what a control run reports when it reaches a
terminal state (control_run.go is not among the sources): "its StatusSummary
(and severity-keyed summary)". -/
structure LeafReport where
  summary : StatusSummary
  severity : String

/-- Modelled from the spec: a control run that reaches a terminal state
"reports exactly once to its parent group: (a) merge its StatusSummary (and
severity-keyed summary) into the parent's aggregate, under the parent's lock,
then recursively into every ancestor", "(b) atomically increment the parent's
completed-children counter", with the methods of the parent group at address
`r`. -/
def reportToParent (h : Heap) (r : Nat) (rep : LeafReport) : Heap :=
  (onChildDone (updateSeverityCounts (updateSummary h r rep.summary) r rep.severity rep.summary)
    r).1

/-- What `ResultGroup.execute` reads besides `ExecEnv`: the value of
`time.Now()` when `execute` starts on the group at a given address, and what
the control run of a given name reports to its parent group when `setError` or
`skip` is called on it. -/
structure ReportEnv where
  now : Nat → Nat
  setError : String → LeafReport
  skip : String → LeafReport

/-- The loop `for _, controlRun := range r.ControlRuns` of `execute` on the group
at address `r`, started at dispatch position `k`: the heap after the calls
`controlRun.setError` and `controlRun.skip` have reported to the group, and the
position reached.  A control run that is launched (`go executeRun(...)`) runs
on its own and reports later. -/
def executeRunsHeap (env : ExecEnv) (renv : ReportEnv) (r : Nat) :
    Nat → Heap → List String → Heap × Nat
  | k, h, [] => (h, k)
  | k, h, controlRun :: rest =>
    let h1 :=
      if env.isCanceled k then reportToParent h r (renv.setError controlRun)
      else if env.dryRun then reportToParent h r (renv.skip controlRun)
      else
        match env.acquire k with
        | some _ => reportToParent h r (renv.setError controlRun)
        | none => h
    executeRunsHeap env renv r (k + 1) h1 rest

/-- The method `ResultGroup.execute` on the group at address `r`: set
`r.executionStartTime = time.Now()`, dispatch the control runs of the group,
then call `execute` on every group of `r.Groups`, in order.  `fuel` bounds the
depth of the recursion. -/
def executeHeapFuel (env : ExecEnv) (renv : ReportEnv) : Nat → Nat → Heap → Nat → Heap × Nat
  | 0, k, h, _ => (h, k)
  | fuel + 1, k, h, r =>
    match h[r]? with
    | none => (h, k)
    | some g =>
      let h1 := h.set r { g with executionStartTime := renv.now r }
      let res := executeRunsHeap env renv r k h1 g.ControlRuns
      g.Groups.foldl (fun st child => executeHeapFuel env renv fuel st.2 st.1 child) res

/-- The method `ResultGroup.execute`, called on the group at address `r` at
dispatch position `k`.  A tree is never deeper than the number of groups that
the heap holds. -/
def executeHeap (env : ExecEnv) (renv : ReportEnv) (k : Nat) (h : Heap) (r : Nat) :
    Heap × Nat :=
  executeHeapFuel env renv h.length k h r

/-- A clock that reads 7, and control runs that report one error when
`setError` is called and one skip when `skip` is called, both with severity
`high`. -/
def sampleReportEnv : ReportEnv :=
  { now := fun _ => 7, setError := fun _ => ⟨⟨0, 0, 0, 0, 1⟩, "high"⟩,
    skip := fun _ => ⟨⟨0, 0, 0, 1, 0⟩, "high"⟩ }

/-! ## Heap view: the lock of a group -/

/-- What is observed of the mutexes `updateLock`: `lock g` is
`updateLock.Lock()` returning on the group at address `g`, `unlock g` is
`updateLock.Unlock()` on it. -/
inductive LockEvent where
  | lock (g : Nat)
  | unlock (g : Nat)
deriving DecidableEq

/-- The recursion of `ResultGroup.updateSummary` with its lock events:
`r.updateLock.Lock()`, the deferred `r.updateLock.Unlock()` that runs when the
method returns, and between them the update and the call on `Parent`. -/
def updateSummaryLocksFuel : Nat → Heap → Nat → StatusSummary → Heap × List LockEvent
  | 0, h, _, _ => (h, [])
  | fuel + 1, h, r, summary =>
    match h[r]? with
    | none => (h, [])
    | some g =>
      let h1 := h.set r (g.addStatus summary)
      match g.Parent with
      | none => (h1, [LockEvent.lock r, LockEvent.unlock r])
      | some p =>
        let res := updateSummaryLocksFuel fuel h1 p summary
        (res.1, LockEvent.lock r :: (res.2 ++ [LockEvent.unlock r]))

/-- The method `ResultGroup.updateSummary` with its lock events. -/
def updateSummaryLocks (h : Heap) (r : Nat) (summary : StatusSummary) :
    Heap × List LockEvent :=
  updateSummaryLocksFuel h.length h r summary

/-- The recursion of `ResultGroup.updateSeverityCounts` with its lock events:
`r.updateLock.Lock()`, the deferred `r.updateLock.Unlock()` that runs when the
method returns, and between them the update and the call on `Parent`. -/
def updateSeverityCountsLocksFuel :
    Nat → Heap → Nat → String → StatusSummary → Heap × List LockEvent
  | 0, h, _, _, _ => (h, [])
  | fuel + 1, h, r, severity, summary =>
    match h[r]? with
    | none => (h, [])
    | some g =>
      let val := severityVal g severity summary
      let h1 := h.set r
        { g with Summary := { g.Summary with Severity := g.Summary.Severity.set severity val } }
      match g.Parent with
      | none => (h1, [LockEvent.lock r, LockEvent.unlock r])
      | some p =>
        let res := updateSeverityCountsLocksFuel fuel h1 p severity summary
        (res.1, LockEvent.lock r :: (res.2 ++ [LockEvent.unlock r]))

/-- The method `ResultGroup.updateSeverityCounts` with its lock events. -/
def updateSeverityCountsLocks (h : Heap) (r : Nat) (severity : String)
    (summary : StatusSummary) : Heap × List LockEvent :=
  updateSeverityCountsLocksFuel h.length h r severity summary

/-- The recursion of `ResultGroup.addDimensionKeys` with its lock events:
`r.updateLock.Lock()`, the deferred `r.updateLock.Unlock()` that runs when the
method returns, and between them the append, the call on `Parent`, and the
distinct and sort. -/
def addDimensionKeysLocksFuel : Nat → Heap → Nat → List String → Heap × List LockEvent
  | 0, h, _, _ => (h, [])
  | fuel + 1, h, r, keys =>
    match h[r]? with
    | none => (h, [])
    | some g =>
      let h1 := h.set r { g with DimensionKeys := g.DimensionKeys ++ keys }
      let res : Heap × List LockEvent :=
        match g.Parent with
        | none => (h1, [])
        | some p => addDimensionKeysLocksFuel fuel h1 p keys
      let h3 :=
        match res.1[r]? with
        | none => res.1
        | some g2 =>
          res.1.set r
            { g2 with DimensionKeys := sortStrings (StringSliceDistinct g2.DimensionKeys) }
      (h3, LockEvent.lock r :: (res.2 ++ [LockEvent.unlock r]))

/-- The method `ResultGroup.addDimensionKeys` with its lock events. -/
def addDimensionKeysLocks (h : Heap) (r : Nat) (keys : List String) :
    Heap × List LockEvent :=
  addDimensionKeysLocksFuel h.length h r keys

/-- The locks held after an event, given those held before it (the most
recently acquired first). -/
def holdStep (held : List Nat) : LockEvent → List Nat
  | LockEvent.lock g => g :: held
  | LockEvent.unlock g => held.erase g

/-- The locks held after a sequence of events that starts with none held. -/
def heldAfter (tr : List LockEvent) : List Nat := tr.foldl holdStep []

/-- The lock events of nested critical sections along a chain of groups: the
locks are acquired in the order of the chain and released in the opposite
order. -/
def nestedLocks (chain : List Nat) : List LockEvent :=
  chain.map LockEvent.lock ++ chain.reverse.map LockEvent.unlock

/-! ## Heap view: counting control runs -/

/-- The recursion of `ResultGroup.ControlRunCount` on the group at address `r`:
`count` starts as `len(r.ControlRuns)` and the count of every group of
`r.Groups` is added to it.  `fuel` bounds the depth of the recursion. -/
def heapControlRunCountFuel : Nat → Heap → Nat → Nat
  | 0, _, _ => 0
  | fuel + 1, h, r =>
    match h[r]? with
    | none => 0
    | some g =>
      g.Groups.foldl (fun count c => count + heapControlRunCountFuel fuel h c)
        g.ControlRuns.length

/-- The method `ResultGroup.ControlRunCount`, called on the group at address
`r`.  A tree is never deeper than the number of groups that the heap holds. -/
def heapControlRunCount (h : Heap) (r : Nat) : Nat :=
  heapControlRunCountFuel h.length h r

/-- The fields of a group that `ControlRunCount` reads. -/
def ResultGroup.members (g : ResultGroup) : List Nat × List String :=
  (g.Groups, g.ControlRuns)

/-- The groups of `Groups` were allocated after the group that holds them, so
their addresses are larger. -/
def Heap.groupsAfter (h : Heap) : Bool :=
  (List.range h.length).all fun i =>
    match h[i]? with
    | some g => g.Groups.all fun c => decide (i < c)
    | none => true

/-! ## Ownership view: the tag keys of a subtree -/

/-- The loop `for _, run := range r.ControlRuns` of `AllTagKeys`: the keys of
`run.Control.Tags` of every control run. -/
def runTagKeys : List ControlRun → List String
  | [] => []
  | run :: rest => run.Control.tags.map Prod.fst ++ runTagKeys rest

mutual
/-- The method `AllTagKeys`: the keys of `r.Tags`, then `AllTagKeys()` of every
group of `r.Groups`, then the keys of the tags of the control of every control
run, made distinct and sorted.  A Go map is ranged over in an unspecified
order; the keys are taken here in the order of the association list, which the
sorted distinct result does not show. -/
def GroupTree.AllTagKeys : GroupTree → List String
  | .mk _ _ _ tags _ _ _ _ _ _ groups runs _ =>
    sortStrings (StringSliceDistinct
      (tags.map Prod.fst ++ AllTagKeysList groups ++ runTagKeys runs))
/-- The loop `for _, child := range r.Groups` of `AllTagKeys`. -/
def AllTagKeysList : List GroupTree → List String
  | [] => []
  | child :: rest => child.AllTagKeys ++ AllTagKeysList rest
end

/-- The key `k` is a key of the tags of the group, or of the tags of the control
of one of its control runs. -/
def GroupTree.hasTagKey (g : GroupTree) (k : String) : Prop :=
  k ∈ g.Tags.map Prod.fst ∨ ∃ run ∈ g.ControlRuns, k ∈ run.Control.tags.map Prod.fst

/-- A group tagged `service` with a control run tagged `cis` and `service`,
below a root tagged `plugin`. -/
def taggedTree : GroupTree :=
  GroupTree.mk RootResultGroupName "" "" [("plugin", "aws")] "" "" "" "" 0 none
    [GroupTree.mk "b" "" "" [("service", "s3")] "" "" "" "" 1 (some 0) []
      [⟨{ name := "c", title := "", description := "",
          tags := [("service", "s3"), ("cis", "true")], documentation := "", display := "",
          controlType := "" }⟩] []]
    [] []

/-! ## Dashboard category folds (`internal/resources`) -/

/-- A Go `*int` that is not nil: the address it points to and the number stored
there. -/
structure IntRef where
  addr : Nat
  val : Int
deriving DecidableEq

/-- The comparison `==` of two `*int`: both are nil, or both point to the same
address.  The numbers stored are not read. -/
def intPtrEq : Option IntRef → Option IntRef → Bool
  | none, none => true
  | some a, some b => decide (a.addr = b.addr)
  | _, _ => false

/-- The struct `DashboardCategoryFold`.  The `*string` fields are given by their
content (`none` for nil), the `*int` field as a pointer. -/
structure DashboardCategoryFold where
  Title : Option String
  Threshold : Option IntRef
  Icon : Option String
deriving DecidableEq

/-- The method `DashboardCategoryFold.Equals`; `other` is `none` for nil.
`SafeStringsEqual` is the function of that name of pipe-fittings `utils`, which
is not part of this repository and is left open. -/
def DashboardCategoryFold.Equals (SafeStringsEqual : Option String → Option String → Bool)
    (f : DashboardCategoryFold) (other : Option DashboardCategoryFold) : Bool :=
  match other with
  | none => false
  | some o =>
    SafeStringsEqual f.Title o.Title &&
      intPtrEq f.Threshold o.Threshold &&
      SafeStringsEqual f.Icon o.Icon

/-- A fold with title `Other`, threshold 5 and icon `folder`, its threshold
stored at the given address. -/
def sampleFold (addr : Nat) : DashboardCategoryFold :=
  { Title := some "Other", Threshold := some ⟨addr, 5⟩, Icon := some "folder" }

/-- The ancestor-or-self relation read off the `Parent` links, without fuel. -/
inductive IsAncestorOrSelf (h : Heap) : Nat → Nat → Prop
  | self (r : Nat) (g : ResultGroup) : h[r]? = some g → IsAncestorOrSelf h r r
  | up (a r p : Nat) (g : ResultGroup) : h[r]? = some g → g.Parent = some p →
      IsAncestorOrSelf h a p → IsAncestorOrSelf h a r

/-! ## Lemmas: Go integer addition -/

theorem intAdd_comm (a b : Int) : intAdd a b = intAdd b a := by
  unfold intAdd; rw [Int.add_comm]

theorem intAdd_right_comm (a b c : Int) :
    intAdd (intAdd a b) c = intAdd (intAdd a c) b := by
  unfold intAdd wrapInt; omega

theorem intAdd_of_inRange (a b : Int)
    (h1 : -9223372036854775808 ≤ a + b) (h2 : a + b < 9223372036854775808) :
    intAdd a b = a + b := by
  unfold intAdd wrapInt; omega

theorem StatusSummary.add_comm (a b : StatusSummary) : a.add b = b.add a := by
  simp [StatusSummary.add, intAdd_comm]

theorem StatusSummary.add_right_comm (a b c : StatusSummary) :
    (a.add b).add c = (a.add c).add b := by
  simp only [StatusSummary.add, StatusSummary.mk.injEq]
  exact ⟨intAdd_right_comm _ _ _, intAdd_right_comm _ _ _, intAdd_right_comm _ _ _,
    intAdd_right_comm _ _ _, intAdd_right_comm _ _ _⟩

theorem StatusSummary.foldl_add_perm {l1 l2 : List StatusSummary} (hp : l1.Perm l2)
    (b : StatusSummary) : l1.foldl StatusSummary.add b = l2.foldl StatusSummary.add b := by
  induction hp generalizing b with
  | nil => rfl
  | cons x _ ih => exact ih _
  | swap x y l => simp only [List.foldl_cons]; rw [StatusSummary.add_right_comm]
  | trans _ _ ih1 ih2 => exact (ih1 b).trans (ih2 b)

theorem StatusSummary.foldl_add_exact :
    ∀ (l : List StatusSummary) (b : StatusSummary), b.nonneg → (∀ s ∈ l, s.nonneg) →
      (StatusSummary.mk (b.Alarm + (l.map StatusSummary.Alarm).sum)
        (b.Ok + (l.map StatusSummary.Ok).sum) (b.Info + (l.map StatusSummary.Info).sum)
        (b.Skip + (l.map StatusSummary.Skip).sum)
        (b.Error + (l.map StatusSummary.Error).sum)).small →
      l.foldl StatusSummary.add b =
        StatusSummary.mk (b.Alarm + (l.map StatusSummary.Alarm).sum)
          (b.Ok + (l.map StatusSummary.Ok).sum) (b.Info + (l.map StatusSummary.Info).sum)
          (b.Skip + (l.map StatusSummary.Skip).sum)
          (b.Error + (l.map StatusSummary.Error).sum) := by
  intro l
  induction l with
  | nil => intro b _ _ _; simp
  | cons s l ih =>
    intro b hb hl hsmall
    have hs : s.nonneg := hl s (List.mem_cons_self _ _)
    have hl2 : ∀ t ∈ l, t.nonneg := fun t ht => hl t (List.mem_cons_of_mem _ ht)
    have h1 : 0 ≤ (l.map StatusSummary.Alarm).sum :=
      List.sum_nonneg (by intro x hx; simp only [List.mem_map] at hx
                          obtain ⟨t, ht, rfl⟩ := hx; exact (hl2 t ht).1)
    have h2 : 0 ≤ (l.map StatusSummary.Ok).sum :=
      List.sum_nonneg (by intro x hx; simp only [List.mem_map] at hx
                          obtain ⟨t, ht, rfl⟩ := hx; exact (hl2 t ht).2.1)
    have h3 : 0 ≤ (l.map StatusSummary.Info).sum :=
      List.sum_nonneg (by intro x hx; simp only [List.mem_map] at hx
                          obtain ⟨t, ht, rfl⟩ := hx; exact (hl2 t ht).2.2.1)
    have h4 : 0 ≤ (l.map StatusSummary.Skip).sum :=
      List.sum_nonneg (by intro x hx; simp only [List.mem_map] at hx
                          obtain ⟨t, ht, rfl⟩ := hx; exact (hl2 t ht).2.2.2.1)
    have h5 : 0 ≤ (l.map StatusSummary.Error).sum :=
      List.sum_nonneg (by intro x hx; simp only [List.mem_map] at hx
                          obtain ⟨t, ht, rfl⟩ := hx; exact (hl2 t ht).2.2.2.2)
    simp only [StatusSummary.small, StatusSummary.nonneg, List.map_cons, List.sum_cons]
      at hsmall hb hs
    have hadd : b.add s = StatusSummary.mk (b.Alarm + s.Alarm) (b.Ok + s.Ok)
        (b.Info + s.Info) (b.Skip + s.Skip) (b.Error + s.Error) := by
      simp only [StatusSummary.add, StatusSummary.mk.injEq]
      refine ⟨intAdd_of_inRange _ _ ?_ ?_, intAdd_of_inRange _ _ ?_ ?_,
        intAdd_of_inRange _ _ ?_ ?_, intAdd_of_inRange _ _ ?_ ?_,
        intAdd_of_inRange _ _ ?_ ?_⟩ <;> omega
    rw [List.foldl_cons, hadd, ih _ (by simp only [StatusSummary.nonneg]; omega) hl2
      (by simp only [StatusSummary.small]; omega)]
    simp only [List.map_cons, List.sum_cons, StatusSummary.mk.injEq]
    omega

/-- While the counters fit a Go `int`, the sum in Go arithmetic is the sum over
the integers. -/
theorem StatusSummary.sum_eq_exactSum (l : List StatusSummary) (h : StatusSummary.fits l) :
    StatusSummary.sum l = StatusSummary.exactSum l := by
  unfold StatusSummary.sum
  rw [StatusSummary.foldl_add_exact l StatusSummary.zero (by simp [StatusSummary.nonneg,
    StatusSummary.zero]) h.1 (by simpa [StatusSummary.zero, StatusSummary.exactSum] using h.2)]
  simp [StatusSummary.zero, StatusSummary.exactSum]

/-! ## Lemmas: the parent chain -/

theorem Heap.isTree_iff (h : Heap) :
    h.isTree = true ↔
      ∀ (i : Nat) (g : ResultGroup), h[i]? = some g → ∀ p, g.Parent = some p → p < i := by
  unfold Heap.isTree
  rw [List.all_eq_true]
  constructor
  · intro H i g hg p hp
    have hi : i < h.length := by
      rcases Nat.lt_or_ge i h.length with hlt | hge
      · exact hlt
      · rw [List.getElem?_eq_none hge] at hg; cases hg
    have := H i (List.mem_range.mpr hi)
    simpa [hg, hp] using this
  · intro H i _
    cases hg : h[i]? with
    | none => rfl
    | some g =>
      cases hp : g.Parent with
      | none => simp [hp]
      | some p => simpa [hp] using H i g hg p hp

theorem chainFuel_le (h : Heap) (ht : h.isTree = true) :
    ∀ (fuel r x : Nat), x ∈ chainFuel fuel h r → x ≤ r := by
  intro fuel
  induction fuel with
  | zero => intro r x hx; simp [chainFuel] at hx
  | succ n ih =>
    intro r x hx
    unfold chainFuel at hx
    cases hg : h[r]? with
    | none => simp [hg] at hx
    | some g =>
      simp only [hg, List.mem_cons] at hx
      rcases hx with rfl | hx
      · exact Nat.le_refl _
      · cases hp : g.Parent with
        | none => simp [hp] at hx
        | some p =>
          simp only [hp] at hx
          have h1 := ih p x hx
          have h2 := (Heap.isTree_iff h).mp ht r g hg p hp
          omega

theorem chainFuel_congr (h h2 : Heap)
    (hpar : ∀ i : Nat, (h[i]?).map ResultGroup.Parent = (h2[i]?).map ResultGroup.Parent) :
    ∀ (fuel r : Nat), chainFuel fuel h r = chainFuel fuel h2 r := by
  intro fuel
  induction fuel with
  | zero => intro r; rfl
  | succ n ih =>
    intro r
    have hr := hpar r
    unfold chainFuel
    cases hg : h[r]? with
    | none =>
      cases hg2 : h2[r]? with
      | none => rfl
      | some g2 => simp [hg, hg2] at hr
    | some g =>
      cases hg2 : h2[r]? with
      | none => simp [hg, hg2] at hr
      | some g2 =>
        simp only [hg, hg2, Option.map_some', Option.some.injEq] at hr
        simp only [hr, ih]


theorem Heap.isTree_congr (h h2 : Heap) (ht : h.isTree = true)
    (hpar : ∀ i : Nat, (h2[i]?).map ResultGroup.Parent = (h[i]?).map ResultGroup.Parent) :
    h2.isTree = true := by
  rw [Heap.isTree_iff] at ht ⊢
  intro i g2 hg2 p hp
  have hi := hpar i
  rw [hg2] at hi
  cases hg : h[i]? with
  | none => simp [hg] at hi
  | some g =>
    simp only [hg, Option.map_some', Option.some.injEq] at hi
    exact ht i g hg p (by rw [← hi]; exact hp)

theorem set_addStatus_parent (h : Heap) (r : Nat) (g : ResultGroup) (s : StatusSummary)
    (hg : h[r]? = some g) (i : Nat) :
    ((h.set r (g.addStatus s))[i]?).map ResultGroup.Parent = (h[i]?).map ResultGroup.Parent := by
  rw [List.getElem?_set]
  by_cases hri : r = i
  · subst hri
    have hlt : r < h.length := by
      rcases Nat.lt_or_ge r h.length with hlt | hge
      · exact hlt
      · rw [List.getElem?_eq_none hge] at hg; cases hg
    simp [hlt, hg, ResultGroup.addStatus]
  · simp [hri]

/-- What `updateSummary` does to each cell: the groups on the parent chain of
`r` get `summary` added to their status, every other group is untouched. -/
theorem updateSummaryFuel_getElem? (s : StatusSummary) :
    ∀ (fuel : Nat) (h : Heap) (r i : Nat), h.isTree = true →
      (updateSummaryFuel fuel h r s)[i]? =
        (h[i]?).map (fun g => if i ∈ chainFuel fuel h r then g.addStatus s else g) := by
  intro fuel
  induction fuel with
  | zero => intro h r i _; simp [updateSummaryFuel, chainFuel]
  | succ n ih =>
    intro h r i ht
    unfold updateSummaryFuel chainFuel
    cases hg : h[r]? with
    | none => simp
    | some g =>
      have hlt : r < h.length := by
        rcases Nat.lt_or_ge r h.length with hlt | hge
        · exact hlt
        · rw [List.getElem?_eq_none hge] at hg; cases hg
      cases hp : g.Parent with
      | none =>
        simp only [hp, List.getElem?_set]
        by_cases hri : r = i
        · subst hri; simp [hlt, hg]
        · have hir : ¬ i = r := fun e => hri e.symm
          simp [hri, hir]
      | some p =>
        have hpar := set_addStatus_parent h r g s hg
        have ht1 : Heap.isTree (h.set r (g.addStatus s)) = true :=
          Heap.isTree_congr h _ ht hpar
        simp only [hp]
        rw [ih _ p i ht1, chainFuel_congr _ h hpar n p, List.getElem?_set]
        by_cases hri : r = i
        · subst hri
          have hnot : r ∉ chainFuel n h p := by
            intro hmem
            have h1 := chainFuel_le h ht n p r hmem
            have h2 := (Heap.isTree_iff h).mp ht r g hg p hp
            omega
          simp [hlt, hg, hnot]
        · have hir : ¬ i = r := fun e => hri e.symm
          simp [hri, hir]

theorem updateSummary_getElem? (h : Heap) (ht : h.isTree = true) (r : Nat)
    (s : StatusSummary) (i : Nat) :
    (updateSummary h r s)[i]? =
      (h[i]?).map (fun g => if i ∈ ancestorsOrSelf h r then g.addStatus s else g) :=
  updateSummaryFuel_getElem? s h.length h r i ht

theorem updateSummary_parent (h : Heap) (ht : h.isTree = true) (r : Nat)
    (s : StatusSummary) (i : Nat) :
    ((updateSummary h r s)[i]?).map ResultGroup.Parent = (h[i]?).map ResultGroup.Parent := by
  rw [updateSummary_getElem? h ht]
  cases h[i]? with
  | none => rfl
  | some g =>
    by_cases hm : i ∈ ancestorsOrSelf h r <;> simp [hm, ResultGroup.addStatus]

theorem updateSummary_length (h : Heap) (ht : h.isTree = true) (r : Nat) (s : StatusSummary) :
    (updateSummary h r s).length = h.length := by
  apply Nat.le_antisymm
  · by_contra hc
    have hlt : h.length < (updateSummary h r s).length := Nat.lt_of_not_le hc
    have h1 := updateSummary_getElem? h ht r s h.length
    rw [List.getElem?_eq_none (Nat.le_refl _), List.getElem?_eq_getElem hlt] at h1
    cases h1
  · by_contra hc
    have hlt : (updateSummary h r s).length < h.length := Nat.lt_of_not_le hc
    have h1 := updateSummary_getElem? h ht r s (updateSummary h r s).length
    rw [List.getElem?_eq_none (Nat.le_refl _), List.getElem?_eq_getElem hlt] at h1
    cases h1

theorem updateSummary_isTree (h : Heap) (ht : h.isTree = true) (r : Nat) (s : StatusSummary) :
    (updateSummary h r s).isTree = true :=
  Heap.isTree_congr h _ ht (updateSummary_parent h ht r s)

theorem updateSummary_ancestorsOrSelf (h : Heap) (ht : h.isTree = true) (r : Nat)
    (s : StatusSummary) (x : Nat) :
    ancestorsOrSelf (updateSummary h r s) x = ancestorsOrSelf h x := by
  unfold ancestorsOrSelf
  rw [updateSummary_length h ht]
  exact chainFuel_congr _ h (updateSummary_parent h ht r s) _ _


theorem mem_chainFuel_iff (h : Heap) (ht : h.isTree = true) :
    ∀ (fuel r x : Nat), r < fuel → (x ∈ chainFuel fuel h r ↔ IsAncestorOrSelf h x r) := by
  intro fuel
  induction fuel with
  | zero => intro r x hr; omega
  | succ n ih =>
    intro r x hr
    unfold chainFuel
    constructor
    · intro hx
      cases hg : h[r]? with
      | none => simp [hg] at hx
      | some g =>
        simp only [hg, List.mem_cons] at hx
        rcases hx with rfl | hx
        · exact IsAncestorOrSelf.self _ g hg
        · cases hp : g.Parent with
          | none => simp [hp] at hx
          | some p =>
            simp only [hp] at hx
            have hlt := (Heap.isTree_iff h).mp ht r g hg p hp
            exact IsAncestorOrSelf.up x r p g hg hp ((ih p x (by omega)).mp hx)
    · intro ha
      cases ha with
      | self g hg => simp [hg]
      | up _ p g hg hp hrec =>
        have hlt := (Heap.isTree_iff h).mp ht r g hg p hp
        have := (ih p x (by omega)).mpr hrec
        simp [hg, hp, this]

/-- The fuel of `ancestorsOrSelf` is enough: in a tree it lists exactly the
group itself and its ancestors. -/
theorem mem_ancestorsOrSelf_iff (h : Heap) (ht : h.isTree = true) (r x : Nat)
    (hr : r < h.length) : x ∈ ancestorsOrSelf h r ↔ IsAncestorOrSelf h x r :=
  mem_chainFuel_iff h ht h.length r x hr

theorem leavesBelow_updateSummary (h : Heap) (ht : h.isTree = true) (r : Nat)
    (s : StatusSummary) (i : Nat) (leaves : List Leaf) :
    leavesBelow (updateSummary h r s) i leaves = leavesBelow h i leaves := by
  unfold leavesBelow
  congr 1
  funext l
  rw [updateSummary_ancestorsOrSelf h ht]

/-- After the leaves of `order` have reported one after the other, every group
holds its former status plus the summaries of the leaves below it. -/
theorem foldl_reportSummary_getElem? :
    ∀ (order : List Leaf) (h : Heap), h.isTree = true → ∀ i : Nat,
      (order.foldl reportSummary h)[i]? =
        (h[i]?).map (fun g => g.withStatus
          (((leavesBelow h i order).map Leaf.summary).foldl StatusSummary.add
            g.Summary.Status)) := by
  intro order
  induction order with
  | nil =>
    intro h _ i
    cases hg : h[i]? with
    | none => simp [hg]
    | some g => simp [hg, leavesBelow, ResultGroup.withStatus]
  | cons l rest ih =>
    intro h ht i
    simp only [List.foldl_cons]
    have ht1 : (reportSummary h l).isTree = true := updateSummary_isTree h ht _ _
    rw [ih _ ht1 i]
    unfold reportSummary
    rw [leavesBelow_updateSummary h ht, updateSummary_getElem? h ht]
    cases h[i]? with
    | none => rfl
    | some g =>
      by_cases hm : i ∈ ancestorsOrSelf h l.group
      · simp [hm, leavesBelow, ResultGroup.addStatus, ResultGroup.withStatus]
      · simp [hm, leavesBelow]

theorem leavesBelow_perm (h : Heap) (i : Nat) {l1 l2 : List Leaf} (hp : l1.Perm l2) :
    ((leavesBelow h i l1).map Leaf.summary).Perm ((leavesBelow h i l2).map Leaf.summary) :=
  (hp.filter _).map _


theorem root_mem_ancestorsOrSelf (h : Heap) (ht : h.isTree = true)
    (hroot : ∀ (j : Nat) (gj : ResultGroup), h[j]? = some gj → j ≠ 0 → gj.Parent ≠ none) :
    ∀ r : Nat, r < h.length → 0 ∈ ancestorsOrSelf h r := by
  intro r
  induction r using Nat.strong_induction_on with
  | _ r ih =>
    intro hr
    rw [mem_ancestorsOrSelf_iff h ht r 0 hr]
    have hg : h[r]? = some h[r] := List.getElem?_eq_getElem hr
    by_cases h0 : r = 0
    · subst h0; exact IsAncestorOrSelf.self _ _ hg
    · cases hp : (h[r]).Parent with
      | none => exact absurd hp (hroot r _ hg h0)
      | some p =>
        have hlt := (Heap.isTree_iff h).mp ht r _ hg p hp
        have hmem := ih p hlt (by omega)
        rw [mem_ancestorsOrSelf_iff h ht p 0 (by omega)] at hmem
        exact IsAncestorOrSelf.up 0 r p _ hg hp hmem

/-! ## Lemmas: pruning of empty groups -/

theorem attachedNonEmptyList_append (gs : List GroupTree) (c : GroupTree) :
    attachedNonEmptyList (gs ++ [c]) =
      (attachedNonEmptyList gs && (decide (c.ControlRunCount > 0) && c.attachedNonEmpty)) := by
  induction gs with
  | nil => simp [attachedNonEmptyList]
  | cons g gs ih => simp [attachedNonEmptyList, ih, Bool.and_assoc]

theorem attachedNonEmptyList_iff (gs : List GroupTree) :
    attachedNonEmptyList gs = true ↔
      ∀ g ∈ gs, g.ControlRunCount > 0 ∧ g.attachedNonEmpty = true := by
  induction gs with
  | nil => simp [attachedNonEmptyList]
  | cons g gs ih => simp [attachedNonEmptyList, ih, and_assoc]

theorem attachedNonEmpty_eq (g : GroupTree) :
    g.attachedNonEmpty = attachedNonEmptyList g.Groups := by
  cases g; rfl

theorem attachedNonEmpty_addControl (g : GroupTree) (run : ControlRun) :
    (g.addControl run).attachedNonEmpty = g.attachedNonEmpty := by
  cases g; rfl

theorem attachedNonEmpty_addResultGroup (g c : GroupTree) :
    (g.addResultGroup c).attachedNonEmpty =
      (g.attachedNonEmpty && (decide (c.ControlRunCount > 0) && c.attachedNonEmpty)) := by
  cases g
  simp [GroupTree.addResultGroup, GroupTree.attachedNonEmpty, attachedNonEmptyList_append]

theorem attachedNonEmpty_newGroupLiteral (addr : Nat) (treeItem : ModTreeItem)
    (parent : Option Nat) : (newGroupLiteral addr treeItem parent).attachedNonEmpty = true := by
  cases treeItem <;> rfl

theorem AddControl_attachedNonEmpty (e e2 : ExecutionTree) (control : Control)
    (group group2 : GroupTree) (h : AddControl e control group = Except.ok (e2, group2)) :
    group2.attachedNonEmpty = group.attachedNonEmpty := by
  unfold AddControl at h
  split at h
  · cases h
  · simp only [Except.ok.injEq, Prod.mk.injEq] at h
    rw [← h.2, attachedNonEmpty_addControl]

mutual
theorem NewResultGroup_attachedNonEmpty (treeItem : ModTreeItem) (st : BuildState)
    (parent : Option Nat) (st2 : BuildState) (g : GroupTree)
    (h : NewResultGroup st treeItem parent = Except.ok (st2, g)) :
    g.attachedNonEmpty = true := by
  cases treeItem with
  | control c =>
    simp only [NewResultGroup, Except.ok.injEq, Prod.mk.injEq] at h
    rw [← h.2]; exact attachedNonEmpty_newGroupLiteral _ _ _
  | benchmark name title description tags documentation display benchmarkType children =>
    simp only [NewResultGroup] at h
    exact addChildren_attachedNonEmpty children _ _ st2 g
      (attachedNonEmpty_newGroupLiteral _ _ _) h
  | other name title description tags children =>
    simp only [NewResultGroup] at h
    exact addChildren_attachedNonEmpty children _ _ st2 g
      (attachedNonEmpty_newGroupLiteral _ _ _) h
theorem addChildren_attachedNonEmpty (cs : List ModTreeItem) (st : BuildState)
    (group : GroupTree) (st2 : BuildState) (g : GroupTree)
    (hgroup : group.attachedNonEmpty = true)
    (h : addChildren st group cs = Except.ok (st2, g)) :
    g.attachedNonEmpty = true := by
  cases cs with
  | nil =>
    simp only [addChildren, Except.ok.injEq, Prod.mk.injEq] at h
    rw [← h.2]; exact hgroup
  | cons c cs =>
    simp only [addChildren] at h
    split at h
    · split at h
      · cases h
      · rename_i st1 benchmarkGroup hnew
        have hb := NewResultGroup_attachedNonEmpty c st (some group.addr) st1 benchmarkGroup hnew
        split at h
        · rename_i hpos
          refine addChildren_attachedNonEmpty cs st1 _ st2 g ?_ h
          rw [attachedNonEmpty_addResultGroup, hgroup, hb]
          simpa using hpos
        · exact addChildren_attachedNonEmpty cs st1 group st2 g hgroup h
    · split at h
      · split at h
        · cases h
        · rename_i e group1 hadd
          refine addChildren_attachedNonEmpty cs _ group1 st2 g ?_ h
          rw [AddControl_attachedNonEmpty _ _ _ _ _ hadd]; exact hgroup
      · exact addChildren_attachedNonEmpty cs st group st2 g hgroup h
end


/-! ## Lemmas: dispatch -/

theorem executeRuns_canceled (env : ExecEnv) (err : Option String)
    (hc : ∀ k, env.isCanceled k = true) (he : ∀ k, env.ctxErr k = err) :
    ∀ (runs : List ControlRun) (k : Nat),
      (executeRuns env k runs).1 = runs.map (fun run => ExecEvent.setError run err) := by
  intro runs
  induction runs with
  | nil => intro k; rfl
  | cons run rest ih => intro k; simp [executeRuns, hc, he, ih]

theorem executeRuns_dryRun (env : ExecEnv) (hc : ∀ k, env.isCanceled k = false)
    (hd : env.dryRun = true) :
    ∀ (runs : List ControlRun) (k : Nat),
      (executeRuns env k runs).1 = runs.map (fun run => ExecEvent.skip run) := by
  intro runs
  induction runs with
  | nil => intro k; rfl
  | cons run rest ih => intro k; simp [executeRuns, hc, hd, ih]

mutual
theorem execute_of_runs (env : ExecEnv) (f : ControlRun → ExecEvent)
    (hruns : ∀ (runs : List ControlRun) (k : Nat), (executeRuns env k runs).1 = runs.map f)
    (g : GroupTree) (k : Nat) : (g.execute env k).1 = g.allRuns.map f := by
  cases g with
  | mk _ _ _ _ _ _ _ _ _ _ groups runs _ =>
    simp only [GroupTree.execute, GroupTree.allRuns, List.map_append]
    rw [hruns, executeGroups_of_runs env f hruns groups]
theorem executeGroups_of_runs (env : ExecEnv) (f : ControlRun → ExecEvent)
    (hruns : ∀ (runs : List ControlRun) (k : Nat), (executeRuns env k runs).1 = runs.map f)
    (gs : List GroupTree) (k : Nat) : (executeGroups env k gs).1 = (allRunsList gs).map f := by
  cases gs with
  | nil => rfl
  | cons g gs =>
    simp only [executeGroups, allRunsList, List.map_append]
    rw [execute_of_runs env f hruns g, executeGroups_of_runs env f hruns gs]
end

/-! ## Lemmas: completion of children -/

theorem parentAt_eq_some (h : Heap) (c p : Nat) :
    parentAt h c = some p ↔ ∃ g, h[c]? = some g ∧ g.Parent = some p := by
  unfold parentAt
  cases h[c]? with
  | none => simp
  | some g => simp

theorem parentAt_lt (h : Heap) (ht : h.isTree = true) (c p : Nat)
    (hp : parentAt h c = some p) : p < c ∧ c < h.length := by
  obtain ⟨g, hg, hgp⟩ := (parentAt_eq_some h c p).mp hp
  refine ⟨(Heap.isTree_iff h).mp ht c g hg p hgp, ?_⟩
  rcases Nat.lt_or_ge c h.length with hlt | hge
  · exact hlt
  · rw [List.getElem?_eq_none hge] at hg; cases hg

theorem mem_childGroups (h : Heap) (i c : Nat) :
    c ∈ childGroups h i ↔ parentAt h c = some i := by
  unfold childGroups
  rw [List.mem_filter, List.mem_range]
  constructor
  · intro hc; simpa using hc.2
  · intro hp
    refine ⟨?_, by simpa using hp⟩
    obtain ⟨g, hg, _⟩ := (parentAt_eq_some h c i).mp hp
    rcases Nat.lt_or_ge c h.length with hlt | hge
    · exact hlt
    · rw [List.getElem?_eq_none hge] at hg; cases hg

theorem childGroups_nodup (h : Heap) (i : Nat) : (childGroups h i).Nodup :=
  (List.nodup_range _).filter _

theorem childGroups_length (h : Heap) (hl : h.linked = true) (i : Nat) (hi : i < h.length) :
    controlRunCountAt h i + (childGroups h i).length = childCount h i := by
  unfold controlRunCountAt childCount
  have hg : h[i]? = some h[i] := List.getElem?_eq_getElem hi
  unfold Heap.linked at hl
  rw [List.all_eq_true] at hl
  have := hl i (List.mem_range.mpr hi)
  simp only [hg, decide_eq_true_eq] at this
  simp only [hg, this.length_eq]

theorem countP_add_one (l : List Nat) (hnd : l.Nodup) (P Q : Nat → Bool) (r : Nat)
    (hQ : ∀ x, Q x = (P x || decide (x = r))) (hP : P r = false) :
    l.countP Q = l.countP P + (if r ∈ l then 1 else 0) := by
  induction l with
  | nil => simp
  | cons a l ih =>
    rw [List.nodup_cons] at hnd
    rw [List.countP_cons, List.countP_cons, ih hnd.2]
    by_cases har : a = r
    · subst har
      simp [hQ, hP, hnd.1]
    · have hra : ¬ r = a := fun e => har e.symm
      simp [hQ, har, hra]
      omega

theorem set_childrenComplete_getElem? (h : Heap) (r : Nat) (g : ResultGroup) (c : Nat)
    (hg : h[r]? = some g) (i : Nat) :
    (h.set r { g with childrenComplete := c })[i]? =
      if i = r then some { g with childrenComplete := c } else h[i]? := by
  have hlt : r < h.length := by
    rcases Nat.lt_or_ge r h.length with hlt | hge
    · exact hlt
    · rw [List.getElem?_eq_none hge] at hg; cases hg
  rw [List.getElem?_set]
  by_cases hir : i = r
  · subst hir; simp [hlt]
  · have hri : ¬ r = i := fun e => hir e.symm
    simp [hir, hri]

theorem set_childrenComplete_parentAt (h : Heap) (r : Nat) (g : ResultGroup) (c : Nat)
    (hg : h[r]? = some g) (i : Nat) :
    parentAt (h.set r { g with childrenComplete := c }) i = parentAt h i := by
  unfold parentAt
  rw [set_childrenComplete_getElem? h r g c hg]
  by_cases hir : i = r
  · subst hir; simp [hg]
  · simp [hir]

theorem set_childrenComplete_childCount (h : Heap) (r : Nat) (g : ResultGroup) (c : Nat)
    (hg : h[r]? = some g) (i : Nat) :
    childCount (h.set r { g with childrenComplete := c }) i = childCount h i := by
  unfold childCount
  rw [set_childrenComplete_getElem? h r g c hg]
  by_cases hir : i = r
  · subst hir; simp [hg]
  · simp [hir]

theorem set_childrenComplete_at (h : Heap) (r : Nat) (g : ResultGroup) (c : Nat)
    (hg : h[r]? = some g) (i : Nat) :
    childrenCompleteAt (h.set r { g with childrenComplete := c }) i =
      if i = r then c else childrenCompleteAt h i := by
  unfold childrenCompleteAt
  rw [set_childrenComplete_getElem? h r g c hg]
  by_cases hir : i = r
  · subst hir; simp
  · simp [hir]

theorem DoneInv.step_waiting (h0 : Heap) (lc : Nat → Nat) (r : Nat) (h : Heap)
    (tr : List DoneEvent) (g : ResultGroup) (hrn : r < h0.length) (hg : h[r]? = some g)
    (inv : DoneInv h0 lc (some r) h tr) (hlt : g.childrenComplete + 1 < childCount h0 r) :
    DoneInv h0 lc none (h.set r { g with childrenComplete := g.childrenComplete + 1 })
      (tr ++ [DoneEvent.called r]) := by
  have hcc : childrenCompleteAt h r = g.childrenComplete := by simp [childrenCompleteAt, hg]
  refine ⟨?_, ?_, ?_, ?_, ?_, ?_, ?_, ?_⟩
  · rw [List.length_set]; exact inv.length
  · intro i; rw [set_childrenComplete_parentAt h r g _ hg]; exact inv.parent i
  · intro i; rw [set_childrenComplete_childCount h r g _ hg]; exact inv.total i
  · intro i hi
    have hold := inv.counts i hi
    rw [set_childrenComplete_at h r g _ hg]
    have hmem : (fun c => decide (DoneEvent.allDone c ∈ tr ++ [DoneEvent.called r])) =
        (fun c => decide (DoneEvent.allDone c ∈ tr)) := by
      funext c; simp
    rw [hmem]
    by_cases hir : i = r
    · subst hir
      rw [if_pos rfl, hcc] at hold
      rw [if_pos rfl, if_neg (by simp)]
      omega
    · have hri : ¬ some r = some i := fun e => hir (Option.some.inj e).symm
      rw [if_neg hri] at hold
      rw [if_neg hir, if_neg (by simp)]
      exact hold
  · intro i hi
    have hold := inv.calls i hi
    rw [set_childrenComplete_at h r g _ hg, List.count_append, hold]
    by_cases hir : i = r
    · subst hir; simp [hcc]
    · have hri : ¬ r = i := fun e => hir e.symm
      simp [hir, hri]
  · intro i hi
    have hold := inv.done i hi
    rw [set_childrenComplete_at h r g _ hg, List.count_append, hold]
    by_cases hir : i = r
    · subst hir
      have h1 : ¬ childrenCompleteAt h i = childCount h0 i := by omega
      have h2 : ¬ g.childrenComplete + 1 = childCount h0 i := by omega
      simp [h1, h2]
    · simp [hir]
  · intro k i hk
    rcases Nat.lt_or_ge k tr.length with hkl | hkl
    · rw [List.getElem?_append_left hkl] at hk
      rw [List.take_append_of_le_length (by omega)]
      exact inv.before k i hk
    · obtain ⟨j, rfl⟩ : ∃ j, k = tr.length + j := ⟨k - tr.length, by omega⟩
      rw [List.getElem?_append_right (by omega)] at hk
      cases j with
      | zero => simp at hk
      | succ j => simp at hk
  · intro k i p hk hp
    rcases Nat.lt_or_ge k tr.length with hkl | hkl
    · rw [List.getElem?_append_left hkl] at hk
      have hold := inv.notify k i p hk hp
      have hlen : k + 1 < (tr ++ [DoneEvent.called r]).length := by simp; omega
      rw [if_pos hlen]
      by_cases hk1 : k + 1 < tr.length
      · rw [if_pos hk1] at hold
        rw [List.getElem?_append_left hk1]; exact hold
      · rw [if_neg hk1] at hold
        have hrp : r = p := Option.some.inj hold
        have hke : k + 1 = tr.length := by omega
        rw [hke, List.getElem?_append_right (Nat.le_refl _)]
        simp [hrp]
    · obtain ⟨j, rfl⟩ : ∃ j, k = tr.length + j := ⟨k - tr.length, by omega⟩
      rw [List.getElem?_append_right (by omega)] at hk
      cases j with
      | zero => simp at hk
      | succ j => simp at hk

theorem DoneInv.step_allDone (h0 : Heap) (ht : h0.isTree = true) (lc : Nat → Nat) (r : Nat)
    (h : Heap) (tr : List DoneEvent) (g : ResultGroup) (hrn : r < h0.length)
    (hg : h[r]? = some g) (inv : DoneInv h0 lc (some r) h tr)
    (heq : g.childrenComplete + 1 = childCount h0 r) :
    DoneInv h0 lc (parentAt h0 r)
      (h.set r { g with childrenComplete := g.childrenComplete + 1 })
      (tr ++ [DoneEvent.called r, DoneEvent.allDone r]) := by
  have hcc : childrenCompleteAt h r = g.childrenComplete := by simp [childrenCompleteAt, hg]
  have hnotdone : DoneEvent.allDone r ∉ tr := by
    rw [← List.count_eq_zero, inv.done r hrn, if_neg (by omega)]
  have hself : ¬ parentAt h0 r = some r := by
    intro hp
    have := (parentAt_lt h0 ht r r hp).1
    omega
  refine ⟨?_, ?_, ?_, ?_, ?_, ?_, ?_, ?_⟩
  · rw [List.length_set]; exact inv.length
  · intro i; rw [set_childrenComplete_parentAt h r g _ hg]; exact inv.parent i
  · intro i; rw [set_childrenComplete_childCount h r g _ hg]; exact inv.total i
  · intro i hi
    have hold := inv.counts i hi
    rw [set_childrenComplete_at h r g _ hg]
    rw [countP_add_one (childGroups h0 i) (childGroups_nodup h0 i)
      (fun c => decide (DoneEvent.allDone c ∈ tr))
      (fun c => decide (DoneEvent.allDone c ∈ tr ++ [DoneEvent.called r, DoneEvent.allDone r]))
      r (by intro x; simp) (by simpa using hnotdone)]
    have hmem : (r ∈ childGroups h0 i) ↔ parentAt h0 r = some i := mem_childGroups h0 i r
    by_cases hir : i = r
    · subst hir
      rw [if_pos rfl, hcc] at hold
      rw [if_pos rfl, if_neg hself, if_neg (by rw [hmem]; exact hself)]
      omega
    · have hri : ¬ some r = some i := fun e => hir (Option.some.inj e).symm
      rw [if_neg hri] at hold
      rw [if_neg hir]
      by_cases hp : parentAt h0 r = some i
      · rw [if_pos hp, if_pos (hmem.mpr hp)]; omega
      · rw [if_neg hp, if_neg (by rw [hmem]; exact hp)]; omega
  · intro i hi
    have hold := inv.calls i hi
    rw [set_childrenComplete_at h r g _ hg, List.count_append, hold]
    by_cases hir : i = r
    · subst hir; simp [hcc]
    · have hri : ¬ r = i := fun e => hir e.symm
      simp [hir, hri]
  · intro i hi
    have hold := inv.done i hi
    rw [set_childrenComplete_at h r g _ hg, List.count_append, hold]
    by_cases hir : i = r
    · subst hir
      have h1 : ¬ childrenCompleteAt h i = childCount h0 i := by omega
      simp [h1, heq]
    · have hri : ¬ r = i := fun e => hir e.symm
      simp [hir, hri]
  · intro k i hk
    rcases Nat.lt_or_ge k tr.length with hkl | hkl
    · rw [List.getElem?_append_left hkl] at hk
      rw [List.take_append_of_le_length (by omega)]
      exact inv.before k i hk
    · obtain ⟨j, rfl⟩ : ∃ j, k = tr.length + j := ⟨k - tr.length, by omega⟩
      rw [List.getElem?_append_right (by omega)] at hk
      match j, hk with
      | 0, hk => simp at hk
      | 1, hk =>
        have hir : r = i := by simpa using hk
        subst hir
        rw [List.take_append, List.count_append, inv.calls r hrn, hcc]
        simp [← heq]
      | j + 2, hk => simp at hk
  · intro k i p hk hp
    rcases Nat.lt_or_ge k tr.length with hkl | hkl
    · rw [List.getElem?_append_left hkl] at hk
      have hold := inv.notify k i p hk hp
      have hlen : k + 1 < (tr ++ [DoneEvent.called r, DoneEvent.allDone r]).length := by
        simp; omega
      rw [if_pos hlen]
      by_cases hk1 : k + 1 < tr.length
      · rw [if_pos hk1] at hold
        rw [List.getElem?_append_left hk1]; exact hold
      · rw [if_neg hk1] at hold
        have hrp : r = p := Option.some.inj hold
        have hke : k + 1 = tr.length := by omega
        rw [hke, List.getElem?_append_right (Nat.le_refl _)]
        simp [hrp]
    · obtain ⟨j, rfl⟩ : ∃ j, k = tr.length + j := ⟨k - tr.length, by omega⟩
      rw [List.getElem?_append_right (by omega)] at hk
      match j, hk with
      | 0, hk => simp at hk
      | 1, hk =>
        have hir : r = i := by simpa using hk
        subst hir
        have hlen : ¬ tr.length + 1 + 1 <
            (tr ++ [DoneEvent.called r, DoneEvent.allDone r]).length := by simp
        rw [if_neg hlen]
        exact hp
      | j + 2, hk => simp at hk

/-- One call of `onChildDone` that is due on group `r` restores the invariant:
the fuel is enough to walk up the parent chain. -/
theorem onChildDoneFuel_inv (h0 : Heap) (ht : h0.isTree = true) (hl : h0.linked = true)
    (hsmall : ∀ i, i < h0.length → childCount h0 i < 4294967296) (lc : Nat → Nat)
    (hlc : ∀ i, i < h0.length → lc i ≤ controlRunCountAt h0 i) :
    ∀ (fuel r : Nat) (h : Heap) (tr : List DoneEvent), r < fuel → r < h0.length →
      DoneInv h0 lc (some r) h tr →
      DoneInv h0 lc none (onChildDoneFuel fuel h r).1 (tr ++ (onChildDoneFuel fuel h r).2) := by
  intro fuel
  induction fuel with
  | zero => intro r h tr hrf; omega
  | succ n ih =>
    intro r h tr hrf hrn inv
    have hrh : r < h.length := by rw [inv.length]; exact hrn
    have hg : h[r]? = some h[r] := List.getElem?_eq_getElem hrh
    generalize h[r] = g at hg
    have hcc : childrenCompleteAt h r = g.childrenComplete := by simp [childrenCompleteAt, hg]
    have htot : g.ControlRuns.length + g.Groups.length = childCount h0 r := by
      rw [← inv.total r]; simp [childCount, hg]
    have hpar : g.Parent = parentAt h0 r := by
      rw [← inv.parent r]; simp [parentAt, hg]
    have hbound : g.childrenComplete + 1 ≤ childCount h0 r := by
      have h1 := inv.counts r hrn
      rw [if_pos rfl, hcc] at h1
      have h2 := childGroups_length h0 hl r hrn
      have h3 := List.countP_le_length (fun c => decide (DoneEvent.allDone c ∈ tr))
        (l := childGroups h0 r)
      have h4 := hlc r hrn
      omega
    have hsm := hsmall r hrn
    unfold onChildDoneFuel
    simp only [hg]
    rw [htot, Nat.mod_eq_of_lt (by omega : g.childrenComplete + 1 < 4294967296),
      Nat.mod_eq_of_lt hsm]
    by_cases hlt : g.childrenComplete + 1 < childCount h0 r
    · rw [if_pos hlt]
      exact DoneInv.step_waiting h0 lc r h tr g hrn hg inv hlt
    · rw [if_neg hlt]
      have heq : g.childrenComplete + 1 = childCount h0 r := by omega
      have hstep := DoneInv.step_allDone h0 ht lc r h tr g hrn hg inv heq
      cases hp : g.Parent with
      | none =>
        simp only []
        rw [← hpar, hp] at hstep
        exact hstep
      | some p =>
        simp only []
        rw [← hpar, hp] at hstep
        have hplt := parentAt_lt h0 ht r p (by rw [← hpar]; exact hp)
        have := ih p _ _ (by omega) (by omega) hstep
        rw [List.append_assoc] at this
        exact this

theorem DoneInv.init (h0 : Heap)
    (hchild : ∀ g ∈ h0, 0 < g.ControlRuns.length + g.Groups.length)
    (hzero : ∀ g ∈ h0, g.childrenComplete = 0) :
    DoneInv h0 (fun _ => 0) none h0 [] := by
  have hcc : ∀ i, i < h0.length → childrenCompleteAt h0 i = 0 := by
    intro i hi
    simp only [childrenCompleteAt, List.getElem?_eq_getElem hi]
    exact hzero _ (List.getElem_mem hi)
  have htot : ∀ i, i < h0.length → 0 < childCount h0 i := by
    intro i hi
    simp only [childCount, List.getElem?_eq_getElem hi]
    exact hchild _ (List.getElem_mem hi)
  refine ⟨rfl, fun _ => rfl, fun _ => rfl, ?_, ?_, ?_, ?_, ?_⟩
  · intro i hi; simp [hcc i hi]
  · intro i hi; simp [hcc i hi]
  · intro i hi
    have := htot i hi
    rw [hcc i hi, if_neg (by omega)]
    simp
  · intro k i hk; simp at hk
  · intro k i p hk; simp at hk

theorem DoneInv.leaf_step (h0 : Heap) (ht : h0.isTree = true) (hl : h0.linked = true)
    (hsmall : ∀ i, i < h0.length → childCount h0 i < 4294967296) (lc : Nat → Nat) (r : Nat)
    (hlc : ∀ i, i < h0.length → lc i + (if i = r then 1 else 0) ≤ controlRunCountAt h0 i)
    (hrn : r < h0.length) (h : Heap) (tr : List DoneEvent) (inv : DoneInv h0 lc none h tr) :
    DoneInv h0 (fun i => lc i + (if i = r then 1 else 0)) none
      (leafDone (h, tr) r).1 (leafDone (h, tr) r).2 := by
  have hdebt : DoneInv h0 (fun i => lc i + (if i = r then 1 else 0)) (some r) h tr := by
    refine ⟨inv.length, inv.parent, inv.total, ?_, inv.calls, inv.done, inv.before, ?_⟩
    · intro i hi
      have hold := inv.counts i hi
      rw [if_neg (by simp)] at hold
      by_cases hir : i = r
      · subst hir; simp only [if_true]; omega
      · have hri : ¬ some r = some i := fun e => hir (Option.some.inj e).symm
        rw [if_neg hri, if_neg hir]; omega
    · intro k i p hk hp
      have hold := inv.notify k i p hk hp
      by_cases hk1 : k + 1 < tr.length
      · rw [if_pos hk1] at hold ⊢; exact hold
      · rw [if_neg hk1] at hold; cases hold
  unfold leafDone onChildDone
  simp only []
  rw [inv.length]
  exact onChildDoneFuel_inv h0 ht hl hsmall _ hlc h0.length r h tr hrn hrn hdebt

theorem DoneInv.foldl_leafDone (h0 : Heap) (ht : h0.isTree = true) (hl : h0.linked = true)
    (hsmall : ∀ i, i < h0.length → childCount h0 i < 4294967296) :
    ∀ (rest pre : List Nat) (h : Heap) (tr : List DoneEvent),
      (∀ i, (pre ++ rest).count i ≤ controlRunCountAt h0 i) →
      (∀ r ∈ rest, r < h0.length) →
      DoneInv h0 (fun i => pre.count i) none h tr →
      DoneInv h0 (fun i => (pre ++ rest).count i) none
        (rest.foldl leafDone (h, tr)).1 (rest.foldl leafDone (h, tr)).2 := by
  intro rest
  induction rest with
  | nil => intro pre h tr _ _ inv; simpa using inv
  | cons r rest ih =>
    intro pre h tr hcount hvalid inv
    have hfun : (fun i => pre.count i + (if i = r then 1 else 0)) =
        (fun i => (pre ++ [r]).count i) := by
      funext i
      rw [List.count_append, List.count_cons, List.count_nil]
      by_cases hir : i = r
      · subst hir; simp
      · have hri : ¬ r = i := fun e => hir e.symm
        simp [hir, hri]
    have hstep := DoneInv.leaf_step h0 ht hl hsmall (fun i => pre.count i) r (by
      intro i hi
      have := hcount i
      rw [List.count_append, List.count_cons] at this
      by_cases hir : i = r
      · subst hir; simp at this ⊢; omega
      · have hri : ¬ r = i := fun e => hir e.symm
        simp [hir, hri] at this ⊢; omega) (hvalid r (List.mem_cons_self _ _)) h tr inv
    rw [hfun] at hstep
    have := ih (pre ++ [r]) _ _ (by simpa using hcount)
      (fun x hx => hvalid x (List.mem_cons_of_mem _ hx)) hstep
    simpa using this

theorem DoneInv.all_complete (h0 : Heap) (ht : h0.isTree = true) (hl : h0.linked = true)
    (lc : Nat → Nat) (hlc : ∀ i, i < h0.length → lc i = controlRunCountAt h0 i)
    (h : Heap) (tr : List DoneEvent) (inv : DoneInv h0 lc none h tr) :
    ∀ (d i : Nat), i < h0.length → h0.length - i ≤ d →
      childrenCompleteAt h i = childCount h0 i := by
  intro d
  induction d with
  | zero => intro i hi hd; omega
  | succ d ih =>
    intro i hi hd
    have hcnt := inv.counts i hi
    rw [if_neg (by simp)] at hcnt
    have hall : (childGroups h0 i).countP (fun c => decide (DoneEvent.allDone c ∈ tr)) =
        (childGroups h0 i).length := by
      rw [List.countP_eq_length]
      intro c hc
      have hp := (mem_childGroups h0 i c).mp hc
      have hlt := parentAt_lt h0 ht c i hp
      have hc1 := ih c hlt.2 (by omega)
      have hdone := inv.done c hlt.2
      rw [if_pos hc1] at hdone
      have : DoneEvent.allDone c ∈ tr := by
        rw [← List.count_pos_iff, hdone]; exact Nat.one_pos
      simpa using this
    rw [hall, hlc i hi, childGroups_length h0 hl i hi] at hcnt
    omega

/-! ## Lemmas: limiter units -/

theorem launchedRuns_append (a b : List ExecEvent) :
    launchedRuns (a ++ b) = launchedRuns a ++ launchedRuns b := by
  induction a with
  | nil => rfl
  | cons e a ih => cases e <;> simp [launchedRuns, ih]

theorem unitsAcquired_append (a b : List ExecEvent) :
    unitsAcquired (a ++ b) = unitsAcquired a + unitsAcquired b := by
  simp [unitsAcquired, List.count_append]

theorem executeRuns_unitsAcquired (env : ExecEnv) :
    ∀ (runs : List ControlRun) (k : Nat),
      unitsAcquired (executeRuns env k runs).1 =
        (launchedRuns (executeRuns env k runs).1).length := by
  intro runs
  induction runs with
  | nil => intro k; rfl
  | cons run rest ih =>
    intro k
    simp only [executeRuns]
    rw [unitsAcquired_append, launchedRuns_append, List.length_append, ih]
    by_cases hc : env.isCanceled k = true
    · simp [hc, unitsAcquired, launchedRuns]
    · by_cases hd : env.dryRun = true
      · simp [hc, hd, unitsAcquired, launchedRuns]
      · cases ha : env.acquire k <;> simp [hc, hd, ha, unitsAcquired, launchedRuns]

mutual
theorem execute_unitsAcquired (env : ExecEnv) (g : GroupTree) (k : Nat) :
    unitsAcquired (g.execute env k).1 = (launchedRuns (g.execute env k).1).length := by
  cases g with
  | mk _ _ _ _ _ _ _ _ _ _ groups runs _ =>
    simp only [GroupTree.execute]
    rw [unitsAcquired_append, launchedRuns_append, List.length_append,
      executeRuns_unitsAcquired, executeGroups_unitsAcquired env groups]
theorem executeGroups_unitsAcquired (env : ExecEnv) (gs : List GroupTree) (k : Nat) :
    unitsAcquired (executeGroups env k gs).1 =
      (launchedRuns (executeGroups env k gs).1).length := by
  cases gs with
  | nil => rfl
  | cons g gs =>
    simp only [executeGroups]
    rw [unitsAcquired_append, launchedRuns_append, List.length_append,
      execute_unitsAcquired env g, executeGroups_unitsAcquired env gs]
end

theorem goroutineCalls_unitsReleased (toError : String → String) (outcome : Nat → RunOutcome) :
    ∀ (runs : List ControlRun) (i : Nat),
      unitsReleased (goroutineCalls toError outcome i runs) = runs.length := by
  intro runs
  induction runs with
  | nil => intro i; rfl
  | cons run rest ih =>
    intro i
    simp only [goroutineCalls, unitsReleased, List.count_append, List.length_cons]
    have := ih (i + 1)
    simp only [unitsReleased] at this
    rw [this]
    cases outcome i <;> simp [executeRun] <;> omega

/-! ## Lemmas: DetectionRun -/

theorem executeQuery_events (env : DetectionEnv) (r : DetectionRun) :
    ∀ e ∈ (r.executeQuery env).2.1, e = DetectionEvent.getClient ∨ e = DetectionEvent.ExecuteSync := by
  intro e he
  unfold DetectionRun.executeQuery at he
  split at he
  · split at he <;> simp at he
  · split at he
    · simp at he; exact Or.inl he
    · split at he
      · split at he <;> simpa using he
      · split at he <;> simpa using he

theorem executeQuery_err (env : DetectionEnv) (r : DetectionRun) :
    ((r.executeQuery env).2.2 = none →
      (r.executeQuery env).1.err = r.err ∧ (r.executeQuery env).1.Status = r.Status) ∧
    ((r.executeQuery env).2.2 ≠ none → (r.executeQuery env).1.Data = none ∨
      (r.executeQuery env).1.Data = r.Data) := by
  unfold DetectionRun.executeQuery
  split
  · split <;> simp
  · split
    · simp
    · split
      · split <;> simp
      · split <;> simp

/-- The shape of the calls of `Execute`: a run that is already finished makes
none before the deferred function; any other run makes its calls, ends with
exactly one of `SetError` and `SetComplete`, and then runs the deferred
function. -/
theorem Execute_events (env : DetectionEnv) (r : DetectionRun) :
    (r.Status.IsFinished = true ∧ (r.Execute env).2 = r.deferred) ∨
    (r.Status.IsFinished = false ∧ ∃ calls last,
      (r.Execute env).2 = calls ++ [last] ++ r.deferred ∧
      (last = DetectionEvent.SetComplete ∨ ∃ err, last = DetectionEvent.SetError err) ∧
      ∀ e ∈ calls, e = DetectionEvent.executeChildrenAsync ∨
        e = DetectionEvent.waitForChildrenAsync ∨
        e = DetectionEvent.evaluateRuntimeDependencies ∨ e = DetectionEvent.setRunning ∨
        e = DetectionEvent.executeQuery ∨ e = DetectionEvent.getClient ∨
        e = DetectionEvent.ExecuteSync) := by
  unfold DetectionRun.Execute
  by_cases hf : r.Status.IsFinished = true
  · left; simp [hf]
  · right
    have hf2 : r.Status.IsFinished = false := by simpa using hf
    refine ⟨hf2, ?_⟩
    simp only [hf2, Bool.false_eq_true, if_false]
    split
    · rename_i err _
      exact ⟨_, _, rfl, Or.inr ⟨err, rfl⟩, by intro e he; simp at he; tauto⟩
    · rename_i sql _
      have hq : ∀ e ∈ (if (({ r with executeSQL := sql } : DetectionRun).setRunning).executeSQL ≠ ""
          then
            (((({ r with executeSQL := sql } : DetectionRun).setRunning).executeQuery env).1,
              DetectionEvent.executeQuery ::
                ((({ r with executeSQL := sql } : DetectionRun).setRunning).executeQuery env).2.1,
              ((({ r with executeSQL := sql } : DetectionRun).setRunning).executeQuery env).2.2)
          else
            ((({ r with executeSQL := sql } : DetectionRun).setRunning), [], none)).2.1,
          e = DetectionEvent.executeQuery ∨ e = DetectionEvent.getClient ∨
            e = DetectionEvent.ExecuteSync := by
        intro e he
        split at he
        · simp only [List.mem_cons] at he
          rcases he with rfl | he
          · exact Or.inl rfl
          · exact Or.inr (executeQuery_events env _ e he)
        · simp at he
      split
      · rename_i err _
        refine ⟨_, _, rfl, Or.inr ⟨err, rfl⟩, ?_⟩
        intro e he
        simp only [List.mem_append, List.mem_cons, List.mem_singleton, List.not_mem_nil,
          or_false] at he
        rcases he with (h1 | h1) | h1
        · tauto
        · tauto
        · have := hq e h1; tauto
      · split
        · refine ⟨_, _, rfl, Or.inl rfl, ?_⟩
          intro e he
          simp only [List.mem_append, List.mem_cons, List.mem_singleton, List.not_mem_nil,
            or_false] at he
          rcases he with (h1 | h1) | h1
          · tauto
          · tauto
          · have := hq e h1; tauto
        · rename_i err _
          refine ⟨_, _, rfl, Or.inr ⟨err, rfl⟩, ?_⟩
          intro e he
          simp only [List.mem_append, List.mem_cons, List.mem_singleton, List.not_mem_nil,
            or_false] at he
          rcases he with (h1 | h1) | h1
          · tauto
          · tauto
          · have := hq e h1; tauto

theorem executeQuery_data (env : DetectionEnv) (r : DetectionRun) :
    ((r.executeQuery env).2.2 = none → (r.executeQuery env).1.Data ≠ none) ∧
    ((r.executeQuery env).2.2 = none → (r.executeQuery env).1.err = r.err) ∧
    ((r.executeQuery env).2.2 ≠ none → r.Data = none → (r.executeQuery env).1.Data = none) := by
  unfold DetectionRun.executeQuery
  split
  · split <;> simp
  · split
    · simp
    · split
      · split <;> simp
      · split <;> simp

/-! ## Lemmas: dimension keys -/

theorem StringSliceDistinctLoop_spec :
    ∀ (slice res : List String), res.Nodup →
      (StringSliceDistinctLoop res slice).Nodup ∧
      ∀ k, k ∈ StringSliceDistinctLoop res slice ↔ k ∈ res ∨ k ∈ slice := by
  intro slice
  induction slice with
  | nil => intro res hres; simp [StringSliceDistinctLoop, hres]
  | cons item rest ih =>
    intro res hres
    unfold StringSliceDistinctLoop
    by_cases hmem : item ∈ res
    · rw [if_pos hmem]
      refine ⟨(ih res hres).1, ?_⟩
      intro k
      rw [(ih res hres).2 k, List.mem_cons]
      constructor
      · rintro (h | h)
        · exact Or.inl h
        · exact Or.inr (Or.inr h)
      · rintro (h | h | h)
        · exact Or.inl h
        · exact Or.inl (h ▸ hmem)
        · exact Or.inr h
    · rw [if_neg hmem]
      have hnd : (res ++ [item]).Nodup := by
        rw [List.nodup_append]
        refine ⟨hres, List.nodup_singleton _, ?_⟩
        intro a ha hb
        rw [List.mem_singleton] at hb
        exact hmem (hb ▸ ha)
      refine ⟨(ih _ hnd).1, ?_⟩
      intro k
      rw [(ih _ hnd).2 k, List.mem_append, List.mem_singleton, List.mem_cons]
      tauto

theorem StringSliceDistinct_spec (slice : List String) :
    (StringSliceDistinct slice).Nodup ∧ ∀ k, k ∈ StringSliceDistinct slice ↔ k ∈ slice := by
  have h := StringSliceDistinctLoop_spec slice [] List.nodup_nil
  refine ⟨h.1, fun k => ?_⟩
  rw [StringSliceDistinct, h.2 k]
  simp

theorem sortStrings_perm (l : List String) : (sortStrings l).Perm l :=
  List.perm_insertionSort _ l

theorem sortStrings_sorted (l : List String) :
    List.Sorted (fun a b : String => a ≤ b) (sortStrings l) := by
  have hs : List.Sorted (fun a b : String => a.data ≤ b.data) (sortStrings l) :=
    @List.sorted_insertionSort String (fun a b => a.data ≤ b.data) _
      ⟨fun a b => le_total a.data b.data⟩ ⟨fun a b c hab hbc => le_trans hab hbc⟩ l
  exact hs.imp (fun {a b} hab => String.le_iff_toList_le.mpr hab)

/-- The keys of a group after `addDimensionKeys`: distinct, strictly increasing,
and the same keys as before. -/
theorem sortStrings_distinct_spec (l : List String) :
    List.Sorted (fun a b : String => a < b) (sortStrings (StringSliceDistinct l)) ∧
    (sortStrings (StringSliceDistinct l)).Nodup ∧
    ∀ k, k ∈ sortStrings (StringSliceDistinct l) ↔ k ∈ l := by
  have hp := sortStrings_perm (StringSliceDistinct l)
  have hd := StringSliceDistinct_spec l
  have hnd : (sortStrings (StringSliceDistinct l)).Nodup := hp.nodup_iff.mpr hd.1
  refine ⟨(sortStrings_sorted _).lt_of_le hnd, hnd, fun k => ?_⟩
  rw [hp.mem_iff, hd.2 k]

theorem set_parent_eq (h : Heap) (r : Nat) (g g2 : ResultGroup) (hg : h[r]? = some g)
    (hp : g2.Parent = g.Parent) (i : Nat) :
    ((h.set r g2)[i]?).map ResultGroup.Parent = (h[i]?).map ResultGroup.Parent := by
  rw [List.getElem?_set]
  by_cases hri : r = i
  · subst hri
    have hlt : r < h.length := by
      rcases Nat.lt_or_ge r h.length with hlt | hge
      · exact hlt
      · rw [List.getElem?_eq_none hge] at hg; cases hg
    simp [hlt, hg, hp]
  · simp [hri]

/-- What `addDimensionKeys` does to each cell: the groups on the parent chain of
`r` get the keys added, every other group is untouched. -/
theorem addDimensionKeysFuel_getElem? (keys : List String) :
    ∀ (fuel : Nat) (h : Heap) (r i : Nat), h.isTree = true →
      (addDimensionKeysFuel fuel h r keys)[i]? =
        (h[i]?).map (fun g => if i ∈ chainFuel fuel h r then g.withKeys keys else g) := by
  intro fuel
  induction fuel with
  | zero => intro h r i _; simp [addDimensionKeysFuel, chainFuel]
  | succ n ih =>
    intro h r i ht
    unfold addDimensionKeysFuel chainFuel
    cases hg : h[r]? with
    | none => simp
    | some g =>
      have hlt : r < h.length := by
        rcases Nat.lt_or_ge r h.length with hlt | hge
        · exact hlt
        · rw [List.getElem?_eq_none hge] at hg; cases hg
      rcases g with ⟨id, sm, gs, rs, sev, par, dk, cc, est⟩
      have hpar := set_parent_eq h r ⟨id, sm, gs, rs, sev, par, dk, cc, est⟩
        ⟨id, sm, gs, rs, sev, par, dk ++ keys, cc, est⟩ hg rfl
      have ht1 : Heap.isTree (h.set r ⟨id, sm, gs, rs, sev, par, dk ++ keys, cc, est⟩) = true :=
        Heap.isTree_congr h _ ht hpar
      have hself : (h.set r ⟨id, sm, gs, rs, sev, par, dk ++ keys, cc, est⟩)[r]? =
          some ⟨id, sm, gs, rs, sev, par, dk ++ keys, cc, est⟩ := by
        rw [List.getElem?_set]; simp [hlt]
      cases par with
      | none =>
        simp only [hself]
        rw [List.getElem?_set, List.getElem?_set]
        by_cases hri : r = i
        · subst hri; simp [hlt, hg, ResultGroup.withKeys]
        · have hir : ¬ i = r := fun e => hri e.symm
          simp [hri, hir]
      | some p =>
        simp only []
        have hnot : r ∉ chainFuel n h p := by
          intro hmem
          have h1 := chainFuel_le h ht n p r hmem
          have h2 := (Heap.isTree_iff h).mp ht r _ hg p rfl
          omega
        have hrec : ∀ j, (addDimensionKeysFuel n
            (h.set r ⟨id, sm, gs, rs, sev, some p, dk ++ keys, cc, est⟩) p keys)[j]? =
            ((h.set r ⟨id, sm, gs, rs, sev, some p, dk ++ keys, cc, est⟩)[j]?).map
              (fun g => if j ∈ chainFuel n h p then g.withKeys keys else g) := by
          intro j
          rw [ih _ p j ht1, chainFuel_congr _ h hpar n p]
        have hr2 : (addDimensionKeysFuel n
            (h.set r ⟨id, sm, gs, rs, sev, some p, dk ++ keys, cc, est⟩) p keys)[r]? =
            some ⟨id, sm, gs, rs, sev, some p, dk ++ keys, cc, est⟩ := by
          rw [hrec r, hself]; simp [hnot]
        simp only [hr2]
        have hlen : r < (addDimensionKeysFuel n
            (h.set r ⟨id, sm, gs, rs, sev, some p, dk ++ keys, cc, est⟩) p keys).length := by
          rcases Nat.lt_or_ge r (addDimensionKeysFuel n
            (h.set r ⟨id, sm, gs, rs, sev, some p, dk ++ keys, cc, est⟩) p keys).length
            with hl | hge
          · exact hl
          · rw [List.getElem?_eq_none hge] at hr2; cases hr2
        rw [List.getElem?_set]
        by_cases hri : r = i
        · subst hri; simp [hlen, hg, ResultGroup.withKeys]
        · have hir : ¬ i = r := fun e => hri e.symm
          rw [if_neg hri, hrec i, List.getElem?_set, if_neg hri]
          simp [hir]

theorem addDimensionKeys_getElem? (h : Heap) (ht : h.isTree = true) (r : Nat)
    (keys : List String) (i : Nat) :
    (addDimensionKeys h r keys)[i]? =
      (h[i]?).map (fun g => if i ∈ ancestorsOrSelf h r then g.withKeys keys else g) :=
  addDimensionKeysFuel_getElem? keys h.length h r i ht

/-! ## Lemmas: the children of a group -/

theorem GroupTree.call_fields (r : GroupTree) (c : AddCall) :
    (r.call c).Children = r.Children ++ [c.node] ∧
    (r.call c).Groups = r.Groups ++ c.addedGroup.toList ∧
    (r.call c).ControlRuns = r.ControlRuns ++ c.addedRun.toList ∧
    (r.call c).addr = r.addr ∧ (r.call c).Parent = r.Parent := by
  cases r
  cases c <;>
    simp [GroupTree.call, GroupTree.addResultGroup, GroupTree.addControl, GroupTree.Children,
      GroupTree.Groups, GroupTree.ControlRuns, GroupTree.addr, GroupTree.Parent, AddCall.node,
      AddCall.addedGroup, AddCall.addedRun]

theorem GroupTree.calls_fields (cs : List AddCall) :
    ∀ r : GroupTree,
      (r.calls cs).Children = r.Children ++ cs.map AddCall.node ∧
      (r.calls cs).Groups = r.Groups ++ cs.filterMap AddCall.addedGroup ∧
      (r.calls cs).ControlRuns = r.ControlRuns ++ cs.filterMap AddCall.addedRun := by
  induction cs with
  | nil => intro r; simp [GroupTree.calls]
  | cons c cs ih =>
    intro r
    have hc := GroupTree.call_fields r c
    have hrec := ih (r.call c)
    simp only [GroupTree.calls, List.foldl_cons] at hrec ⊢
    rw [hrec.1, hrec.2.1, hrec.2.2, hc.1, hc.2.1, hc.2.2.1]
    cases c <;> simp [AddCall.addedGroup, AddCall.addedRun]

theorem filterMap_node_groupAddr (cs : List AddCall) :
    (cs.map AddCall.node).filterMap ChildRef.groupAddr =
      (cs.filterMap AddCall.addedGroup).map GroupTree.addr := by
  induction cs with
  | nil => rfl
  | cons c cs ih =>
    cases c <;> simp [AddCall.node, AddCall.addedGroup, ChildRef.groupAddr, ih]

theorem filterMap_node_runName (cs : List AddCall) :
    (cs.map AddCall.node).filterMap ChildRef.runName =
      (cs.filterMap AddCall.addedRun).map (fun run => run.Control.name) := by
  induction cs with
  | nil => rfl
  | cons c cs ih =>
    cases c <;> simp [AddCall.node, AddCall.addedRun, ChildRef.runName, ih]

theorem length_filterMap_added (cs : List AddCall) :
    cs.length = (cs.filterMap AddCall.addedGroup).length +
      (cs.filterMap AddCall.addedRun).length := by
  induction cs with
  | nil => rfl
  | cons c cs ih =>
    cases c <;> simp [AddCall.addedGroup, AddCall.addedRun] <;> omega

/-! ## Lemmas: parent links -/

theorem parentsLinkedList_append (p : Nat) (gs : List GroupTree) (c : GroupTree) :
    parentsLinkedList p (gs ++ [c]) =
      (parentsLinkedList p gs && (decide (c.Parent = some p) && c.parentsLinked)) := by
  induction gs with
  | nil => simp [parentsLinkedList]
  | cons g gs ih => simp [parentsLinkedList, ih, Bool.and_assoc]

theorem parentsLinkedList_iff (p : Nat) (gs : List GroupTree) :
    parentsLinkedList p gs = true ↔
      ∀ g ∈ gs, g.Parent = some p ∧ g.parentsLinked = true := by
  induction gs with
  | nil => simp [parentsLinkedList]
  | cons g gs ih => simp [parentsLinkedList, ih, and_assoc]

theorem parentsLinked_eq (g : GroupTree) :
    g.parentsLinked = parentsLinkedList g.addr g.Groups := by
  cases g; rfl

theorem addrs_eq (g : GroupTree) : g.addrs = g.addr :: addrsList g.Groups := by
  cases g; rfl

theorem addrsList_append (gs : List GroupTree) (c : GroupTree) :
    addrsList (gs ++ [c]) = addrsList gs ++ c.addrs := by
  induction gs with
  | nil => simp [addrsList]
  | cons g gs ih => simp [addrsList, ih]

theorem addControl_fields (g : GroupTree) (run : ControlRun) :
    (g.addControl run).addr = g.addr ∧ (g.addControl run).Parent = g.Parent ∧
    (g.addControl run).Groups = g.Groups := by
  cases g; exact ⟨rfl, rfl, rfl⟩

theorem addResultGroup_fields (g c : GroupTree) :
    (g.addResultGroup c).addr = g.addr ∧ (g.addResultGroup c).Parent = g.Parent ∧
    (g.addResultGroup c).Groups = g.Groups ++ [c] := by
  cases g; exact ⟨rfl, rfl, rfl⟩

theorem newGroupLiteral_fields (addr : Nat) (treeItem : ModTreeItem) (parent : Option Nat) :
    (newGroupLiteral addr treeItem parent).addr = addr ∧
    (newGroupLiteral addr treeItem parent).Parent = parent ∧
    (newGroupLiteral addr treeItem parent).Groups = [] := by
  cases treeItem <;> exact ⟨rfl, rfl, rfl⟩

theorem builtBetween_mono (g : GroupTree) (lo hi hi2 : Nat) (h : g.builtBetween lo hi)
    (hle : hi ≤ hi2) : g.builtBetween lo hi2 :=
  ⟨h.1, h.2.1, h.2.2.1, fun a ha => ⟨(h.2.2.2 a ha).1, Nat.lt_of_lt_of_le (h.2.2.2 a ha).2 hle⟩⟩

theorem builtBetween_newGroupLiteral (addr : Nat) (treeItem : ModTreeItem)
    (parent : Option Nat) : (newGroupLiteral addr treeItem parent).builtBetween addr (addr + 1) := by
  have hf := newGroupLiteral_fields addr treeItem parent
  refine ⟨hf.1, ?_, ?_, ?_⟩
  · rw [parentsLinked_eq, hf.2.2]; rfl
  · rw [addrs_eq, hf.2.2, hf.1]; simp [addrsList]
  · intro a ha
    rw [addrs_eq, hf.2.2, hf.1] at ha
    simp [addrsList] at ha
    omega

theorem builtBetween_addControl (g : GroupTree) (run : ControlRun) (lo hi : Nat)
    (h : g.builtBetween lo hi) : (g.addControl run).builtBetween lo hi := by
  have hf := addControl_fields g run
  unfold GroupTree.builtBetween at h ⊢
  rw [parentsLinked_eq, addrs_eq, hf.1, hf.2.2, ← parentsLinked_eq, ← addrs_eq]
  exact h

theorem builtBetween_addResultGroup (g c : GroupTree) (lo mid hi : Nat)
    (hg : g.builtBetween lo mid) (hc : c.builtBetween mid hi) (hp : c.Parent = some g.addr)
    (hmid : mid ≤ hi) : (g.addResultGroup c).builtBetween lo hi := by
  have hf := addResultGroup_fields g c
  have hga := hg.2.2.2
  have hca := hc.2.2.2
  have hgl := hg.2.1
  rw [parentsLinked_eq] at hgl
  have hgn := hg.2.2.1
  rw [addrs_eq] at hgn hga
  refine ⟨hf.1.trans hg.1, ?_, ?_, ?_⟩
  · rw [parentsLinked_eq, hf.1, hf.2.2, parentsLinkedList_append, hgl, hc.2.1]
    simp [hp]
  · rw [addrs_eq, hf.1, hf.2.2, addrsList_append, ← List.cons_append, List.nodup_append]
    refine ⟨hgn, hc.2.2.1, ?_⟩
    intro a ha hb
    have h1 := (hga a ha).2
    have h2 := (hca a hb).1
    omega
  · intro a ha
    rw [addrs_eq, hf.1, hf.2.2, addrsList_append, ← List.cons_append, List.mem_append] at ha
    rcases ha with ha | ha
    · exact ⟨(hga a ha).1, Nat.lt_of_lt_of_le (hga a ha).2 hmid⟩
    · have hlo : lo ≤ mid := by
        have := hga g.addr (List.mem_cons_self _ _)
        omega
      exact ⟨Nat.le_trans hlo (hca a ha).1, (hca a ha).2⟩

theorem AddControl_group (e e2 : ExecutionTree) (control : Control) (group group2 : GroupTree)
    (h : AddControl e control group = Except.ok (e2, group2)) :
    group2 = group.addControl ⟨control⟩ := by
  unfold AddControl at h
  split at h
  · cases h
  · simp only [Except.ok.injEq, Prod.mk.injEq] at h
    exact h.2.symm

mutual
theorem NewResultGroup_builtBetween (treeItem : ModTreeItem) (st : BuildState)
    (parent : Option Nat) (st2 : BuildState) (g : GroupTree)
    (h : NewResultGroup st treeItem parent = Except.ok (st2, g)) :
    g.Parent = parent ∧ g.builtBetween st.nextAddr st2.nextAddr ∧
      st.nextAddr < st2.nextAddr := by
  cases treeItem with
  | control c =>
    simp only [NewResultGroup, Except.ok.injEq, Prod.mk.injEq] at h
    rw [← h.2, ← h.1]
    exact ⟨(newGroupLiteral_fields _ _ _).2.1, builtBetween_newGroupLiteral _ _ _,
      Nat.lt_succ_self _⟩
  | benchmark name title description tags documentation display benchmarkType children =>
    simp only [NewResultGroup] at h
    have hrec := addChildren_builtBetween children _ _ st2 g st.nextAddr
      (builtBetween_newGroupLiteral _ _ _) h
    refine ⟨hrec.1.trans (newGroupLiteral_fields _ _ _).2.1, hrec.2.1, ?_⟩
    have := hrec.2.2
    simp only at this
    omega
  | other name title description tags children =>
    simp only [NewResultGroup] at h
    have hrec := addChildren_builtBetween children _ _ st2 g st.nextAddr
      (builtBetween_newGroupLiteral _ _ _) h
    refine ⟨hrec.1.trans (newGroupLiteral_fields _ _ _).2.1, hrec.2.1, ?_⟩
    have := hrec.2.2
    simp only at this
    omega
theorem addChildren_builtBetween (cs : List ModTreeItem) (st : BuildState)
    (group : GroupTree) (st2 : BuildState) (g : GroupTree) (lo : Nat)
    (hgroup : group.builtBetween lo st.nextAddr)
    (h : addChildren st group cs = Except.ok (st2, g)) :
    g.Parent = group.Parent ∧ g.builtBetween lo st2.nextAddr ∧
      st.nextAddr ≤ st2.nextAddr := by
  cases cs with
  | nil =>
    simp only [addChildren, Except.ok.injEq, Prod.mk.injEq] at h
    rw [← h.2, ← h.1]
    exact ⟨rfl, hgroup, Nat.le_refl _⟩
  | cons c cs =>
    simp only [addChildren] at h
    split at h
    · split at h
      · cases h
      · rename_i st1 benchmarkGroup hnew
        have hb := NewResultGroup_builtBetween c st (some group.addr) st1 benchmarkGroup hnew
        split at h
        · have hadd := builtBetween_addResultGroup group benchmarkGroup lo st.nextAddr
            st1.nextAddr hgroup hb.2.1 hb.1 (Nat.le_of_lt hb.2.2)
          have hrec := addChildren_builtBetween cs st1 _ st2 g lo hadd h
          exact ⟨hrec.1.trans (addResultGroup_fields _ _).2.1, hrec.2.1,
            Nat.le_trans (Nat.le_of_lt hb.2.2) hrec.2.2⟩
        · have hrec := addChildren_builtBetween cs st1 group st2 g lo
            (builtBetween_mono group lo _ _ hgroup (Nat.le_of_lt hb.2.2)) h
          exact ⟨hrec.1, hrec.2.1, Nat.le_trans (Nat.le_of_lt hb.2.2) hrec.2.2⟩
    · split at h
      · split at h
        · cases h
        · rename_i e group1 hadd
          have hg1 := AddControl_group _ _ _ _ _ hadd
          subst hg1
          have hrec := addChildren_builtBetween cs { st with executionTree := e } _ st2 g lo
            (builtBetween_addControl group _ lo _ hgroup) h
          exact ⟨hrec.1.trans (addControl_fields _ _).2.1, hrec.2.1, hrec.2.2⟩
      · exact addChildren_builtBetween cs st group st2 g lo hgroup h
end

theorem NewRootResultGroup_builtBetween (st : BuildState) (rootItem : ModTreeItem)
    (st2 : BuildState) (root : GroupTree)
    (h : NewRootResultGroup st rootItem = Except.ok (st2, root)) :
    root.Parent = none ∧ root.builtBetween st.nextAddr st2.nextAddr := by
  have hroot : (GroupTree.mk RootResultGroupName rootItem.GetTitle "" [] "" "" ""
      BlockTypeBenchmark st.nextAddr none [] [] []).builtBetween st.nextAddr
      (st.nextAddr + 1) := by
    refine ⟨rfl, rfl, ?_, ?_⟩
    · simp [GroupTree.addrs, addrsList]
    · intro a ha
      simp [GroupTree.addrs, addrsList] at ha
      omega
  unfold NewRootResultGroup at h
  simp only at h
  split at h
  · split at h
    · cases h
    · rename_i e root1 hadd
      simp only [Except.ok.injEq, Prod.mk.injEq] at h
      have hg1 := AddControl_group _ _ _ _ _ hadd
      rw [← h.2, ← h.1, hg1]
      exact ⟨rfl, builtBetween_addControl _ _ _ _ hroot⟩
  · split at h
    · cases h
    · rename_i st3 itemGroup hnew
      simp only [Except.ok.injEq, Prod.mk.injEq] at h
      have hb := NewResultGroup_builtBetween _ _ _ _ _ hnew
      rw [← h.2, ← h.1]
      exact ⟨rfl, builtBetween_addResultGroup _ _ _ _ _ hroot hb.2.1 hb.1
        (Nat.le_of_lt hb.2.2)⟩

/-! ## Lemmas: the operations keep the parent links -/

theorem map_parent_set (h : Heap) (r : Nat) (g g2 : ResultGroup) (hg : h[r]? = some g)
    (hp : g2.Parent = g.Parent) :
    (h.set r g2).map ResultGroup.Parent = h.map ResultGroup.Parent := by
  apply List.ext_getElem?
  intro i
  rw [List.getElem?_map, List.getElem?_map]
  exact set_parent_eq h r g g2 hg hp i

theorem updateSummaryFuel_map_parent (s : StatusSummary) :
    ∀ (fuel : Nat) (h : Heap) (r : Nat),
      (updateSummaryFuel fuel h r s).map ResultGroup.Parent = h.map ResultGroup.Parent := by
  intro fuel
  induction fuel with
  | zero => intro h r; rfl
  | succ n ih =>
    intro h r
    unfold updateSummaryFuel
    cases hg : h[r]? with
    | none => rfl
    | some g =>
      have hset := map_parent_set h r g (g.addStatus s) hg rfl
      simp only []
      split
      · exact hset
      · rw [ih, hset]

theorem updateSeverityCountsFuel_map_parent (severity : String) (s : StatusSummary) :
    ∀ (fuel : Nat) (h : Heap) (r : Nat),
      (updateSeverityCountsFuel fuel h r severity s).map ResultGroup.Parent =
        h.map ResultGroup.Parent := by
  intro fuel
  induction fuel with
  | zero => intro h r; rfl
  | succ n ih =>
    intro h r
    unfold updateSeverityCountsFuel
    cases hg : h[r]? with
    | none => rfl
    | some g =>
      have hset := map_parent_set h r g
        { g with Summary := { g.Summary with
            Severity := g.Summary.Severity.set severity (severityVal g severity s) } } hg rfl
      simp only []
      split
      · exact hset
      · rw [ih, hset]

theorem onChildDoneFuel_map_parent :
    ∀ (fuel : Nat) (h : Heap) (r : Nat),
      (onChildDoneFuel fuel h r).1.map ResultGroup.Parent = h.map ResultGroup.Parent := by
  intro fuel
  induction fuel with
  | zero => intro h r; rfl
  | succ n ih =>
    intro h r
    unfold onChildDoneFuel
    cases hg : h[r]? with
    | none => rfl
    | some g =>
      have hset := map_parent_set h r g
        { g with childrenComplete := (g.childrenComplete + 1) % 4294967296 } hg rfl
      simp only []
      split
      · exact hset
      · split
        · exact hset
        · rw [ih, hset]

theorem addDimensionKeysFuel_map_parent (keys : List String) :
    ∀ (fuel : Nat) (h : Heap) (r : Nat),
      (addDimensionKeysFuel fuel h r keys).map ResultGroup.Parent =
        h.map ResultGroup.Parent := by
  intro fuel
  induction fuel with
  | zero => intro h r; rfl
  | succ n ih =>
    intro h r
    unfold addDimensionKeysFuel
    cases hg : h[r]? with
    | none => rfl
    | some g =>
      have hset := map_parent_set h r g
        { g with DimensionKeys := g.DimensionKeys ++ keys } hg rfl
      have hfin : ∀ h2 : Heap, h2.map ResultGroup.Parent = h.map ResultGroup.Parent →
          (match h2[r]? with
            | none => h2
            | some g2 => h2.set r
                { g2 with DimensionKeys := sortStrings (StringSliceDistinct g2.DimensionKeys) }
            ).map ResultGroup.Parent = h.map ResultGroup.Parent := by
        intro h2 h2eq
        cases hg2 : h2[r]? with
        | none => exact h2eq
        | some g2 =>
          exact (map_parent_set h2 r g2
            { g2 with DimensionKeys := sortStrings (StringSliceDistinct g2.DimensionKeys) }
            hg2 rfl).trans h2eq
      simp only []
      apply hfin
      split
      · exact hset
      · rw [ih, hset]

/-! ## Lemmas: dashboard inputs -/

theorem collectInputsLoop_missing_equals :
    ∀ (inputArgs : List String) (res : InputMap),
      (∃ a ∈ inputArgs, stringsIndexEq a.data = none) →
      ∃ msg, collectInputsLoop res inputArgs = Except.error msg := by
  intro inputArgs
  induction inputArgs with
  | nil => intro res h; obtain ⟨a, ha, _⟩ := h; cases ha
  | cons variableArg rest ih =>
    intro res h
    unfold collectInputsLoop
    simp only []
    cases hidx : stringsIndexEq variableArg.data with
    | none => exact ⟨_, rfl⟩
    | some eq =>
      simp only []
      split
      · exact ⟨_, rfl⟩
      · apply ih
        obtain ⟨a, ha, hnone⟩ := h
        rw [List.mem_cons] at ha
        rcases ha with rfl | ha
        · rw [hidx] at hnone; cases hnone
        · exact ⟨a, ha, hnone⟩

/-! ## Lemmas: lookup by name -/

mutual
theorem GetChildGroupByName_eq_find (r : GroupTree) (name : String) :
    r.GetChildGroupByName name =
      r.descendants.find? (fun g => decide (g.GroupId = name)) := by
  cases r with
  | mk _ _ _ _ _ _ _ _ _ _ groups _ _ =>
    simp only [GroupTree.GetChildGroupByName, GroupTree.descendants]
    exact GetChildGroupByNameList_eq_find groups name
theorem GetChildGroupByNameList_eq_find (gs : List GroupTree) (name : String) :
    GetChildGroupByNameList gs name =
      (descendantsList gs).find? (fun g => decide (g.GroupId = name)) := by
  cases gs with
  | nil => rfl
  | cons group rest =>
    simp only [GetChildGroupByNameList, descendantsList, List.cons_append, List.find?_cons,
      List.find?_append]
    by_cases hid : group.GroupId = name
    · simp [hid]
    · rw [GetChildGroupByName_eq_find group name, GetChildGroupByNameList_eq_find rest name]
      simp only [hid, if_false, decide_False]
      cases List.find? (fun g => decide (g.GroupId = name)) group.descendants <;> rfl
end

/-! ## Lemmas: one call of `onChildDone` -/

theorem onChildDoneFuel_head (fuel : Nat) (h : Heap) (p : Nat) (hp : p < h.length) :
    (onChildDoneFuel (fuel + 1) h p).2.head? = some (DoneEvent.called p) := by
  unfold onChildDoneFuel
  have hg : h[p]? = some h[p] := List.getElem?_eq_getElem hp
  rw [hg]
  simp only []
  split
  · rfl
  · split <;> rfl

/-! ## Lemmas: the locks taken on the way up -/

theorem nestedLocks_cons (r : Nat) (chain : List Nat) :
    nestedLocks (r :: chain) =
      LockEvent.lock r :: (nestedLocks chain ++ [LockEvent.unlock r]) := by
  simp [nestedLocks]

theorem chainFuel_set (h : Heap) (r : Nat) (g g2 : ResultGroup) (hg : h[r]? = some g)
    (hp : g2.Parent = g.Parent) (fuel p : Nat) :
    chainFuel fuel (h.set r g2) p = chainFuel fuel h p :=
  chainFuel_congr (h.set r g2) h (fun i => set_parent_eq h r g g2 hg hp i) fuel p

theorem chainFuel_succ (fuel : Nat) (h : Heap) (r : Nat) (g : ResultGroup)
    (hg : h[r]? = some g) :
    chainFuel (fuel + 1) h r =
      r :: (match g.Parent with
            | none => []
            | some p => chainFuel fuel h p) := by
  conv_lhs => unfold chainFuel
  simp only [hg]

theorem updateSummaryLocksFuel_fst (s : StatusSummary) :
    ∀ (fuel : Nat) (h : Heap) (r : Nat),
      (updateSummaryLocksFuel fuel h r s).1 = updateSummaryFuel fuel h r s := by
  intro fuel
  induction fuel with
  | zero => intro h r; rfl
  | succ n ih =>
    intro h r
    unfold updateSummaryLocksFuel updateSummaryFuel
    cases hg : h[r]? with
    | none => rfl
    | some g =>
      simp only []
      cases hp : g.Parent with
      | none => rfl
      | some p => exact ih _ p

theorem updateSummaryLocksFuel_trace (s : StatusSummary) :
    ∀ (fuel : Nat) (h : Heap) (r : Nat),
      (updateSummaryLocksFuel fuel h r s).2 = nestedLocks (chainFuel fuel h r) := by
  intro fuel
  induction fuel with
  | zero => intro h r; rfl
  | succ n ih =>
    intro h r
    cases hg : h[r]? with
    | none => simp [updateSummaryLocksFuel, chainFuel, hg, nestedLocks]
    | some g =>
      rw [chainFuel_succ n h r g hg, nestedLocks_cons]
      conv_lhs => unfold updateSummaryLocksFuel
      simp only [hg]
      cases hp : g.Parent with
      | none => rfl
      | some p =>
        simp only []
        rw [ih]
        refine congrArg
          (fun c => LockEvent.lock r :: (nestedLocks c ++ [LockEvent.unlock r])) ?_
        refine chainFuel_set h r _ _ hg ?_ n p
        rfl

theorem updateSeverityCountsLocksFuel_fst (severity : String) (s : StatusSummary) :
    ∀ (fuel : Nat) (h : Heap) (r : Nat),
      (updateSeverityCountsLocksFuel fuel h r severity s).1 =
        updateSeverityCountsFuel fuel h r severity s := by
  intro fuel
  induction fuel with
  | zero => intro h r; rfl
  | succ n ih =>
    intro h r
    unfold updateSeverityCountsLocksFuel updateSeverityCountsFuel
    cases hg : h[r]? with
    | none => rfl
    | some g =>
      obtain ⟨id, sm, gs, rs, sev, par, dk, cc, est⟩ := g
      cases par with
      | none => rfl
      | some p => exact ih _ p

theorem updateSeverityCountsLocksFuel_trace (severity : String) (s : StatusSummary) :
    ∀ (fuel : Nat) (h : Heap) (r : Nat),
      (updateSeverityCountsLocksFuel fuel h r severity s).2 =
        nestedLocks (chainFuel fuel h r) := by
  intro fuel
  induction fuel with
  | zero => intro h r; rfl
  | succ n ih =>
    intro h r
    cases hg : h[r]? with
    | none => simp [updateSeverityCountsLocksFuel, chainFuel, hg, nestedLocks]
    | some g =>
      rw [chainFuel_succ n h r g hg, nestedLocks_cons]
      conv_lhs => unfold updateSeverityCountsLocksFuel
      simp only [hg]
      obtain ⟨id, sm, gs, rs, sev, par, dk, cc, est⟩ := g
      cases par with
      | none => rfl
      | some p =>
        simp only []
        rw [ih]
        refine congrArg
          (fun c => LockEvent.lock r :: (nestedLocks c ++ [LockEvent.unlock r])) ?_
        refine chainFuel_set h r _ _ hg ?_ n p
        rfl

theorem addDimensionKeysLocksFuel_fst (keys : List String) :
    ∀ (fuel : Nat) (h : Heap) (r : Nat),
      (addDimensionKeysLocksFuel fuel h r keys).1 = addDimensionKeysFuel fuel h r keys := by
  intro fuel
  induction fuel with
  | zero => intro h r; rfl
  | succ n ih =>
    intro h r
    unfold addDimensionKeysLocksFuel addDimensionKeysFuel
    cases hg : h[r]? with
    | none => rfl
    | some g =>
      obtain ⟨id, sm, gs, rs, sev, par, dk, cc, est⟩ := g
      cases par with
      | none => rfl
      | some p =>
        simp only []
        rw [ih]

theorem addDimensionKeysLocksFuel_trace (keys : List String) :
    ∀ (fuel : Nat) (h : Heap) (r : Nat),
      (addDimensionKeysLocksFuel fuel h r keys).2 = nestedLocks (chainFuel fuel h r) := by
  intro fuel
  induction fuel with
  | zero => intro h r; rfl
  | succ n ih =>
    intro h r
    cases hg : h[r]? with
    | none => simp [addDimensionKeysLocksFuel, chainFuel, hg, nestedLocks]
    | some g =>
      rw [chainFuel_succ n h r g hg, nestedLocks_cons]
      conv_lhs => unfold addDimensionKeysLocksFuel
      simp only [hg]
      obtain ⟨id, sm, gs, rs, sev, par, dk, cc, est⟩ := g
      cases par with
      | none => rfl
      | some p =>
        simp only []
        rw [ih]
        refine congrArg
          (fun c => LockEvent.lock r :: (nestedLocks c ++ [LockEvent.unlock r])) ?_
        refine chainFuel_set h r _ _ hg ?_ n p
        rfl

theorem chainFuel_nodup (h : Heap) (ht : h.isTree = true) :
    ∀ (fuel r : Nat), (chainFuel fuel h r).Nodup := by
  intro fuel
  induction fuel with
  | zero => intro r; simp [chainFuel]
  | succ n ih =>
    intro r
    cases hg : h[r]? with
    | none => simp [chainFuel, hg]
    | some g =>
      rw [chainFuel_succ n h r g hg]
      cases hp : g.Parent with
      | none => simp
      | some p =>
        simp only [List.nodup_cons]
        refine ⟨?_, ih p⟩
        intro hmem
        have h1 := chainFuel_le h ht n p r hmem
        have h2 := (Heap.isTree_iff h).mp ht r g hg p hp
        omega

theorem foldl_holdStep_lock (chain held : List Nat) :
    (chain.map LockEvent.lock).foldl holdStep held = chain.reverse ++ held := by
  induction chain generalizing held with
  | nil => rfl
  | cons x xs ih =>
    simp only [List.map_cons, List.foldl_cons, holdStep, ih, List.reverse_cons,
      List.append_assoc, List.singleton_append]

theorem foldl_holdStep_unlock (l held : List Nat) :
    (l.map LockEvent.unlock).foldl holdStep (l ++ held) = held := by
  induction l with
  | nil => rfl
  | cons x xs ih =>
    simp only [List.map_cons, List.foldl_cons, holdStep, List.cons_append,
      List.erase_cons_head, ih]

theorem heldAfter_nestedLocks (chain : List Nat) : heldAfter (nestedLocks chain) = [] := by
  unfold heldAfter nestedLocks
  rw [List.foldl_append, foldl_holdStep_lock]
  exact foldl_holdStep_unlock chain.reverse []

theorem heldAfter_take_nestedLocks (chain : List Nat) (k : Nat) (hk : k ≤ chain.length) :
    heldAfter ((nestedLocks chain).take k) = (chain.take k).reverse := by
  unfold heldAfter nestedLocks
  rw [List.take_append_of_le_length (by simpa using hk), ← List.map_take,
    foldl_holdStep_lock, List.append_nil]

theorem count_lock_nestedLocks (chain : List Nat) (g : Nat) :
    (nestedLocks chain).count (LockEvent.lock g) = chain.count g := by
  unfold nestedLocks
  rw [List.count_append]
  have h2 : ∀ l : List Nat, (l.map LockEvent.unlock).count (LockEvent.lock g) = 0 := by
    intro l
    apply List.count_eq_zero.mpr
    intro hmem
    rcases List.mem_map.mp hmem with ⟨x, _, hx⟩
    cases hx
  have h1 : ∀ l : List Nat, (l.map LockEvent.lock).count (LockEvent.lock g) = l.count g := by
    intro l
    induction l with
    | nil => rfl
    | cons x xs ih =>
      simp only [List.map_cons, List.count_cons, ih]
      by_cases hx : x = g
      · simp [hx]
      · have hne : ¬ (LockEvent.lock x = LockEvent.lock g) := by
          intro hc
          exact hx (LockEvent.lock.inj hc)
        simp [hx, hne]
  rw [h1, h2, Nat.add_zero]

/-! ## Lemmas: counting control runs -/

theorem ControlRunCountList_eq_sum (gs : List GroupTree) :
    ControlRunCountList gs = (gs.map GroupTree.ControlRunCount).sum := by
  induction gs with
  | nil => rfl
  | cons g gs ih => simp [ControlRunCountList, ih]

theorem ControlRunCount_unfold (r : GroupTree) :
    r.ControlRunCount = r.ControlRuns.length + (r.Groups.map GroupTree.ControlRunCount).sum := by
  cases r with
  | mk _ _ _ _ _ _ _ _ _ _ groups runs _ =>
    simp only [GroupTree.ControlRunCount, GroupTree.ControlRuns, GroupTree.Groups,
      ControlRunCountList_eq_sum]

mutual
theorem ControlRunCount_eq_allRuns (r : GroupTree) :
    r.ControlRunCount = r.allRuns.length := by
  cases r with
  | mk _ _ _ _ _ _ _ _ _ _ groups runs _ =>
    simp only [GroupTree.ControlRunCount, GroupTree.allRuns, List.length_append]
    rw [ControlRunCountList_eq_allRuns groups]
theorem ControlRunCountList_eq_allRuns (gs : List GroupTree) :
    ControlRunCountList gs = (allRunsList gs).length := by
  cases gs with
  | nil => rfl
  | cons g gs =>
    simp only [ControlRunCountList, allRunsList, List.length_append]
    rw [ControlRunCount_eq_allRuns g, ControlRunCountList_eq_allRuns gs]
end

mutual
theorem ControlRunCount_eq_sum_descendants (r : GroupTree) :
    r.ControlRunCount =
      ((r :: r.descendants).map fun g => g.ControlRuns.length).sum := by
  cases r with
  | mk _ _ _ _ _ _ _ _ _ _ groups runs _ =>
    simp only [GroupTree.ControlRunCount, GroupTree.descendants, List.map_cons, List.sum_cons]
    rw [ControlRunCountList_eq_sum_descendants groups]
    rfl
theorem ControlRunCountList_eq_sum_descendants (gs : List GroupTree) :
    ControlRunCountList gs =
      ((descendantsList gs).map fun g => g.ControlRuns.length).sum := by
  cases gs with
  | nil => rfl
  | cons g gs =>
    simp only [ControlRunCountList, descendantsList, List.map_append, List.sum_append]
    rw [ControlRunCount_eq_sum_descendants g, ControlRunCountList_eq_sum_descendants gs]
end

theorem map_proj_set {β : Type} (f : ResultGroup → β) (h : Heap) (r : Nat)
    (g g2 : ResultGroup) (hg : h[r]? = some g) (hp : f g2 = f g) :
    (h.set r g2).map f = h.map f := by
  apply List.ext_getElem?
  intro i
  rw [List.getElem?_map, List.getElem?_map, List.getElem?_set]
  by_cases hri : r = i
  · subst hri
    have hlt : r < h.length := by
      rcases Nat.lt_or_ge r h.length with hlt | hge
      · exact hlt
      · rw [List.getElem?_eq_none hge] at hg; cases hg
    simp [hlt, hg, hp]
  · simp [hri]

theorem updateSummaryFuel_map_members (s : StatusSummary) :
    ∀ (fuel : Nat) (h : Heap) (r : Nat),
      (updateSummaryFuel fuel h r s).map ResultGroup.members =
        h.map ResultGroup.members := by
  intro fuel
  induction fuel with
  | zero => intro h r; rfl
  | succ n ih =>
    intro h r
    unfold updateSummaryFuel
    cases hg : h[r]? with
    | none => rfl
    | some g =>
      have hset := map_proj_set ResultGroup.members h r g (g.addStatus s) hg rfl
      simp only []
      split
      · exact hset
      · rw [ih, hset]

theorem updateSeverityCountsFuel_map_members (severity : String) (s : StatusSummary) :
    ∀ (fuel : Nat) (h : Heap) (r : Nat),
      (updateSeverityCountsFuel fuel h r severity s).map ResultGroup.members =
        h.map ResultGroup.members := by
  intro fuel
  induction fuel with
  | zero => intro h r; rfl
  | succ n ih =>
    intro h r
    unfold updateSeverityCountsFuel
    cases hg : h[r]? with
    | none => rfl
    | some g =>
      have hset := map_proj_set ResultGroup.members h r g
        { g with Summary := { g.Summary with
            Severity := g.Summary.Severity.set severity (severityVal g severity s) } } hg rfl
      simp only []
      split
      · exact hset
      · rw [ih, hset]

theorem onChildDoneFuel_map_members :
    ∀ (fuel : Nat) (h : Heap) (r : Nat),
      (onChildDoneFuel fuel h r).1.map ResultGroup.members = h.map ResultGroup.members := by
  intro fuel
  induction fuel with
  | zero => intro h r; rfl
  | succ n ih =>
    intro h r
    unfold onChildDoneFuel
    cases hg : h[r]? with
    | none => rfl
    | some g =>
      have hset := map_proj_set ResultGroup.members h r g
        { g with childrenComplete := (g.childrenComplete + 1) % 4294967296 } hg rfl
      simp only []
      split
      · exact hset
      · split
        · exact hset
        · rw [ih, hset]

theorem addDimensionKeysFuel_map_members (keys : List String) :
    ∀ (fuel : Nat) (h : Heap) (r : Nat),
      (addDimensionKeysFuel fuel h r keys).map ResultGroup.members =
        h.map ResultGroup.members := by
  intro fuel
  induction fuel with
  | zero => intro h r; rfl
  | succ n ih =>
    intro h r
    unfold addDimensionKeysFuel
    cases hg : h[r]? with
    | none => rfl
    | some g =>
      have hset := map_proj_set ResultGroup.members h r g
        { g with DimensionKeys := g.DimensionKeys ++ keys } hg rfl
      have hfin : ∀ h2 : Heap, h2.map ResultGroup.members = h.map ResultGroup.members →
          (match h2[r]? with
            | none => h2
            | some g2 => h2.set r
                { g2 with DimensionKeys := sortStrings (StringSliceDistinct g2.DimensionKeys) }
            ).map ResultGroup.members = h.map ResultGroup.members := by
        intro h2 h2eq
        cases hg2 : h2[r]? with
        | none => exact h2eq
        | some g2 =>
          exact (map_proj_set ResultGroup.members h2 r g2
            { g2 with DimensionKeys := sortStrings (StringSliceDistinct g2.DimensionKeys) }
            hg2 rfl).trans h2eq
      simp only []
      apply hfin
      split
      · exact hset
      · rw [ih, hset]

theorem heapControlRunCountFuel_congr (h h2 : Heap)
    (hm : h2.map ResultGroup.members = h.map ResultGroup.members) :
    ∀ (fuel r : Nat), heapControlRunCountFuel fuel h2 r = heapControlRunCountFuel fuel h r := by
  intro fuel
  induction fuel with
  | zero => intro r; rfl
  | succ n ih =>
    intro r
    have hr : (h2[r]?).map ResultGroup.members = (h[r]?).map ResultGroup.members := by
      rw [← List.getElem?_map, ← List.getElem?_map, hm]
    unfold heapControlRunCountFuel
    cases hg : h[r]? with
    | none =>
      cases hg2 : h2[r]? with
      | none => rfl
      | some g2 => simp [hg, hg2] at hr
    | some g =>
      cases hg2 : h2[r]? with
      | none => simp [hg, hg2] at hr
      | some g2 =>
        simp only [hg, hg2, Option.map_some', Option.some.injEq, ResultGroup.members,
          Prod.mk.injEq] at hr
        simp only [hr.1, hr.2, ih]

theorem heapControlRunCount_congr (h h2 : Heap)
    (hm : h2.map ResultGroup.members = h.map ResultGroup.members) (r : Nat) :
    heapControlRunCount h2 r = heapControlRunCount h r := by
  have hlen : h2.length = h.length := by
    have := congrArg List.length hm
    simpa using this
  unfold heapControlRunCount
  rw [hlen]
  exact heapControlRunCountFuel_congr h h2 hm _ r

theorem Heap.groupsAfter_iff (h : Heap) :
    h.groupsAfter = true ↔
      ∀ (i : Nat) (g : ResultGroup), h[i]? = some g → ∀ c ∈ g.Groups, i < c := by
  unfold Heap.groupsAfter
  rw [List.all_eq_true]
  constructor
  · intro H i g hg c hc
    have hi : i < h.length := by
      rcases Nat.lt_or_ge i h.length with hlt | hge
      · exact hlt
      · rw [List.getElem?_eq_none hge] at hg; cases hg
    have := H i (List.mem_range.mpr hi)
    simp only [hg, List.all_eq_true, decide_eq_true_eq] at this
    exact this c hc
  · intro H i _
    cases hg : h[i]? with
    | none => rfl
    | some g =>
      simp only [List.all_eq_true, decide_eq_true_eq]
      exact H i g hg

theorem heapControlRunCountFuel_stable (h : Heap) (hd : h.groupsAfter = true) :
    ∀ (fuel1 fuel2 r : Nat), h.length ≤ fuel1 + r → h.length ≤ fuel2 + r →
      heapControlRunCountFuel fuel1 h r = heapControlRunCountFuel fuel2 h r := by
  have hnone : ∀ (fuel r : Nat), h.length ≤ r → heapControlRunCountFuel fuel h r = 0 := by
    intro fuel r hr
    cases fuel with
    | zero => rfl
    | succ n =>
      unfold heapControlRunCountFuel
      rw [List.getElem?_eq_none hr]
  intro fuel1
  induction fuel1 with
  | zero =>
    intro fuel2 r h1 _
    rw [hnone 0 r (by omega), hnone fuel2 r (by omega)]
  | succ n ih =>
    intro fuel2 r h1 h2
    cases fuel2 with
    | zero => rw [hnone (n + 1) r (by omega), hnone 0 r (by omega)]
    | succ m =>
      unfold heapControlRunCountFuel
      cases hg : h[r]? with
      | none => rfl
      | some g =>
        simp only []
        apply List.foldl_ext
        intro count c hc
        have hlt := (Heap.groupsAfter_iff h).mp hd r g hg c hc
        rw [ih m c (by omega) (by omega)]

theorem foldl_add_eq_sum (f : Nat → Nat) (l : List Nat) (a : Nat) :
    l.foldl (fun count c => count + f c) a = a + (l.map f).sum := by
  induction l generalizing a with
  | nil => simp
  | cons x xs ih => simp [ih, Nat.add_assoc]

theorem heapControlRunCount_unfold (h : Heap) (hd : h.groupsAfter = true) (r : Nat)
    (g : ResultGroup) (hg : h[r]? = some g) :
    heapControlRunCount h r =
      g.ControlRuns.length + (g.Groups.map (heapControlRunCount h)).sum := by
  have hr : r < h.length := by
    rcases Nat.lt_or_ge r h.length with hlt | hge
    · exact hlt
    · rw [List.getElem?_eq_none hge] at hg; cases hg
  obtain ⟨n, hn⟩ : ∃ n, h.length = n + 1 := ⟨h.length - 1, by omega⟩
  have h1 : heapControlRunCount h r =
      g.Groups.foldl (fun count c => count + heapControlRunCountFuel n h c)
        g.ControlRuns.length := by
    unfold heapControlRunCount
    rw [hn]
    conv_lhs => unfold heapControlRunCountFuel
    simp only [hg]
  rw [h1]
  have h2 : g.Groups.foldl (fun count c => count + heapControlRunCountFuel n h c)
        g.ControlRuns.length =
      g.Groups.foldl (fun count c => count + heapControlRunCount h c)
        g.ControlRuns.length := by
    apply List.foldl_ext
    intro count c hc
    have hlt := (Heap.groupsAfter_iff h).mp hd r g hg c hc
    unfold heapControlRunCount
    rw [heapControlRunCountFuel_stable h hd n h.length c (by omega) (by omega)]
  rw [h2, foldl_add_eq_sum]

/-! ## Lemmas: the tag keys of a subtree -/

theorem mem_runTagKeys (runs : List ControlRun) (k : String) :
    k ∈ runTagKeys runs ↔ ∃ run ∈ runs, k ∈ run.Control.tags.map Prod.fst := by
  induction runs with
  | nil => simp [runTagKeys]
  | cons run rest ih =>
    simp only [runTagKeys, List.mem_append, ih, List.mem_cons, exists_eq_or_imp]

mutual
theorem mem_AllTagKeys (r : GroupTree) (k : String) :
    k ∈ r.AllTagKeys ↔ ∃ g ∈ r :: r.descendants, g.hasTagKey k := by
  cases r with
  | mk id ti de tags doc di gt nt addr par groups runs ch =>
    have hspec := (sortStrings_distinct_spec
      (tags.map Prod.fst ++ AllTagKeysList groups ++ runTagKeys runs)).2.2 k
    have hl := mem_AllTagKeysList groups k
    simp only [GroupTree.AllTagKeys, hspec, List.mem_append, hl, mem_runTagKeys]
    constructor
    · rintro ((hk | ⟨g, hg, hk⟩) | hk)
      · exact ⟨_, List.mem_cons_self _ _, Or.inl hk⟩
      · refine ⟨g, List.mem_cons_of_mem _ ?_, hk⟩
        simp only [GroupTree.descendants]
        exact hg
      · exact ⟨_, List.mem_cons_self _ _, Or.inr hk⟩
    · rintro ⟨g, hg, hk⟩
      rcases List.mem_cons.mp hg with rfl | hg
      · rcases hk with hk | hk
        · exact Or.inl (Or.inl hk)
        · exact Or.inr hk
      · simp only [GroupTree.descendants] at hg
        exact Or.inl (Or.inr ⟨g, hg, hk⟩)
theorem mem_AllTagKeysList (gs : List GroupTree) (k : String) :
    k ∈ AllTagKeysList gs ↔ ∃ g ∈ descendantsList gs, g.hasTagKey k := by
  cases gs with
  | nil => simp [AllTagKeysList, descendantsList]
  | cons child rest =>
    have h1 := mem_AllTagKeys child k
    have h2 := mem_AllTagKeysList rest k
    have hd : descendantsList (child :: rest) =
        (child :: child.descendants) ++ descendantsList rest := by
      simp only [descendantsList]
    rw [hd]
    simp only [AllTagKeysList, List.mem_append, h1, h2]
    constructor
    · rintro (⟨g, hg, hk⟩ | ⟨g, hg, hk⟩)
      · exact ⟨g, Or.inl hg, hk⟩
      · exact ⟨g, Or.inr hg, hk⟩
    · rintro ⟨g, hg | hg, hk⟩
      · exact Or.inl ⟨g, hg, hk⟩
      · exact Or.inr ⟨g, hg, hk⟩
end

theorem AllTagKeys_sorted (r : GroupTree) :
    List.Sorted (fun a b : String => a < b) r.AllTagKeys ∧ r.AllTagKeys.Nodup := by
  cases r with
  | mk id ti de tags doc di gt nt addr par groups runs ch =>
    have hspec := sortStrings_distinct_spec
      (tags.map Prod.fst ++ AllTagKeysList groups ++ runTagKeys runs)
    exact ⟨hspec.1, hspec.2.1⟩

/-! ## Lemmas: the counter stays in the range of a `uint32` -/

theorem onChildDoneFuel_counter_lt :
    ∀ (fuel : Nat) (h : Heap) (r : Nat),
      (∀ g ∈ h, g.childrenComplete < 4294967296) →
      ∀ g ∈ (onChildDoneFuel fuel h r).1, g.childrenComplete < 4294967296 := by
  intro fuel
  induction fuel with
  | zero => intro h r hh; exact hh
  | succ n ih =>
    intro h r hh
    unfold onChildDoneFuel
    cases hg : h[r]? with
    | none => exact hh
    | some g =>
      have hset : ∀ g2 ∈ h.set r
          { g with childrenComplete := (g.childrenComplete + 1) % 4294967296 },
          g2.childrenComplete < 4294967296 := by
        intro g2 hg2
        rcases List.mem_or_eq_of_mem_set hg2 with hmem | heq
        · exact hh g2 hmem
        · rw [heq]
          exact Nat.mod_lt _ (by decide)
      simp only []
      split
      · exact hset
      · split
        · exact hset
        · exact ih _ _ hset

theorem leavesDone_counter_lt (order : List Nat) :
    ∀ st : Heap × List DoneEvent, (∀ g ∈ st.1, g.childrenComplete < 4294967296) →
      ∀ g ∈ (order.foldl leafDone st).1, g.childrenComplete < 4294967296 := by
  induction order with
  | nil => intro st hst; exact hst
  | cons r rest ih =>
    intro st hst
    rw [List.foldl_cons]
    apply ih
    exact onChildDoneFuel_counter_lt _ st.1 r hst

theorem heapWithRuns_childCount (n : Nat) : childCount (heapWithRuns n) 1 = n := by
  simp [childCount, heapWithRuns, cellWith, ResultGroup.fresh]

theorem heapWithRuns_children (n : Nat) (hn : 0 < n) :
    ∀ g ∈ heapWithRuns n, 0 < g.ControlRuns.length + g.Groups.length := by
  intro g hg
  simp only [heapWithRuns, List.mem_cons, List.mem_singleton, List.not_mem_nil, or_false] at hg
  rcases hg with rfl | rfl
  · simp [cellWith, ResultGroup.fresh]
  · simpa [cellWith, ResultGroup.fresh] using hn

theorem heapWithRuns_zero (n : Nat) : ∀ g ∈ heapWithRuns n, g.childrenComplete = 0 := by
  intro g hg
  simp only [heapWithRuns, List.mem_cons, List.mem_singleton, List.not_mem_nil, or_false] at hg
  rcases hg with rfl | rfl <;> rfl

theorem heapWithRuns_first_report (n : Nat) (hn : n % 4294967296 = 0) :
    (leavesDone (heapWithRuns n) [1]).2 =
      [DoneEvent.called 1, DoneEvent.allDone 1, DoneEvent.called 0, DoneEvent.allDone 0] := by
  simp [leavesDone, leafDone, onChildDone, onChildDoneFuel, heapWithRuns, cellWith,
    ResultGroup.fresh, hn]

theorem heapWithRuns_order (n i : Nat) :
    (List.replicate n 1).count i = controlRunCountAt (heapWithRuns n) i := by
  rw [List.count_replicate]
  match i with
  | 0 => simp [controlRunCountAt, heapWithRuns, cellWith, ResultGroup.fresh]
  | 1 => simp [controlRunCountAt, heapWithRuns, cellWith, ResultGroup.fresh]
  | j + 2 => simp [controlRunCountAt, heapWithRuns]

theorem heapWithRuns_isTree (n : Nat) : (heapWithRuns n).isTree = true := by
  rw [Heap.isTree_iff]
  intro i g hg p hp
  match i with
  | 0 =>
    simp only [heapWithRuns, List.getElem?_cons_zero, Option.some.injEq] at hg
    rw [← hg] at hp
    cases hp
  | 1 =>
    simp only [heapWithRuns, List.getElem?_cons_succ, List.getElem?_cons_zero,
      Option.some.injEq] at hg
    rw [← hg] at hp
    cases hp
    decide
  | j + 2 => simp [heapWithRuns] at hg

theorem leavesDone_childrenCompleteAt_lt (h : Heap) (order : List Nat) (i : Nat)
    (hh : ∀ g ∈ h, g.childrenComplete < 4294967296) :
    childrenCompleteAt (leavesDone h order).1 i < 4294967296 := by
  have hlt := leavesDone_counter_lt order (h, []) hh
  unfold childrenCompleteAt
  cases hg : (leavesDone h order).1[i]? with
  | none => decide
  | some g => exact hlt g (List.getElem?_mem hg)

theorem heapWithRuns_never_complete (n : Nat) (order : List Nat) (hn : 4294967296 ≤ n) :
    childrenCompleteAt (leavesDone (heapWithRuns n) order).1 1 ≠
      childCount (heapWithRuns n) 1 := by
  rw [heapWithRuns_childCount]
  have hlt := leavesDone_childrenCompleteAt_lt (heapWithRuns n) order 1
    (by intro g hg; rw [heapWithRuns_zero n g hg]; decide)
  omega

/-! ## Lemmas: `execute` keeps the parent links -/

theorem reportToParent_map_parent (h : Heap) (r : Nat) (rep : LeafReport) :
    (reportToParent h r rep).map ResultGroup.Parent = h.map ResultGroup.Parent := by
  unfold reportToParent onChildDone updateSeverityCounts updateSummary
  rw [onChildDoneFuel_map_parent, updateSeverityCountsFuel_map_parent,
    updateSummaryFuel_map_parent]

theorem executeRunsHeap_map_parent (env : ExecEnv) (renv : ReportEnv) (r : Nat) :
    ∀ (runs : List String) (k : Nat) (h : Heap),
      (executeRunsHeap env renv r k h runs).1.map ResultGroup.Parent =
        h.map ResultGroup.Parent := by
  intro runs
  induction runs with
  | nil => intro k h; rfl
  | cons controlRun rest ih =>
    intro k h
    unfold executeRunsHeap
    simp only []
    rw [ih]
    split
    · exact reportToParent_map_parent h r _
    · split
      · exact reportToParent_map_parent h r _
      · split
        · exact reportToParent_map_parent h r _
        · rfl

theorem foldl_map_parent (f : Nat → Heap → Nat → Heap × Nat)
    (hf : ∀ (k : Nat) (h : Heap) (c : Nat),
      (f k h c).1.map ResultGroup.Parent = h.map ResultGroup.Parent) :
    ∀ (groups : List Nat) (st : Heap × Nat),
      (groups.foldl (fun st child => f st.2 st.1 child) st).1.map ResultGroup.Parent =
        st.1.map ResultGroup.Parent := by
  intro groups
  induction groups with
  | nil => intro st; rfl
  | cons c rest ih =>
    intro st
    rw [List.foldl_cons, ih, hf]

theorem executeHeapFuel_map_parent (env : ExecEnv) (renv : ReportEnv) :
    ∀ (fuel k : Nat) (h : Heap) (r : Nat),
      (executeHeapFuel env renv fuel k h r).1.map ResultGroup.Parent =
        h.map ResultGroup.Parent := by
  intro fuel
  induction fuel with
  | zero => intro k h r; rfl
  | succ n ih =>
    intro k h r
    unfold executeHeapFuel
    cases hg : h[r]? with
    | none => rfl
    | some g =>
      have hset := map_parent_set h r g { g with executionStartTime := renv.now r } hg rfl
      simp only []
      rw [foldl_map_parent (fun k h c => executeHeapFuel env renv n k h c) (fun k h c => ih k h c),
        executeRunsHeap_map_parent, hset]

/-! ## The claims -/

/-- C1: in a tree of result groups whose summaries all start at zero, once every
leaf has reported its summary exactly once through `updateSummary`, in any
order, every group's `Summary.Status` is the pointwise sum of the summaries of
the leaves in its subtree (the sum of Go's `int`, which is the sum over the
integers while the counters fit); for the single root of the tree that is the
sum over all leaves. -/
theorem updateSummary_aggregates_leaves (h : Heap) (ht : h.isTree = true)
    (hzero : ∀ g ∈ h, g.Summary.Status = StatusSummary.zero)
    (leaves order : List Leaf) (hperm : order.Perm leaves) (i : Nat) (hi : i < h.length) :
    ∃ g, (order.foldl reportSummary h)[i]? = some g ∧
      g.Summary.Status = StatusSummary.sum ((leavesBelow h i leaves).map Leaf.summary) ∧
      (StatusSummary.fits ((leavesBelow h i leaves).map Leaf.summary) →
        g.Summary.Status =
          StatusSummary.exactSum ((leavesBelow h i leaves).map Leaf.summary)) ∧
      (i = 0 → (∀ (j : Nat) (gj : ResultGroup), h[j]? = some gj → j ≠ 0 → gj.Parent ≠ none) →
        (∀ l ∈ leaves, l.group < h.length) →
        g.Summary.Status = StatusSummary.sum (leaves.map Leaf.summary)) := by
  have hget := foldl_reportSummary_getElem? order h ht i
  rw [List.getElem?_eq_getElem hi] at hget
  have hz : (h[i]).Summary.Status = StatusSummary.zero := hzero _ (List.getElem_mem hi)
  have hsum : (h[i].withStatus (((leavesBelow h i order).map Leaf.summary).foldl
      StatusSummary.add h[i].Summary.Status)).Summary.Status =
      StatusSummary.sum ((leavesBelow h i leaves).map Leaf.summary) := by
    simp only [ResultGroup.withStatus, hz, StatusSummary.sum]
    exact StatusSummary.foldl_add_perm (leavesBelow_perm h i hperm) _
  refine ⟨_, hget, hsum, ?_, ?_⟩
  · intro hfits
    rw [hsum]
    exact StatusSummary.sum_eq_exactSum _ hfits
  intro h0 hroot hvalid
  rw [hsum]
  subst h0
  have hall : leavesBelow h 0 leaves = leaves := by
    unfold leavesBelow
    rw [List.filter_eq_self]
    intro l hl
    simpa using root_mem_ancestorsOrSelf h ht hroot l.group (hvalid l hl)
  rw [hall]

theorem updateSummary_aggregates_leaves_witness :
    ∃ g, (sampleOrder.foldl reportSummary sampleHeap)[0]? = some g ∧
      g.Summary.Status = ⟨1, 1, 0, 0, 1⟩ :=
  match updateSummary_aggregates_leaves sampleHeap (by decide) (by decide) sampleLeaves
      sampleOrder (by decide) 0 (by decide) with
  | ⟨g, hg, hsum, _, _⟩ => ⟨g, hg, hsum.trans (by decide)⟩

/-- C2 (the code departs from the claim): on a group whose severity maps start
empty, `updateSeverityCounts("high", s)` called twice with `s = {Alarm: 1}`
leaves `Summary.Severity["high"]` at `{Alarm: 1}`, not at the sum `{Alarm: 2}`:
the entry is read from `r.Severity`, which is never written, and stored in
`r.Summary.Severity`. -/
theorem updateSeverityCounts_overwrites :
    summarySeverityAt
      (updateSeverityCounts (updateSeverityCounts sampleHeap 1 "high" ⟨1, 0, 0, 0, 0⟩)
        1 "high" ⟨1, 0, 0, 0, 0⟩) 1 "high" = some ⟨1, 0, 0, 0, 0⟩ ∧
    summarySeverityAt
      (updateSeverityCounts (updateSeverityCounts sampleHeap 1 "high" ⟨1, 0, 0, 0, 0⟩)
        1 "high" ⟨1, 0, 0, 0, 0⟩) 1 "high" ≠
      some (StatusSummary.add ⟨1, 0, 0, 0, 0⟩ ⟨1, 0, 0, 0, 0⟩) ∧
    summarySeverityAt
      (updateSeverityCounts (updateSeverityCounts sampleHeap 1 "high" ⟨1, 0, 0, 0, 0⟩)
        1 "high" ⟨1, 0, 0, 0, 0⟩) 0 "high" = some ⟨1, 0, 0, 0, 0⟩ := by
  decide

/-- C3: in a tree, `g1.updateSummary(s1)` followed by `g2.updateSummary(s2)`
leaves the same heap, hence the same `Summary.Status` in every group, as the two
calls made in the other order. -/
theorem updateSummary_order_independent (h : Heap) (ht : h.isTree = true)
    (g1 g2 : Nat) (s1 s2 : StatusSummary) :
    updateSummary (updateSummary h g1 s1) g2 s2 = updateSummary (updateSummary h g2 s2) g1 s1 ∧
    ∀ i : Nat,
      ((updateSummary (updateSummary h g1 s1) g2 s2)[i]?).map (fun g => g.Summary.Status) =
      ((updateSummary (updateSummary h g2 s2) g1 s1)[i]?).map (fun g => g.Summary.Status) := by
  have heq : updateSummary (updateSummary h g1 s1) g2 s2 =
      updateSummary (updateSummary h g2 s2) g1 s1 := by
    apply List.ext_getElem?
    intro i
    rw [updateSummary_getElem? _ (updateSummary_isTree h ht g1 s1),
      updateSummary_getElem? _ (updateSummary_isTree h ht g2 s2),
      updateSummary_getElem? h ht, updateSummary_getElem? h ht,
      updateSummary_ancestorsOrSelf h ht, updateSummary_ancestorsOrSelf h ht]
    cases h[i]? with
    | none => rfl
    | some g =>
      by_cases hm1 : i ∈ ancestorsOrSelf h g1 <;> by_cases hm2 : i ∈ ancestorsOrSelf h g2 <;>
        simp [hm1, hm2, ResultGroup.addStatus, StatusSummary.add_right_comm]
  exact ⟨heq, fun i => by rw [heq]⟩

theorem updateSummary_order_independent_witness :
    updateSummary (updateSummary sampleHeap 1 ⟨1, 0, 0, 0, 0⟩) 2 ⟨0, 0, 0, 0, 1⟩ =
      updateSummary (updateSummary sampleHeap 2 ⟨0, 0, 0, 0, 1⟩) 1 ⟨1, 0, 0, 0, 0⟩ :=
  (updateSummary_order_independent sampleHeap (by decide) 1 2 _ _).1

/-- C4, counterexample: a group with 2^32 control runs, below the root, in a
tree where every group has a child and all counters are zero.  Its total child
count is converted to the `uint32` 0, so the first leaf that reports already
runs the all-children-done block of the group and the group calls
`onChildDone` on its parent, 2^32 - 1 children before the last; and after every
leaf has called once the counter cannot equal the total child count 2^32. -/
theorem onChildDone_counter_wraps :
    wrapHeap.isTree = true ∧ wrapHeap.linked = true ∧
    (∀ g ∈ wrapHeap, 0 < g.ControlRuns.length + g.Groups.length) ∧
    (∀ g ∈ wrapHeap, g.childrenComplete = 0) ∧
    childCount wrapHeap 1 = 4294967296 ∧
    (leavesDone wrapHeap [1]).2 =
      [DoneEvent.called 1, DoneEvent.allDone 1, DoneEvent.called 0, DoneEvent.allDone 0] ∧
    (∀ i : Nat, (List.replicate 4294967296 1).count i = controlRunCountAt wrapHeap i) ∧
    childrenCompleteAt (leavesDone wrapHeap (List.replicate 4294967296 1)).1 1 ≠
      childCount wrapHeap 1 :=
  ⟨heapWithRuns_isTree 4294967296, by decide,
    heapWithRuns_children 4294967296 (by decide), heapWithRuns_zero 4294967296,
    heapWithRuns_childCount 4294967296,
    heapWithRuns_first_report 4294967296 (by decide), heapWithRuns_order 4294967296,
    heapWithRuns_never_complete 4294967296 _ (by decide)⟩

/-- C4, amended: in a tree in which every group has at least one child and fewer
than 2^32 children (the range of the `uint32` counter) and all
`childrenComplete` counters
start at zero, once every leaf has called `onChildDone` on its parent group
exactly once, in any order: each group's `childrenComplete` equals its total
child count `len(ControlRuns) + len(Groups)`; each group runs its "all children
are done" block, where it calls `Parent.onChildDone()`, exactly once; `onChildDone`
was called on the group once per child, and all these calls come before the
block is run; the event after the block of a group with a parent is the call of
`onChildDone` on that parent. -/
theorem onChildDone_completes_each_group_once (h : Heap) (ht : h.isTree = true)
    (hl : h.linked = true)
    (hchild : ∀ g ∈ h, 0 < g.ControlRuns.length + g.Groups.length)
    (hsmall : ∀ g ∈ h, g.ControlRuns.length + g.Groups.length < 4294967296)
    (hzero : ∀ g ∈ h, g.childrenComplete = 0)
    (order : List Nat) (horder : ∀ i, order.count i = controlRunCountAt h i)
    (i : Nat) (hi : i < h.length) :
    childrenCompleteAt (leavesDone h order).1 i = childCount h i ∧
    childCount (leavesDone h order).1 i = childCount h i ∧
    (leavesDone h order).2.count (DoneEvent.allDone i) = 1 ∧
    (leavesDone h order).2.count (DoneEvent.called i) = childCount h i ∧
    (∀ k, (leavesDone h order).2[k]? = some (DoneEvent.allDone i) →
      ((leavesDone h order).2.take k).count (DoneEvent.called i) = childCount h i) ∧
    (∀ k p, (leavesDone h order).2[k]? = some (DoneEvent.allDone i) →
      parentAt h i = some p → (leavesDone h order).2[k + 1]? = some (DoneEvent.called p)) := by
  have hsm : ∀ j, j < h.length → childCount h j < 4294967296 := by
    intro j hj
    simp only [childCount, List.getElem?_eq_getElem hj]
    exact hsmall _ (List.getElem_mem hj)
  have hvalid : ∀ r ∈ order, r < h.length := by
    intro r hr
    have hpos : 0 < order.count r := List.count_pos_iff.mpr hr
    rw [horder r] at hpos
    rcases Nat.lt_or_ge r h.length with hlt | hge
    · exact hlt
    · simp [controlRunCountAt, List.getElem?_eq_none hge] at hpos
  have inv := DoneInv.foldl_leafDone h ht hl hsm order [] h []
    (by intro j; rw [List.nil_append, horder j]) hvalid
    (by simpa using DoneInv.init h hchild hzero)
  rw [List.nil_append] at inv
  change DoneInv h (fun j => order.count j) none (leavesDone h order).1 (leavesDone h order).2
    at inv
  have hall := DoneInv.all_complete h ht hl _ (fun j _ => horder j) _ _ inv h.length i hi
    (by omega)
  refine ⟨hall, inv.total i, ?_, ?_, fun k => inv.before k i, ?_⟩
  · rw [inv.done i hi, if_pos hall]
  · rw [inv.calls i hi, hall]
  · intro k p hk hp
    have hn := inv.notify k i p hk hp
    by_cases hk1 : k + 1 < (leavesDone h order).2.length
    · rw [if_pos hk1] at hn; exact hn
    · rw [if_neg hk1] at hn; cases hn

/-- C4, witness: in the sample tree, after its four leaves have called in the
order 1, 0, 2, 1, the counter of the root is 3, its block has run once and
`onChildDone` was called on it three times. -/
theorem onChildDone_completes_each_group_once_witness :
    childrenCompleteAt (leavesDone sampleDoneHeap [1, 0, 2, 1]).1 0 = 3 ∧
    (leavesDone sampleDoneHeap [1, 0, 2, 1]).2.count (DoneEvent.allDone 0) = 1 ∧
    (leavesDone sampleDoneHeap [1, 0, 2, 1]).2.count (DoneEvent.called 0) = 3 :=
  have h := onChildDone_completes_each_group_once sampleDoneHeap (by decide) (by decide)
    (by decide) (by decide) (by decide) [1, 0, 2, 1]
    (fun i => match i with
      | 0 => by decide
      | 1 => by decide
      | 2 => by decide
      | j + 3 => by
        simp only [controlRunCountAt, sampleDoneHeap, List.count_cons, List.count_nil]
        simp) 0 (by decide)
  ⟨h.1, h.2.2.1, h.2.2.2.1⟩

/-- C5: `getExitCode` returns the control-error code 2 whenever `errors > 0`,
the control-alarm code 1 exactly when `errors` is not positive and `alarms > 0`,
and the success code 0 otherwise; the three codes are pairwise distinct. -/
theorem getExitCode_spec (alarms errors : Int) :
    (errors > 0 → getExitCode alarms errors = ExitCodeControlsError) ∧
    (getExitCode alarms errors = ExitCodeControlsAlarm ↔ ¬ errors > 0 ∧ alarms > 0) ∧
    (¬ errors > 0 → ¬ alarms > 0 → getExitCode alarms errors = ExitCodeSuccessful) ∧
    ExitCodeControlsError = 2 ∧ ExitCodeControlsAlarm = 1 ∧ ExitCodeSuccessful = 0 ∧
    ExitCodeControlsError ≠ ExitCodeControlsAlarm ∧
    ExitCodeControlsError ≠ ExitCodeSuccessful ∧
    ExitCodeControlsAlarm ≠ ExitCodeSuccessful := by
  unfold getExitCode ExitCodeControlsError ExitCodeControlsAlarm ExitCodeSuccessful
  by_cases he : errors > 0 <;> by_cases ha : alarms > 0 <;> simp [he, ha]

/-- C6 (the code departs from the claim): with two trees that all execute,
publish and export without error, the first with one alarm and one error and
the second clean, the loop of `runCheckCmd` ends with `totalAlarms = 0` and
`totalErrors = 0`, the counters of the last tree, and the exit code is 0, not
the control-error code. -/
theorem runCheckCmd_keeps_last_tree_only :
    checkLoop sampleTreeRuns 0 0 = (0, 0) ∧
    (sampleTreeRuns.map TreeRun.Alarm).sum = 1 ∧
    (sampleTreeRuns.map TreeRun.Error).sum = 1 ∧
    runCheckExitCode sampleTreeRuns = ExitCodeSuccessful ∧
    runCheckExitCode sampleTreeRuns ≠ ExitCodeControlsError := by
  decide

/-- C7 (as stated, refuted): a benchmark without children given as root item is
built into a group without any control run, and `NewRootResultGroup` still
attaches that group to the root. -/
theorem root_item_group_attached_when_empty :
    ¬ ∀ (st : BuildState) (rootItem : ModTreeItem) (st2 : BuildState) (root : GroupTree),
        NewRootResultGroup st rootItem = Except.ok (st2, root) →
        ∀ g ∈ root.Groups, g.ControlRunCount > 0 := by
  intro H
  have h := H emptyBuild (plainBenchmark "b" []) ⟨⟨[], []⟩, 2⟩
    (plainGroup RootResultGroupName 0 none [plainGroup "b" 1 (some 0) [] []] []) rfl
    (plainGroup "b" 1 (some 0) [] []) (List.Mem.head _)
  revert h
  decide

/-- C7 (amended): in every tree built by `NewRootResultGroup`, every group
attached to a parent other than the root, that is, every group attached by
`NewResultGroup`, has `ControlRunCount() > 0`. -/
theorem attached_groups_below_root_item_nonempty (st : BuildState) (rootItem : ModTreeItem)
    (st2 : BuildState) (root : GroupTree)
    (h : NewRootResultGroup st rootItem = Except.ok (st2, root)) :
    ∀ g ∈ root.Groups, g.attachedNonEmpty = true ∧
      ∀ c ∈ g.Groups, c.ControlRunCount > 0 ∧ c.attachedNonEmpty = true := by
  unfold NewRootResultGroup at h
  simp only at h
  split at h
  · split at h
    · cases h
    · rename_i e root1 hadd
      simp only [Except.ok.injEq, Prod.mk.injEq] at h
      unfold AddControl at hadd
      split at hadd
      · cases hadd
      · simp only [Except.ok.injEq, Prod.mk.injEq] at hadd
        rw [← h.2, ← hadd.2]
        intro g hg
        simp [GroupTree.addControl, GroupTree.Groups] at hg
  · split at h
    · cases h
    · rename_i st3 itemGroup hnew
      simp only [Except.ok.injEq, Prod.mk.injEq] at h
      have hitem := NewResultGroup_attachedNonEmpty _ _ _ _ _ hnew
      rw [← h.2]
      intro g hg
      simp only [GroupTree.addResultGroup, GroupTree.Groups, List.nil_append,
        List.mem_singleton] at hg
      subst hg
      refine ⟨hitem, ?_⟩
      rw [attachedNonEmpty_eq, attachedNonEmptyList_iff] at hitem
      exact hitem

theorem attached_groups_below_root_item_nonempty_witness :
    (plainGroup "b" 1 (some 0) [plainGroup "full" 3 (some 1) [] [⟨plainControl "x"⟩]]
      []).attachedNonEmpty = true ∧
    (plainGroup "full" 3 (some 1) [] [⟨plainControl "x"⟩]).ControlRunCount > 0 ∧
    (plainGroup "full" 3 (some 1) [] [⟨plainControl "x"⟩]).attachedNonEmpty = true :=
  have h := attached_groups_below_root_item_nonempty emptyBuild
    (plainBenchmark "b"
      [plainBenchmark "empty" [], plainBenchmark "full" [ModTreeItem.control (plainControl "x")]])
    ⟨⟨[("x", [3])], []⟩, 4⟩
    (plainGroup RootResultGroupName 0 none
      [plainGroup "b" 1 (some 0) [plainGroup "full" 3 (some 1) [] [⟨plainControl "x"⟩]] []] [])
    rfl
    (plainGroup "b" 1 (some 0) [plainGroup "full" 3 (some 1) [] [⟨plainControl "x"⟩]] [])
    (List.Mem.head _)
  ⟨h.1, h.2 (plainGroup "full" 3 (some 1) [] [⟨plainControl "x"⟩]) (List.Mem.head _)⟩

/-- C8: when `NewRootResultGroup` succeeds on a root item that is a control, the
root has `GroupId` "root_result_group", no child group and exactly one control
run, the run of that control; when it succeeds on a root item that is not a
control, the root has no control run of its own and exactly one child group,
the one that `NewResultGroup` builds from the root item with the root as
parent. -/
theorem NewRootResultGroup_shape (st : BuildState) (rootItem : ModTreeItem)
    (st2 : BuildState) (root : GroupTree)
    (h : NewRootResultGroup st rootItem = Except.ok (st2, root)) :
    root.GroupId = "root_result_group" ∧ root.Parent = none ∧
    (∀ control, rootItem = ModTreeItem.control control →
      root.Groups = [] ∧ root.ControlRuns = [⟨control⟩] ∧ root.ControlRuns.length = 1) ∧
    (rootItem.asControl = none →
      root.ControlRuns = [] ∧ root.Groups.length = 1 ∧
      ∃ itemGroup, root.Groups = [itemGroup] ∧
        NewResultGroup { st with nextAddr := st.nextAddr + 1 } rootItem (some st.nextAddr) =
          Except.ok (st2, itemGroup)) := by
  unfold NewRootResultGroup at h
  simp only at h
  split at h
  · rename_i control hctl
    split at h
    · cases h
    · rename_i e root1 hadd
      simp only [Except.ok.injEq, Prod.mk.injEq] at h
      unfold AddControl at hadd
      split at hadd
      · cases hadd
      · simp only [Except.ok.injEq, Prod.mk.injEq] at hadd
        rw [← h.2, ← hadd.2]
        refine ⟨rfl, rfl, ?_, ?_⟩
        · intro c hc
          subst hc
          simp only [ModTreeItem.asControl, Option.some.injEq] at hctl
          subst hctl
          exact ⟨rfl, rfl, rfl⟩
        · intro hnone
          rw [hnone] at hctl
          cases hctl
  · rename_i hnone
    split at h
    · cases h
    · rename_i st3 itemGroup hnew
      simp only [Except.ok.injEq, Prod.mk.injEq] at h
      rw [← h.2]
      refine ⟨rfl, rfl, ?_, ?_⟩
      · intro c hc
        subst hc
        simp [ModTreeItem.asControl] at hnone
      · intro _
        refine ⟨rfl, rfl, itemGroup, rfl, ?_⟩
        rw [← h.1]
        exact hnew

theorem NewRootResultGroup_shape_witness :
    ((plainGroup RootResultGroupName 0 none [] [⟨plainControl "c"⟩]).GroupId =
        "root_result_group" ∧
      (plainGroup RootResultGroupName 0 none [] [⟨plainControl "c"⟩]).Groups = [] ∧
      (plainGroup RootResultGroupName 0 none [] [⟨plainControl "c"⟩]).ControlRuns.length = 1) ∧
    ((plainGroup RootResultGroupName 0 none
        [plainGroup "b" 1 (some 0) [] [⟨plainControl "c"⟩]] []).ControlRuns = [] ∧
      (plainGroup RootResultGroupName 0 none
        [plainGroup "b" 1 (some 0) [] [⟨plainControl "c"⟩]] []).Groups.length = 1) :=
  have h1 := NewRootResultGroup_shape emptyBuild (ModTreeItem.control (plainControl "c"))
    ⟨⟨[("c", [0])], []⟩, 1⟩ (plainGroup RootResultGroupName 0 none [] [⟨plainControl "c"⟩]) rfl
  have h2 := NewRootResultGroup_shape emptyBuild
    (plainBenchmark "b" [ModTreeItem.control (plainControl "c")])
    ⟨⟨[("c", [1])], []⟩, 2⟩
    (plainGroup RootResultGroupName 0 none
      [plainGroup "b" 1 (some 0) [] [⟨plainControl "c"⟩]] []) rfl
  ⟨⟨h1.1, (h1.2.2.1 _ rfl).1, (h1.2.2.1 _ rfl).2.2⟩, (h2.2.2.2 rfl).1, (h2.2.2.2 rfl).2.1⟩

/-- C9: when the context reads as canceled at every control run, with
`ctx.Err()` equal to `err`, `execute` calls `setError(ctx, err)` on every control
run of the group and of all its descendant groups, in dispatch order, and makes
no other call: no run is launched or skipped and the limiter is never
acquired. -/
theorem execute_canceled (env : ExecEnv) (err : Option String)
    (hc : ∀ k, env.isCanceled k = true) (he : ∀ k, env.ctxErr k = err)
    (g : GroupTree) (k : Nat) :
    (g.execute env k).1 = g.allRuns.map (fun run => ExecEvent.setError run err) ∧
    (∀ run, ExecEvent.goExecuteRun run ∉ (g.execute env k).1) ∧
    (∀ run, ExecEvent.skip run ∉ (g.execute env k).1) ∧
    (∀ e, ExecEvent.acquire e ∉ (g.execute env k).1) := by
  have heq := execute_of_runs env _ (executeRuns_canceled env err hc he) g k
  rw [heq]
  refine ⟨rfl, ?_, ?_, ?_⟩ <;> intro x hx <;> simp at hx

theorem execute_canceled_witness :
    (sampleTree.execute (constEnv true (some "context canceled") false) 0).1 =
      [ExecEvent.setError ⟨plainControl "c1"⟩ (some "context canceled"),
        ExecEvent.setError ⟨plainControl "c2"⟩ (some "context canceled"),
        ExecEvent.setError ⟨plainControl "c3"⟩ (some "context canceled")] :=
  (execute_canceled (constEnv true (some "context canceled") false) (some "context canceled")
    (fun _ => rfl) (fun _ => rfl) sampleTree 0).1

/-- C10: with dry-run active, when the context never reads as canceled `execute`
calls `skip` on every control run of the group and of all its descendant groups
and makes no other call (nothing is launched, the limiter is never acquired);
when the context reads as canceled at every control run, the runs get
`setError` with `ctx.Err()` and none is skipped. -/
theorem execute_dryRun (env : ExecEnv) (hd : env.dryRun = true) (g : GroupTree) (k : Nat) :
    ((∀ j, env.isCanceled j = false) →
      (g.execute env k).1 = g.allRuns.map (fun run => ExecEvent.skip run) ∧
      (∀ run, ExecEvent.goExecuteRun run ∉ (g.execute env k).1) ∧
      (∀ e, ExecEvent.acquire e ∉ (g.execute env k).1)) ∧
    (∀ err, (∀ j, env.isCanceled j = true) → (∀ j, env.ctxErr j = err) →
      (g.execute env k).1 = g.allRuns.map (fun run => ExecEvent.setError run err) ∧
      (∀ run, ExecEvent.skip run ∉ (g.execute env k).1)) := by
  constructor
  · intro hc
    have heq := execute_of_runs env _ (executeRuns_dryRun env hc hd) g k
    rw [heq]
    refine ⟨rfl, ?_, ?_⟩ <;> intro x hx <;> simp at hx
  · intro err hc he
    have heq := execute_of_runs env _ (executeRuns_canceled env err hc he) g k
    rw [heq]
    refine ⟨rfl, ?_⟩
    intro x hx
    simp at hx

theorem execute_dryRun_witness :
    (sampleTree.execute (constEnv false none true) 0).1 =
      [ExecEvent.skip ⟨plainControl "c1"⟩, ExecEvent.skip ⟨plainControl "c2"⟩,
        ExecEvent.skip ⟨plainControl "c3"⟩] ∧
    (sampleTree.execute (constEnv true (some "context canceled") true) 0).1 =
      [ExecEvent.setError ⟨plainControl "c1"⟩ (some "context canceled"),
        ExecEvent.setError ⟨plainControl "c2"⟩ (some "context canceled"),
        ExecEvent.setError ⟨plainControl "c3"⟩ (some "context canceled")] :=
  ⟨((execute_dryRun (constEnv false none true) rfl sampleTree 0).1 (fun _ => rfl)).1,
   ((execute_dryRun (constEnv true (some "context canceled") true) rfl sampleTree 0).2
      (some "context canceled") (fun _ => rfl) (fun _ => rfl)).1⟩

/-- C11: every limiter unit acquired by `execute` is released exactly once.  In
each round of the dispatch loop either the calls are a successful `Acquire`
followed by `go executeRun` for that run, or nothing is acquired and nothing is
launched; when `Acquire` fails with `err` the calls are that `Acquire` and
`setError(err)` on the run.  `executeRun` releases exactly one unit, whether
`run.execute` returns or panics.  Over a whole dispatch, the units acquired are
as many as the runs launched, and the goroutines of these runs release as many
units as were acquired. -/
theorem limiter_units_released_once (env : ExecEnv) (toError : String → String)
    (outcome : Nat → RunOutcome) (g : GroupTree) (k : Nat) :
    (∀ (run : ControlRun) (rest : List ControlRun) (j : Nat),
      ∃ calls, (executeRuns env j (run :: rest)).1 = calls ++ (executeRuns env (j + 1) rest).1 ∧
        (calls = [ExecEvent.acquire none, ExecEvent.goExecuteRun run] ∨
          (launchedRuns calls = [] ∧ unitsAcquired calls = 0)) ∧
        (∀ err, env.isCanceled j = false → env.dryRun = false → env.acquire j = some err →
          calls = [ExecEvent.acquire (some err), ExecEvent.setError run (some err)])) ∧
    (∀ (run : ControlRun) (o : RunOutcome),
      unitsReleased (executeRun toError o run).1 = 1 ∧ (executeRun toError o run).2 = none) ∧
    unitsAcquired (g.execute env k).1 = (launchedRuns (g.execute env k).1).length ∧
    unitsReleased (goroutineCalls toError outcome 0 (launchedRuns (g.execute env k).1)) =
      unitsAcquired (g.execute env k).1 := by
  refine ⟨?_, ?_, execute_unitsAcquired env g k, ?_⟩
  · intro run rest j
    refine ⟨_, rfl, ?_, ?_⟩
    · by_cases hc : env.isCanceled j = true
      · right; simp [hc, launchedRuns, unitsAcquired]
      · by_cases hd : env.dryRun = true
        · right; simp [hc, hd, launchedRuns, unitsAcquired]
        · cases ha : env.acquire j with
          | none => left; simp [hc, hd]
          | some err => right; simp [hc, hd, launchedRuns, unitsAcquired]
    · intro err hc hd ha
      simp [hc, hd, ha]
  · intro run o
    cases o <;> simp [executeRun, unitsReleased]
  · rw [goroutineCalls_unitsReleased, execute_unitsAcquired]

/-- C12: when `run.execute` panics with a value `v`, `executeRun` calls
`run.setError` with `v` converted to an error, releases the unit and returns
normally, so the panic does not escape; when `run.execute` returns,
`executeRun` makes no call of `setError`. -/
theorem executeRun_recovers_panic (toError : String → String) (run : ControlRun) :
    (∀ v, (executeRun toError (RunOutcome.panics v) run).1 =
        [RunEvent.execute run, RunEvent.setError run (toError v), RunEvent.release] ∧
      (executeRun toError (RunOutcome.panics v) run).2 = none) ∧
    (executeRun toError RunOutcome.returns run).2 = none ∧
    (∀ r err, RunEvent.setError r err ∉ (executeRun toError RunOutcome.returns run).1) := by
  refine ⟨fun v => ⟨rfl, rfl⟩, rfl, ?_⟩
  intro r err h
  simp [executeRun] at h

/-- C13: a `DetectionRun` that has a completion callback calls it exactly once in
every call of `Execute`, as the last call made, hence after any `SetError` or
`SetComplete` of that call. -/
theorem Execute_calls_onComplete_once (env : DetectionEnv) (r : DetectionRun)
    (h : r.hasOnComplete = true) :
    ∃ before, (r.Execute env).2 = before ++ [DetectionEvent.onComplete] ∧
      DetectionEvent.onComplete ∉ before ∧
      (r.Execute env).2.count DetectionEvent.onComplete = 1 := by
  have hdef : r.deferred = [DetectionEvent.onComplete] := by simp [DetectionRun.deferred, h]
  rcases Execute_events env r with ⟨_, hev⟩ | ⟨_, calls, last, hev, hlast, hcalls⟩
  · rw [hev, hdef]
    exact ⟨[], rfl, by simp, by simp⟩
  · rw [hev, hdef]
    have hnot : DetectionEvent.onComplete ∉ calls ++ [last] := by
      intro hmem
      rw [List.mem_append, List.mem_singleton] at hmem
      rcases hmem with hmem | hmem
      · have := hcalls _ hmem
        simp at this
      · rcases hlast with hl | ⟨err, hl⟩ <;> rw [hl] at hmem <;> cases hmem
    refine ⟨calls ++ [last], rfl, hnot, ?_⟩
    rw [List.count_append, List.count_eq_zero.mpr hnot]
    simp

theorem Execute_calls_onComplete_once_witness :
    ∃ before, (sampleRun.Execute (sampleDetectionEnv (some "with failed"))).2 =
        before ++ [DetectionEvent.onComplete] ∧
      DetectionEvent.onComplete ∉ before ∧
      (sampleRun.Execute (sampleDetectionEnv (some "with failed"))).2.count
        DetectionEvent.onComplete = 1 :=
  Execute_calls_onComplete_once (sampleDetectionEnv (some "with failed")) sampleRun rfl

/-- C14: when a run that is not finished gets the error `e` from the evaluation
of its runtime dependencies, `Execute` calls `SetError(e)` and no other
`SetError`, leaves `e` as the error of the run, and calls neither `setRunning`
nor `executeQuery` (nor the query service) nor `SetComplete`. -/
theorem Execute_dependency_error (env : DetectionEnv) (r : DetectionRun) (e : String)
    (hf : r.Status.IsFinished = false)
    (he : env.evaluateRuntimeDependencies = Except.error e) :
    (r.Execute env).1.err = some e ∧
    (r.Execute env).2 =
      [DetectionEvent.executeChildrenAsync, DetectionEvent.waitForChildrenAsync,
        DetectionEvent.evaluateRuntimeDependencies, DetectionEvent.SetError e] ++ r.deferred ∧
    (∀ e2, DetectionEvent.SetError e2 ∈ (r.Execute env).2 → e2 = e) ∧
    DetectionEvent.setRunning ∉ (r.Execute env).2 ∧
    DetectionEvent.executeQuery ∉ (r.Execute env).2 ∧
    DetectionEvent.ExecuteSync ∉ (r.Execute env).2 ∧
    DetectionEvent.SetComplete ∉ (r.Execute env).2 := by
  have hex : r.Execute env = (r.SetError e,
      [DetectionEvent.executeChildrenAsync, DetectionEvent.waitForChildrenAsync,
        DetectionEvent.evaluateRuntimeDependencies, DetectionEvent.SetError e] ++ r.deferred) := by
    unfold DetectionRun.Execute
    simp [hf, he]
  rw [hex]
  refine ⟨rfl, rfl, ?_, ?_, ?_, ?_, ?_⟩ <;>
    cases hc : r.hasOnComplete <;> simp [DetectionRun.deferred, hc]

theorem Execute_dependency_error_witness :
    (sampleRun.Execute (failingDependencyEnv "with failed")).1.err = some "with failed" ∧
    (sampleRun.Execute (failingDependencyEnv "with failed")).2 =
      [DetectionEvent.executeChildrenAsync, DetectionEvent.waitForChildrenAsync,
        DetectionEvent.evaluateRuntimeDependencies, DetectionEvent.SetError "with failed",
        DetectionEvent.onComplete] :=
  have h := Execute_dependency_error (failingDependencyEnv "with failed") sampleRun
    "with failed" rfl rfl
  ⟨h.1, h.2.1⟩

/-- C15: for a run that is not finished, whose runtime dependencies resolve and
whose own query, if it has one, succeeds, the value received from the children's
channel decides the end: an error `e` makes `Execute` call `SetError(e)`, no
other `SetError` and no `SetComplete`, and the run ends in error with `e`; nil
makes it call `SetComplete` and no `SetError`, and the run ends complete. -/
theorem Execute_children_decide (env : DetectionEnv) (r : DetectionRun) (sql : String)
    (hf : r.Status.IsFinished = false)
    (hdeps : env.evaluateRuntimeDependencies = Except.ok sql)
    (hq : sql = "" ∨
      ((({ r with executeSQL := sql } : DetectionRun).setRunning).executeQuery env).2.2 = none) :
    (∀ e, env.doneChan = some e →
      DetectionEvent.SetError e ∈ (r.Execute env).2 ∧
      (∀ e2, DetectionEvent.SetError e2 ∈ (r.Execute env).2 → e2 = e) ∧
      DetectionEvent.SetComplete ∉ (r.Execute env).2 ∧
      (r.Execute env).1.err = some e ∧ (r.Execute env).1.Status = RunStatus.error) ∧
    (env.doneChan = none →
      DetectionEvent.SetComplete ∈ (r.Execute env).2 ∧
      (∀ e2, DetectionEvent.SetError e2 ∉ (r.Execute env).2) ∧
      (r.Execute env).1.Status = RunStatus.complete) := by
  have hqe := executeQuery_events env (({ r with executeSQL := sql } : DetectionRun).setRunning)
  have hdef : ∀ e ∈ r.deferred, e = DetectionEvent.onComplete := by
    intro e he
    unfold DetectionRun.deferred at he
    split at he <;> simp at he
    exact he
  have hsql : (({ r with executeSQL := sql } : DetectionRun).setRunning).executeSQL = sql := rfl
  constructor
  · intro e hdone
    unfold DetectionRun.Execute
    simp only [hf, Bool.false_eq_true, if_false, hdeps, hsql]
    by_cases hs : sql = ""
    · simp only [hs, ne_eq, not_true_eq_false, if_false, hdone]
      refine ⟨by simp, ?_, ?_, rfl, rfl⟩
      · intro e2 h2
        simp only [List.mem_append, List.mem_cons, List.mem_singleton, List.not_mem_nil,
          or_false, DetectionEvent.SetError.injEq] at h2
        rcases h2 with ((h2 | h2) | h2) | h2
        · simp at h2
        · simp at h2
        · exact h2
        · have := hdef _ h2; cases this
      · intro h2
        simp only [List.mem_append, List.mem_cons, List.mem_singleton, List.not_mem_nil,
          or_false] at h2
        rcases h2 with ((h2 | h2) | h2) | h2
        · simp at h2
        · simp at h2
        · cases h2
        · have := hdef _ h2; cases this
    · have hq2 := hq.resolve_left hs
      simp only [ne_eq, hs, not_false_eq_true, if_true, hq2, hdone]
      refine ⟨by simp, ?_, ?_, ?_, rfl⟩
      · intro e2 h2
        simp only [List.mem_append, List.mem_cons, List.mem_singleton, List.not_mem_nil,
          or_false, DetectionEvent.SetError.injEq] at h2
        rcases h2 with (((h2 | h2) | h2) | h2) | h2
        · simp at h2
        · simp at h2
        · rcases h2 with h2 | h2
          · cases h2
          · rcases hqe _ h2 with h3 | h3 <;> cases h3
        · exact h2
        · have := hdef _ h2; cases this
      · intro h2
        simp only [List.mem_append, List.mem_cons, List.mem_singleton, List.not_mem_nil,
          or_false] at h2
        rcases h2 with (((h2 | h2) | h2) | h2) | h2
        · simp at h2
        · simp at h2
        · rcases h2 with h2 | h2
          · cases h2
          · rcases hqe _ h2 with h3 | h3 <;> cases h3
        · cases h2
        · have := hdef _ h2; cases this
      · rfl
  · intro hdone
    unfold DetectionRun.Execute
    simp only [hf, Bool.false_eq_true, if_false, hdeps, hsql]
    by_cases hs : sql = ""
    · simp only [hs, ne_eq, not_true_eq_false, if_false, hdone]
      refine ⟨by simp, ?_, rfl⟩
      intro e2 h2
      simp only [List.mem_append, List.mem_cons, List.mem_singleton, List.not_mem_nil,
        or_false] at h2
      rcases h2 with ((h2 | h2) | h2) | h2
      · simp at h2
      · simp at h2
      · cases h2
      · have := hdef _ h2; cases this
    · have hq2 := hq.resolve_left hs
      simp only [ne_eq, hs, not_false_eq_true, if_true, hq2, hdone]
      refine ⟨by simp, ?_, rfl⟩
      intro e2 h2
      simp only [List.mem_append, List.mem_cons, List.mem_singleton, List.not_mem_nil,
        or_false] at h2
      rcases h2 with (((h2 | h2) | h2) | h2) | h2
      · simp at h2
      · simp at h2
      · rcases h2 with h2 | h2
        · cases h2
        · rcases hqe _ h2 with h3 | h3 <;> cases h3
      · cases h2
      · have := hdef _ h2; cases this

theorem Execute_children_decide_witness :
    (DetectionEvent.SetError "with failed" ∈
        (sampleRun.Execute (sampleDetectionEnv (some "with failed"))).2 ∧
      DetectionEvent.SetComplete ∉
        (sampleRun.Execute (sampleDetectionEnv (some "with failed"))).2) ∧
    (DetectionEvent.SetComplete ∈ (sampleRun.Execute (sampleDetectionEnv none)).2 ∧
      (sampleRun.Execute (sampleDetectionEnv none)).1.Status = RunStatus.complete) :=
  have h1 := (Execute_children_decide (sampleDetectionEnv (some "with failed")) sampleRun
    "select 1" rfl rfl (Or.inr rfl)).1 "with failed" rfl
  have h2 := (Execute_children_decide (sampleDetectionEnv none) sampleRun
    "select 1" rfl rfl (Or.inr rfl)).2 rfl
  ⟨⟨h1.1, h1.2.2.1⟩, h2.1, h2.2.2⟩

/-- C16: after `Execute`, a run that started with no data and no error does not
hold both data and an error.  The data is set by `executeQuery` only, the error
by `SetError` only.  When the query has succeeded and the children's channel
then delivers an error, `Execute` calls `SetError` on a run that holds the
data and does not clear it itself: on that path the property is the one of
`SetError`, which leaves the error and no rows. -/
theorem Execute_never_data_and_error (env : DetectionEnv) (r : DetectionRun)
    (hd : r.Data = none) (he : r.err = none) :
    ¬ ((r.Execute env).1.Data ≠ none ∧ (r.Execute env).1.err ≠ none) ∧
    (∀ (sql e : String), r.Status.IsFinished = false →
      env.evaluateRuntimeDependencies = Except.ok sql → sql ≠ "" →
      ((({ r with executeSQL := sql } : DetectionRun).setRunning).executeQuery env).2.2 =
        none →
      env.doneChan = some e →
      ((({ r with executeSQL := sql } : DetectionRun).setRunning).executeQuery env).1.Data ≠
        none ∧
      (r.Execute env).1 =
        ((({ r with executeSQL := sql } : DetectionRun).setRunning).executeQuery env).1.SetError
          e) := by
  constructor
  · unfold DetectionRun.Execute
    by_cases hf : r.Status.IsFinished = true
    · simp [hf, hd]
    · have hf2 : r.Status.IsFinished = false := by simpa using hf
      simp only [hf2, Bool.false_eq_true, if_false]
      cases hdeps : env.evaluateRuntimeDependencies with
      | error err => simp [DetectionRun.SetError]
      | ok sql =>
        have hsql :
            (({ r with executeSQL := sql } : DetectionRun).setRunning).executeSQL = sql := rfl
        have hdata :=
          executeQuery_data env (({ r with executeSQL := sql } : DetectionRun).setRunning)
        have he1 : (({ r with executeSQL := sql } : DetectionRun).setRunning).err = none := he
        simp only [hsql]
        by_cases hs : sql = ""
        · simp only [hs, ne_eq, not_true_eq_false, if_false]
          cases hdone : env.doneChan with
          | none => simp [DetectionRun.SetComplete, DetectionRun.setRunning, hd]
          | some e => simp [DetectionRun.SetError]
        · simp only [ne_eq, hs, not_false_eq_true, if_true]
          cases hqerr : ((({ r with executeSQL := sql } : DetectionRun).setRunning).executeQuery
              env).2.2 with
          | some err => simp [DetectionRun.SetError]
          | none =>
            have herr := hdata.2.1 hqerr
            rw [he1] at herr
            cases hdone : env.doneChan with
            | none => simp [DetectionRun.SetComplete, herr]
            | some e => simp [DetectionRun.SetError]
  · intro sql e hf hdeps hs hqerr hdone
    have hdata :=
      executeQuery_data env (({ r with executeSQL := sql } : DetectionRun).setRunning)
    refine ⟨hdata.1 hqerr, ?_⟩
    have hsql :
        (({ r with executeSQL := sql } : DetectionRun).setRunning).executeSQL = sql := rfl
    unfold DetectionRun.Execute
    simp only [hf, Bool.false_eq_true, if_false, hdeps, hsql, ne_eq, hs, not_false_eq_true,
      if_true, hqerr, hdone]

/-- C16, witness: the sample run, whose query returns a row while its children
report an error, ends with the error and without data; with no error from the
children it ends with the data and without error. -/
theorem Execute_never_data_and_error_witness :
    sampleRun.Data = none ∧ sampleRun.err = none ∧
    ¬ ((sampleRun.Execute (sampleDetectionEnv (some "with failed"))).1.Data ≠ none ∧
      (sampleRun.Execute (sampleDetectionEnv (some "with failed"))).1.err ≠ none) ∧
    (sampleRun.Execute (sampleDetectionEnv (some "with failed"))).1.err = some "with failed" ∧
    (sampleRun.Execute (sampleDetectionEnv none)).1.Data = some ["row"] ∧
    (sampleRun.Execute (sampleDetectionEnv none)).1.err = none :=
  ⟨rfl, rfl,
    (Execute_never_data_and_error (sampleDetectionEnv (some "with failed")) sampleRun rfl rfl).1,
    by decide, by decide, by decide⟩

/-- C17: after `r.addDimensionKeys(keys...)` in a tree, the `DimensionKeys` of `r`
and of every ancestor of `r` are sorted in strictly ascending order, have no
duplicate, and hold exactly the keys the group held before together with
`keys` (nothing else of the group changes); every group that is neither `r` nor
an ancestor of `r` is unchanged. -/
theorem addDimensionKeys_sorted_distinct (h : Heap) (ht : h.isTree = true) (r : Nat)
    (keys : List String) (i : Nat) (g : ResultGroup) (hg : h[i]? = some g) :
    (r < h.length → r ∈ ancestorsOrSelf h r) ∧
    ∃ g2, (addDimensionKeys h r keys)[i]? = some g2 ∧
      (i ∈ ancestorsOrSelf h r →
        List.Sorted (fun a b : String => a < b) g2.DimensionKeys ∧
        g2.DimensionKeys.Nodup ∧
        (∀ k, k ∈ g2.DimensionKeys ↔ k ∈ g.DimensionKeys ∨ k ∈ keys) ∧
        g2 = { g with DimensionKeys := g2.DimensionKeys }) ∧
      (i ∉ ancestorsOrSelf h r → g2 = g) := by
  constructor
  · intro hr
    rw [mem_ancestorsOrSelf_iff h ht r r hr]
    exact IsAncestorOrSelf.self r _ (List.getElem?_eq_getElem hr)
  · rw [addDimensionKeys_getElem? h ht, hg]
    by_cases hm : i ∈ ancestorsOrSelf h r
    · refine ⟨g.withKeys keys, by simp [hm], ?_, fun hn => absurd hm hn⟩
      intro _
      have hspec := sortStrings_distinct_spec (g.DimensionKeys ++ keys)
      refine ⟨hspec.1, hspec.2.1, ?_, rfl⟩
      intro k
      rw [ResultGroup.withKeys, hspec.2.2 k, List.mem_append]
    · exact ⟨g, by simp [hm], fun hn => absurd hn hm, fun _ => rfl⟩

theorem addDimensionKeys_sorted_distinct_witness :
    ∃ g2, (addDimensionKeys sampleHeap 1 ["b", "a", "b"])[0]? = some g2 ∧
      List.Sorted (fun a b : String => a < b) g2.DimensionKeys ∧
      g2.DimensionKeys.Nodup ∧ "a" ∈ g2.DimensionKeys ∧ "b" ∈ g2.DimensionKeys :=
  match (addDimensionKeys_sorted_distinct sampleHeap (by decide) 1 ["b", "a", "b"] 0
    (ResultGroup.fresh "root_result_group" none) rfl).2 with
  | ⟨g2, hget, hin, _⟩ =>
    ⟨g2, hget, (hin (by decide)).1, (hin (by decide)).2.1,
      ((hin (by decide)).2.2.1 "a").mpr (Or.inr (by decide)),
      ((hin (by decide)).2.2.1 "b").mpr (Or.inr (by decide))⟩

/-- C18: for a group built from an empty group by any sequence of
`addResultGroup` and `addControl` calls, `Children` lists the added nodes in the
order of the calls, its length is `len(Groups) + len(ControlRuns)`, `Groups` and
`ControlRuns` hold the added groups and control runs in the order of the calls,
and the groups, respectively the control runs, that occur in `Children` are
those of `Groups`, respectively `ControlRuns`, in the same order. -/
theorem Children_lists_added_nodes (r : GroupTree) (hG : r.Groups = [])
    (hR : r.ControlRuns = []) (hC : r.Children = []) (cs : List AddCall) :
    (r.calls cs).Children = cs.map AddCall.node ∧
    (r.calls cs).Children.length = (r.calls cs).Groups.length + (r.calls cs).ControlRuns.length ∧
    (r.calls cs).Groups = cs.filterMap AddCall.addedGroup ∧
    (r.calls cs).ControlRuns = cs.filterMap AddCall.addedRun ∧
    (r.calls cs).Children.filterMap ChildRef.groupAddr =
      (r.calls cs).Groups.map GroupTree.addr ∧
    (r.calls cs).Children.filterMap ChildRef.runName =
      (r.calls cs).ControlRuns.map (fun run => run.Control.name) := by
  have h := GroupTree.calls_fields cs r
  rw [hG, hR, hC, List.nil_append, List.nil_append, List.nil_append] at h
  rw [h.1, h.2.1, h.2.2]
  refine ⟨rfl, ?_, rfl, rfl, filterMap_node_groupAddr cs, filterMap_node_runName cs⟩
  rw [List.length_map]
  exact length_filterMap_added cs

theorem Children_lists_added_nodes_witness :
    ((plainGroup "b" 1 (some 0) [] []).calls
        [AddCall.addControl ⟨plainControl "c1"⟩,
          AddCall.addResultGroup (plainGroup "sub" 2 (some 1) [] [⟨plainControl "c2"⟩]),
          AddCall.addControl ⟨plainControl "c3"⟩]).Children =
      [ChildRef.controlRun "c1", ChildRef.group 2, ChildRef.controlRun "c3"] ∧
    ((plainGroup "b" 1 (some 0) [] []).calls
        [AddCall.addControl ⟨plainControl "c1"⟩,
          AddCall.addResultGroup (plainGroup "sub" 2 (some 1) [] [⟨plainControl "c2"⟩]),
          AddCall.addControl ⟨plainControl "c3"⟩]).ControlRuns =
      [⟨plainControl "c1"⟩, ⟨plainControl "c3"⟩] :=
  have h := Children_lists_added_nodes (plainGroup "b" 1 (some 0) [] []) rfl rfl rfl
    [AddCall.addControl ⟨plainControl "c1"⟩,
      AddCall.addResultGroup (plainGroup "sub" 2 (some 1) [] [⟨plainControl "c2"⟩]),
      AddCall.addControl ⟨plainControl "c3"⟩]
  ⟨h.1, h.2.2.2.1⟩

/-- C19: in every tree built by `NewRootResultGroup` the root's `Parent` is nil
and every group held in the `Groups` of a group `p` of the tree has `Parent`
equal to the address of `p`, the addresses of the groups of the tree being
pairwise distinct; and `updateSummary`, `updateSeverityCounts`,
`addDimensionKeys`, `onChildDone` and `execute` leave the `Parent` of every
group of the heap as it was: `execute` writes `executionStartTime` of the group
and of its descendants, and the control runs it sets to error or skips report
to their group through the other four methods. -/
theorem Parent_set_at_construction_and_kept (st : BuildState) (rootItem : ModTreeItem)
    (st2 : BuildState) (root : GroupTree)
    (h : NewRootResultGroup st rootItem = Except.ok (st2, root)) :
    root.Parent = none ∧
    (∀ g ∈ root.Groups, g.Parent = some root.addr ∧ g.parentsLinked = true) ∧
    root.parentsLinked = true ∧ root.addrs.Nodup ∧
    (∀ (hp : Heap) (r : Nat) (s : StatusSummary),
      (updateSummary hp r s).map ResultGroup.Parent = hp.map ResultGroup.Parent) ∧
    (∀ (hp : Heap) (r : Nat) (severity : String) (s : StatusSummary),
      (updateSeverityCounts hp r severity s).map ResultGroup.Parent =
        hp.map ResultGroup.Parent) ∧
    (∀ (hp : Heap) (r : Nat) (keys : List String),
      (addDimensionKeys hp r keys).map ResultGroup.Parent = hp.map ResultGroup.Parent) ∧
    (∀ (hp : Heap) (r : Nat),
      (onChildDone hp r).1.map ResultGroup.Parent = hp.map ResultGroup.Parent) ∧
    (∀ (env : ExecEnv) (renv : ReportEnv) (k : Nat) (hp : Heap) (r : Nat),
      (executeHeap env renv k hp r).1.map ResultGroup.Parent =
        hp.map ResultGroup.Parent) := by
  have hb := NewRootResultGroup_builtBetween st rootItem st2 root h
  have hl := hb.2.2.1
  refine ⟨hb.1, ?_, hl, hb.2.2.2.1, ?_, ?_, ?_, ?_, ?_⟩
  · rw [parentsLinked_eq, parentsLinkedList_iff] at hl
    exact hl
  · intro hp r s; exact updateSummaryFuel_map_parent s _ hp r
  · intro hp r severity s; exact updateSeverityCountsFuel_map_parent severity s _ hp r
  · intro hp r keys; exact addDimensionKeysFuel_map_parent keys _ hp r
  · intro hp r; exact onChildDoneFuel_map_parent _ hp r
  · intro env renv k hp r; exact executeHeapFuel_map_parent env renv _ k hp r

/-- C19, witness: the tree built from a benchmark with an empty and a non-empty
child benchmark has its parents linked and distinct addresses; and `execute`
with a canceled context on the sample heap sets the start times and lets every
control run report, so that the counter of the root reaches 3, while the
`Parent` fields stay as they were. -/
theorem Parent_set_at_construction_and_kept_witness :
    (plainGroup RootResultGroupName 0 none
      [plainGroup "b" 1 (some 0) [plainGroup "full" 3 (some 1) [] [⟨plainControl "x"⟩]] []]
      []).parentsLinked = true ∧
    (plainGroup RootResultGroupName 0 none
      [plainGroup "b" 1 (some 0) [plainGroup "full" 3 (some 1) [] [⟨plainControl "x"⟩]] []]
      []).addrs.Nodup ∧
    (executeHeap (constEnv true (some "context canceled") false) sampleReportEnv 0
      sampleDoneHeap 0).1.map ResultGroup.Parent = sampleDoneHeap.map ResultGroup.Parent ∧
    (executeHeap (constEnv true (some "context canceled") false) sampleReportEnv 0
      sampleDoneHeap 0).1.map ResultGroup.executionStartTime = [7, 7, 7] ∧
    (executeHeap (constEnv true (some "context canceled") false) sampleReportEnv 0
      sampleDoneHeap 0).1.map ResultGroup.childrenComplete = [3, 2, 1] ∧
    sampleDoneHeap.map ResultGroup.Parent = [none, some 0, some 0] :=
  have h := Parent_set_at_construction_and_kept emptyBuild
    (plainBenchmark "b"
      [plainBenchmark "empty" [], plainBenchmark "full" [ModTreeItem.control (plainControl "x")]])
    ⟨⟨[("x", [3])], []⟩, 4⟩
    (plainGroup RootResultGroupName 0 none
      [plainGroup "b" 1 (some 0) [plainGroup "full" 3 (some 1) [] [⟨plainControl "x"⟩]] []] [])
    rfl
  ⟨h.2.2.1, h.2.2.2.1,
    h.2.2.2.2.2.2.2.2 (constEnv true (some "context canceled") false) sampleReportEnv 0
      sampleDoneHeap 0,
    by decide, by decide, by decide⟩

/-- C20 (the code departs from the claim): `collectInputs` succeeds on the
arguments `a=1` and `a=2`, and the returned map has `input.a` mapped to `2`, so
for the argument `a=1` the key `input.a` is not mapped to the text after its
`=`. -/
theorem collectInputs_keeps_last_value :
    ∃ res, collectInputs ["a=1", "a=2"] = Except.ok res ∧
      res "input.a" = some "2" ∧ res "input.a" ≠ some "1" :=
  ⟨_, rfl, by decide, by decide⟩

/-- C21 (the code departs from the claim): `collectInputs` returns an error
whenever some argument has no `=`, as claimed; but the arguments `x=1` and
`input.x=2`, which both have an `=` and whose input names `x` and `input.x` are
distinct, are rejected as "provided more than once". -/
theorem collectInputs_rejects_distinct_names :
    (∀ inputArgs : List String, (∃ a ∈ inputArgs, stringsIndexEq a.data = none) →
      ∃ msg, collectInputs inputArgs = Except.error msg) ∧
    stringsIndexEq "x=1".data = some 1 ∧ stringsIndexEq "input.x=2".data = some 7 ∧
    String.mk ("x=1".data.take 1) = "x" ∧ String.mk ("input.x=2".data.take 7) = "input.x" ∧
    collectInputs ["x=1", "input.x=2"] =
      Except.error "the dashboard-input option 'input.x' is provided more than once" :=
  ⟨fun inputArgs h => collectInputsLoop_missing_equals inputArgs InputMap.empty h,
    by decide, by decide, by decide, by decide, rfl⟩

/-- C22 (the code departs from the claim): the arguments `a=1` and `a=2` have
the same input name and `collectInputs` accepts them; the arguments `x=1` and
`input.x=2` have different input names and `collectInputs` returns the error
"the dashboard-input option 'input.x' is provided more than once". -/
theorem collectInputs_duplicate_check_wrong_key :
    (∃ res, collectInputs ["a=1", "a=2"] = Except.ok res) ∧
    String.mk ("a=1".data.take 1) = String.mk ("a=2".data.take 1) ∧
    collectInputs ["x=1", "input.x=2"] =
      Except.error "the dashboard-input option 'input.x' is provided more than once" ∧
    String.mk ("x=1".data.take 1) ≠ String.mk ("input.x=2".data.take 7) :=
  ⟨⟨_, rfl⟩, by decide, rfl, by decide⟩

/-- C23 (the code departs from the claim): with every other check passing,
`validateCheckArgs` returns the separator error exactly when the separator has
more than one byte; the separator `é` is a single character of two bytes and is
rejected, while the empty separator and `,` are accepted. -/
theorem validateCheckArgs_counts_bytes :
    (∀ separator : String, validateCheckArgs (passingArgs separator) = some separatorError ↔
      separator.utf8ByteSize > 1) ∧
    "é".length = 1 ∧ "é".utf8ByteSize = 2 ∧
    validateCheckArgs (passingArgs "é") =
      some "'--separator' can be 1 character long at most" ∧
    validateCheckArgs (passingArgs "") = none ∧
    validateCheckArgs (passingArgs ",") = none := by
  refine ⟨?_, by decide, by decide, by decide, by decide, by decide⟩
  intro separator
  unfold validateCheckArgs passingArgs
  by_cases h : separator.utf8ByteSize > 1 <;> simp [h]

/-- C24: when the context has an error, `executeQuery` returns an error without
calling `getClient` or `ExecuteSync` and without touching the run: the message
"dashboard execution timed out before execution of this node started" when the
message of the context error is the deadline-exceeded message, and the context
error itself otherwise. -/
theorem executeQuery_context_error (env : DetectionEnv) (r : DetectionRun) (err : String)
    (h : env.ctxErr = some err) :
    (r.executeQuery env).1 = r ∧ (r.executeQuery env).2.1 = [] ∧
    DetectionEvent.getClient ∉ (r.executeQuery env).2.1 ∧
    DetectionEvent.ExecuteSync ∉ (r.executeQuery env).2.1 ∧
    (err = deadlineExceededMessage → (r.executeQuery env).2.2 =
      some "dashboard execution timed out before execution of this node started") ∧
    (err ≠ deadlineExceededMessage → (r.executeQuery env).2.2 = some err) := by
  unfold DetectionRun.executeQuery
  simp only [h]
  by_cases hd : err = deadlineExceededMessage <;> simp [hd]

/-- C24, witness: with a deadline-exceeded context the sample run gets the
timed-out message, with a canceled context it gets the context error itself,
and no call is made. -/
theorem executeQuery_context_error_witness :
    (sampleRun.executeQuery
        { sampleDetectionEnv none with ctxErr := some "context deadline exceeded" }).2.2 =
      some "dashboard execution timed out before execution of this node started" ∧
    (sampleRun.executeQuery
        { sampleDetectionEnv none with ctxErr := some "context canceled" }).2.2 =
      some "context canceled" ∧
    (sampleRun.executeQuery
        { sampleDetectionEnv none with ctxErr := some "context canceled" }).2.1 = [] :=
  have h1 := executeQuery_context_error
    { sampleDetectionEnv none with ctxErr := some "context deadline exceeded" } sampleRun
    "context deadline exceeded" rfl
  have h2 := executeQuery_context_error
    { sampleDetectionEnv none with ctxErr := some "context canceled" } sampleRun
    "context canceled" rfl
  ⟨h1.2.2.2.2.1 rfl, h2.2.2.2.2.2 (by decide), h2.2.1⟩

/-- C25: `r.GetChildGroupByName(n)` is the first group with `GroupId` `n` among
the proper descendants of `r` in depth-first pre-order over `Groups`: it
returns a group exactly when some proper descendant has `GroupId` `n`, the
group returned has `GroupId` `n`, is a proper descendant, and no descendant
before it in pre-order has that `GroupId`; otherwise it returns nil. -/
theorem GetChildGroupByName_first_descendant (r : GroupTree) (n : String) :
    r.GetChildGroupByName n = r.descendants.find? (fun g => decide (g.GroupId = n)) ∧
    ((r.GetChildGroupByName n).isSome = true ↔ ∃ g ∈ r.descendants, g.GroupId = n) ∧
    (r.GetChildGroupByName n = none ↔ ∀ g ∈ r.descendants, g.GroupId ≠ n) ∧
    (∀ g, r.GetChildGroupByName n = some g →
      g.GroupId = n ∧ g ∈ r.descendants ∧
      ∃ before after, r.descendants = before ++ g :: after ∧
        ∀ x ∈ before, x.GroupId ≠ n) := by
  have heq := GetChildGroupByName_eq_find r n
  refine ⟨heq, ?_, ?_, ?_⟩
  · rw [heq, List.find?_isSome]
    simp
  · rw [heq, List.find?_eq_none]
    simp
  · intro g hg
    rw [heq] at hg
    have hfind := List.find?_eq_some.mp hg
    obtain ⟨hp, before, after, hsplit, hbefore⟩ := hfind
    refine ⟨by simpa using hp, List.mem_of_find?_eq_some hg, before, after, hsplit, ?_⟩
    intro x hx
    simpa using hbefore x hx

/-- C26, counterexample: in a state where the counter of group 1 already equals
its total child count 1, `onChildDone` makes the counter 2, which is not the
total, and yet runs the all-children-done block and calls `onChildDone` on the
parent. -/
theorem onChildDone_fires_above_total :
    childrenCompleteAt overDoneHeap 1 = 1 ∧ childCount overDoneHeap 1 = 1 ∧
    childrenCompleteAt (onChildDone overDoneHeap 1).1 1 = 2 ∧
    (onChildDone overDoneHeap 1).2 =
      [DoneEvent.called 1, DoneEvent.allDone 1, DoneEvent.called 0, DoneEvent.allDone 0] := by
  refine ⟨by decide, by decide, by decide, by decide⟩

/-- C26, amended: `onChildDone` on a group increments `childrenComplete` by one
(as a `uint32`) and then runs the all-children-done block (records the duration
and calls `Parent.onChildDone()` when `Parent` is not nil) if and only if the
new counter value is not below the total child count
`uint32(len(ControlRuns) + len(Groups))`; when the new value is below the total
it does nothing more. -/
theorem onChildDone_fires_iff_not_below_total (h : Heap) (r : Nat) (g : ResultGroup)
    (hg : h[r]? = some g) :
    (DoneEvent.allDone r ∈ (onChildDone h r).2 ↔
      (g.ControlRuns.length + g.Groups.length) % 4294967296 ≤
        (g.childrenComplete + 1) % 4294967296) ∧
    ((g.childrenComplete + 1) % 4294967296 <
        (g.ControlRuns.length + g.Groups.length) % 4294967296 →
      onChildDone h r =
        (h.set r { g with childrenComplete := (g.childrenComplete + 1) % 4294967296 },
          [DoneEvent.called r])) ∧
    ((g.ControlRuns.length + g.Groups.length) % 4294967296 ≤
        (g.childrenComplete + 1) % 4294967296 → g.Parent = none →
      onChildDone h r =
        (h.set r { g with childrenComplete := (g.childrenComplete + 1) % 4294967296 },
          [DoneEvent.called r, DoneEvent.allDone r])) ∧
    ((g.ControlRuns.length + g.Groups.length) % 4294967296 ≤
        (g.childrenComplete + 1) % 4294967296 → ∀ p : Nat, g.Parent = some p →
      onChildDone h r =
        ((onChildDoneFuel (h.length - 1)
            (h.set r { g with childrenComplete := (g.childrenComplete + 1) % 4294967296 }) p).1,
          DoneEvent.called r :: DoneEvent.allDone r ::
            (onChildDoneFuel (h.length - 1)
              (h.set r { g with childrenComplete := (g.childrenComplete + 1) % 4294967296 })
              p).2) ∧
      (p < r →
        (onChildDoneFuel (h.length - 1)
          (h.set r { g with childrenComplete := (g.childrenComplete + 1) % 4294967296 })
          p).2.head? = some (DoneEvent.called p))) := by
  have hr : r < h.length := by
    rcases List.getElem?_eq_some.mp hg with ⟨hlt, _⟩
    exact hlt
  obtain ⟨n, hn⟩ : ∃ n, h.length = n + 1 := ⟨h.length - 1, by omega⟩
  have hunf : onChildDone h r =
      (if (g.childrenComplete + 1) % 4294967296 <
          (g.ControlRuns.length + g.Groups.length) % 4294967296 then
        (h.set r { g with childrenComplete := (g.childrenComplete + 1) % 4294967296 },
          [DoneEvent.called r])
      else
        match g.Parent with
        | none =>
          (h.set r { g with childrenComplete := (g.childrenComplete + 1) % 4294967296 },
            [DoneEvent.called r, DoneEvent.allDone r])
        | some p =>
          ((onChildDoneFuel n
              (h.set r { g with childrenComplete := (g.childrenComplete + 1) % 4294967296 })
              p).1,
            DoneEvent.called r :: DoneEvent.allDone r ::
              (onChildDoneFuel n
                (h.set r { g with childrenComplete := (g.childrenComplete + 1) % 4294967296 })
                p).2)) := by
    unfold onChildDone
    rw [hn]
    conv_lhs => unfold onChildDoneFuel
    simp only [hg]
  have hn1 : h.length - 1 = n := by omega
  rw [hn1]
  refine ⟨?_, ?_, ?_, ?_⟩
  · rw [hunf]
    split
    · rename_i hlt
      simp
      omega
    · rename_i hge
      have hle := Nat.le_of_not_lt hge
      cases hp : g.Parent with
      | none => simp [hle]
      | some p => simp [hle]
  · intro hlt
    rw [hunf, if_pos hlt]
  · intro hle hp
    rw [hunf, if_neg (Nat.not_lt.mpr hle), hp]
  · intro hle p hp
    refine ⟨?_, ?_⟩
    · rw [hunf, if_neg (Nat.not_lt.mpr hle), hp]
    · intro hpr
      have hn0 : ∃ m, n = m + 1 := ⟨n - 1, by omega⟩
      obtain ⟨m, hm⟩ := hn0
      rw [hm]
      apply onChildDoneFuel_head
      rw [List.length_set]
      omega

/-- C26, witness: on the sample tree the first call on group 1 (two control
runs) only increments the counter. -/
theorem onChildDone_fires_iff_not_below_total_witness :
    sampleDoneHeap[1]? = some (cellWith "b1" (some 0) [] 2) ∧
    (DoneEvent.allDone 1 ∈ (onChildDone sampleDoneHeap 1).2 ↔
      ((cellWith "b1" (some 0) [] 2).ControlRuns.length +
          (cellWith "b1" (some 0) [] 2).Groups.length) % 4294967296 ≤
        ((cellWith "b1" (some 0) [] 2).childrenComplete + 1) % 4294967296) :=
  ⟨rfl, (onChildDone_fires_iff_not_below_total sampleDoneHeap 1
    (cellWith "b1" (some 0) [] 2) rfl).1⟩

/-- C27, counterexample: when group 1 of the sample tree (its parent is the
root, group 0) propagates upward, each of the three methods acquires the lock
of the root while the lock of group 1 is still held: after the second event the
locks of both groups are held, and the lock of group 1 is released last. -/
theorem propagation_holds_two_locks :
    (updateSummaryLocks sampleHeap 1 ⟨1, 0, 0, 0, 0⟩).2 =
      [LockEvent.lock 1, LockEvent.lock 0, LockEvent.unlock 0, LockEvent.unlock 1] ∧
    (updateSeverityCountsLocks sampleHeap 1 "high" ⟨1, 0, 0, 0, 0⟩).2 =
      [LockEvent.lock 1, LockEvent.lock 0, LockEvent.unlock 0, LockEvent.unlock 1] ∧
    (addDimensionKeysLocks sampleHeap 1 ["region"]).2 =
      [LockEvent.lock 1, LockEvent.lock 0, LockEvent.unlock 0, LockEvent.unlock 1] ∧
    heldAfter ((updateSummaryLocks sampleHeap 1 ⟨1, 0, 0, 0, 0⟩).2.take 2) = [0, 1] ∧
    heldAfter ((updateSeverityCountsLocks sampleHeap 1 "high" ⟨1, 0, 0, 0, 0⟩).2.take 2) =
      [0, 1] ∧
    heldAfter ((addDimensionKeysLocks sampleHeap 1 ["region"]).2.take 2) = [0, 1] := by
  refine ⟨rfl, rfl, rfl, rfl, rfl, rfl⟩

/-- C27, amended: while a result is propagated upward from group `r` of a tree
through `updateSummary`, `updateSeverityCounts` or `addDimensionKeys`, the locks
are nested: the lock of `r` and of each ancestor is acquired exactly once, in
the order child before parent, each is held until the call on the parent has
returned (after the k-th acquisition the first k groups of the chain are all
held), the locks are released in the opposite order, and none is held when the
method returns. -/
theorem propagation_locks_nested (h : Heap) (ht : h.isTree = true) (r : Nat) :
    (∀ s : StatusSummary,
      updateSummaryLocks h r s = (updateSummary h r s, nestedLocks (ancestorsOrSelf h r))) ∧
    (∀ (severity : String) (s : StatusSummary),
      updateSeverityCountsLocks h r severity s =
        (updateSeverityCounts h r severity s, nestedLocks (ancestorsOrSelf h r))) ∧
    (∀ keys : List String,
      addDimensionKeysLocks h r keys =
        (addDimensionKeys h r keys, nestedLocks (ancestorsOrSelf h r))) ∧
    (∀ g : Nat, (nestedLocks (ancestorsOrSelf h r)).count (LockEvent.lock g) =
      if g ∈ ancestorsOrSelf h r then 1 else 0) ∧
    (∀ k : Nat, k ≤ (ancestorsOrSelf h r).length →
      heldAfter ((nestedLocks (ancestorsOrSelf h r)).take k) =
        ((ancestorsOrSelf h r).take k).reverse) ∧
    heldAfter (nestedLocks (ancestorsOrSelf h r)) = [] := by
  refine ⟨?_, ?_, ?_, ?_, ?_, ?_⟩
  · intro s
    exact Prod.ext (updateSummaryLocksFuel_fst s _ h r) (updateSummaryLocksFuel_trace s _ h r)
  · intro severity s
    exact Prod.ext (updateSeverityCountsLocksFuel_fst severity s _ h r)
      (updateSeverityCountsLocksFuel_trace severity s _ h r)
  · intro keys
    exact Prod.ext (addDimensionKeysLocksFuel_fst keys _ h r)
      (addDimensionKeysLocksFuel_trace keys _ h r)
  · intro g
    rw [count_lock_nestedLocks]
    have hnd : (ancestorsOrSelf h r).Nodup := chainFuel_nodup h ht _ r
    by_cases hmem : g ∈ ancestorsOrSelf h r
    · rw [if_pos hmem]
      exact List.count_eq_one_of_mem hnd hmem
    · rw [if_neg hmem]
      exact List.count_eq_zero.mpr hmem
  · intro k hk
    exact heldAfter_take_nestedLocks _ k hk
  · exact heldAfter_nestedLocks _

/-- C27, witness: the sample tree is a tree, and from group 1 the lock of group
1 and the lock of the root are each acquired once. -/
theorem propagation_locks_nested_witness :
    sampleHeap.isTree = true ∧
    (nestedLocks (ancestorsOrSelf sampleHeap 1)).count (LockEvent.lock 0) =
      (if 0 ∈ ancestorsOrSelf sampleHeap 1 then 1 else 0) ∧
    heldAfter (nestedLocks (ancestorsOrSelf sampleHeap 1)) = [] :=
  ⟨by decide, (propagation_locks_nested sampleHeap (by decide) 1).2.2.2.1 0,
    (propagation_locks_nested sampleHeap (by decide) 1).2.2.2.2.2⟩

/-- C28: `r.ControlRunCount()` is defined on every finite tree of result groups
and equals `len(r.ControlRuns)` plus the sum of `ControlRunCount()` over
`r.Groups`, which is the number of control run entries in the subtree of `r`; it
is 0 exactly when no group of the subtree has a control run.  On the heap, where
the groups of `Groups` lie after their parent, the recursion returns with the
same equation and more fuel does not change its result, and the count of every
group is the same before and after `updateSummary`, `updateSeverityCounts`,
`addDimensionKeys` and `onChildDone`. -/
theorem ControlRunCount_counts_subtree (r : GroupTree) (h : Heap) (x : Nat) :
    r.ControlRunCount =
      r.ControlRuns.length + (r.Groups.map GroupTree.ControlRunCount).sum ∧
    r.ControlRunCount = r.allRuns.length ∧
    r.ControlRunCount = ((r :: r.descendants).map fun g => g.ControlRuns.length).sum ∧
    (r.ControlRunCount = 0 ↔ ∀ g ∈ r :: r.descendants, g.ControlRuns = []) ∧
    (h.groupsAfter = true →
      (∀ g : ResultGroup, h[x]? = some g →
        heapControlRunCount h x =
          g.ControlRuns.length + (g.Groups.map (heapControlRunCount h)).sum) ∧
      (∀ fuel : Nat, h.length ≤ fuel →
        heapControlRunCountFuel fuel h x = heapControlRunCount h x)) ∧
    (∀ (i : Nat) (s : StatusSummary),
      heapControlRunCount (updateSummary h i s) x = heapControlRunCount h x) ∧
    (∀ (i : Nat) (severity : String) (s : StatusSummary),
      heapControlRunCount (updateSeverityCounts h i severity s) x = heapControlRunCount h x) ∧
    (∀ (i : Nat) (keys : List String),
      heapControlRunCount (addDimensionKeys h i keys) x = heapControlRunCount h x) ∧
    (∀ i : Nat, heapControlRunCount (onChildDone h i).1 x = heapControlRunCount h x) := by
  refine ⟨ControlRunCount_unfold r, ControlRunCount_eq_allRuns r,
    ControlRunCount_eq_sum_descendants r, ?_, ?_, ?_, ?_, ?_, ?_⟩
  · rw [ControlRunCount_eq_sum_descendants, List.sum_eq_zero_iff]
    constructor
    · intro H g hg
      exact List.length_eq_zero.mp (H _ (List.mem_map.mpr ⟨g, hg, rfl⟩))
    · intro H n hn
      rcases List.mem_map.mp hn with ⟨g, hg, rfl⟩
      exact List.length_eq_zero.mpr (H g hg)
  · intro hd
    refine ⟨fun g hg => heapControlRunCount_unfold h hd x g hg, ?_⟩
    intro fuel hfuel
    exact heapControlRunCountFuel_stable h hd fuel h.length x (by omega) (by omega)
  · intro i s
    exact heapControlRunCount_congr h _ (updateSummaryFuel_map_members s _ h i) x
  · intro i severity s
    exact heapControlRunCount_congr h _
      (updateSeverityCountsFuel_map_members severity s _ h i) x
  · intro i keys
    exact heapControlRunCount_congr h _ (addDimensionKeysFuel_map_members keys _ h i) x
  · intro i
    exact heapControlRunCount_congr h _ (onChildDoneFuel_map_members _ h i) x

/-- C28, witness: in the sample heap the groups lie after their parent, and the
count of the root is its one control run plus the counts of groups 1 and 2,
four in all. -/
theorem ControlRunCount_counts_subtree_witness :
    sampleDoneHeap.groupsAfter = true ∧
    sampleDoneHeap[0]? = some (cellWith "root_result_group" none [1, 2] 1) ∧
    heapControlRunCount sampleDoneHeap 0 =
      (cellWith "root_result_group" none [1, 2] 1).ControlRuns.length +
        ((cellWith "root_result_group" none [1, 2] 1).Groups.map
          (heapControlRunCount sampleDoneHeap)).sum ∧
    heapControlRunCount sampleDoneHeap 0 = 4 :=
  ⟨by decide, rfl,
    ((ControlRunCount_counts_subtree sampleTree sampleDoneHeap 0).2.2.2.2.1 (by decide)).1
      (cellWith "root_result_group" none [1, 2] 1) rfl,
    by decide⟩

/-- C29: `r.AllTagKeys()` is sorted in strictly ascending order, so it has no
duplicate, and a key occurs in it if and only if it is a key of the `Tags` of
`r` or of a descendant group of `r`, or a key of the `Tags` of the control of a
control run of `r` or of a descendant group of `r`; on the sample tree the result
is `cis`, `plugin`, `service`. -/
theorem AllTagKeys_sorted_keys_of_subtree (r : GroupTree) :
    List.Sorted (fun a b : String => a < b) r.AllTagKeys ∧
    r.AllTagKeys.Nodup ∧
    (∀ k : String, k ∈ r.AllTagKeys ↔
      ∃ g ∈ r :: r.descendants,
        k ∈ g.Tags.map Prod.fst ∨
          ∃ run ∈ g.ControlRuns, k ∈ run.Control.tags.map Prod.fst) ∧
    taggedTree.AllTagKeys = ["cis", "plugin", "service"] := by
  refine ⟨(AllTagKeys_sorted r).1, (AllTagKeys_sorted r).2, ?_, by decide⟩
  intro k
  exact mem_AllTagKeys r k

/-- C30: `DashboardCategoryFold.Equals` does not compare the thresholds by
value: it compares the two `*int` pointers.  Two folds with the same title, the
same threshold number and the same icon whose thresholds are stored at
different addresses (folds built separately) are not equal, whatever
`SafeStringsEqual` answers; `Equals` is true exactly when `SafeStringsEqual`
accepts the titles and the icons and the thresholds are both nil or the same
pointer; `f.Equals(nil)` is false. -/
theorem DashboardCategoryFold_Equals_compares_threshold_pointers
    (SafeStringsEqual : Option String → Option String → Bool) :
    (∀ (title icon : Option String) (n : Int) (a d : Nat),
      DashboardCategoryFold.Equals SafeStringsEqual
        { Title := title, Threshold := some ⟨a, n⟩, Icon := icon }
        (some { Title := title, Threshold := some ⟨a + 1 + d, n⟩, Icon := icon }) = false) ∧
    (sampleFold 1).Title = (sampleFold 2).Title ∧
    (sampleFold 1).Icon = (sampleFold 2).Icon ∧
    (sampleFold 1).Threshold.map IntRef.val = (sampleFold 2).Threshold.map IntRef.val ∧
    (sampleFold 1).Equals SafeStringsEqual (some (sampleFold 2)) = false ∧
    (∀ f o : DashboardCategoryFold,
      f.Equals SafeStringsEqual (some o) = true ↔
        SafeStringsEqual f.Title o.Title = true ∧
        ((f.Threshold = none ∧ o.Threshold = none) ∨
          ∃ a b : IntRef, f.Threshold = some a ∧ o.Threshold = some b ∧ a.addr = b.addr) ∧
        SafeStringsEqual f.Icon o.Icon = true) ∧
    (∀ f : DashboardCategoryFold, f.Equals SafeStringsEqual none = false) := by
  have hptr : ∀ x y : Option IntRef, intPtrEq x y = true ↔
      ((x = none ∧ y = none) ∨ ∃ a b : IntRef, x = some a ∧ y = some b ∧ a.addr = b.addr) := by
    intro x y
    cases x with
    | none => cases y <;> simp [intPtrEq]
    | some a => cases y <;> simp [intPtrEq]
  refine ⟨?_, rfl, rfl, rfl, ?_, ?_, fun _ => rfl⟩
  · intro title icon n a d
    have hne : intPtrEq (some ⟨a, n⟩) (some ⟨a + 1 + d, n⟩) = false := by
      have hlt : ¬ (a = a + 1 + d) := by omega
      simp [intPtrEq, hlt]
    simp [DashboardCategoryFold.Equals, hne]
  · have hne : intPtrEq (sampleFold 1).Threshold (sampleFold 2).Threshold = false := by
      decide
    simp [DashboardCategoryFold.Equals, hne]
  · intro f o
    simp only [DashboardCategoryFold.Equals, Bool.and_eq_true, hptr, and_assoc]

end Powerpipe
